import Mathlib

/-!
# PhyloHmm: the log-domain dynamic programs of `tree/phylohmm.cpp`

Shallow embedding of `PhyloHmm::computeBackLike`, `PhyloHmm::computeMaxPath`,
`PhyloHmm::optimizeProbEM`, `PhyloHmm::computeLogProb`, `PhyloHmm::showSiteCatMaxLike` and
the constructor.

Modelling conventions

* `double` is a type `α`: `computeMaxPath` needs only `+` and a decidable `<` on it,
  `optimizeProbEM` a linearly ordered field. The definitions are computable for every `α`
  with decidable order. Instances with exact arithmetic are `ℤ`, `ℚ` and `ℝ` (the theorems
  about `exp`/`log` take `α = ℝ`); the instance with the rounded addition of binary64 is
  `Dbl`.
* Every C array is a function `Nat → _` from the flat index to the value, a pointer into an
  array is the offset of its first cell, a store is `Function.update`.
* `size_t`/`int` counters are `Nat`; the loop `for (i = a; i < b; i++)` is
  `forLoop body a (b - a)`.
* The two blocks `showSiteCatMaxLike` allocates with `new` are lists of their allocated
  length with checked indexing (`showStats`), and the indexes `computeMaxPath` uses are
  collected by `maxPathFwdLog` and `maxPathEndLog`.
* The transition log-matrix `modelHmm->getTransitLog()` is the field `transitLog`
  (class `ModelHmm` is outside this file), and `logDotProd`, `exp`, `log` are parameters
  `ldp`, `expf`, `logf` of the definitions that call them.
-/

/-! ## Definitions -/

/-- Counted loop: `forLoop body lo n s` runs `body lo`, `body (lo+1)`, ..., `body (lo+n-1)`
in this order, starting from state `s`. -/
def forLoop {σ : Type} (body : Nat → σ → σ) : Nat → Nat → σ → σ
  | _, 0, s => s
  | lo, n + 1, s => forLoop body (lo + 1) n (body lo s)

/-- The member variables of class `PhyloHmm` that the algorithms read or write. -/
structure PhyloHmm (α : Type) where
  /-- number of sites -/
  nsite : Nat
  /-- number of categories -/
  ncat : Nat
  /-- category probabilities, length `ncat` -/
  prob : Nat → α
  /-- logarithms of `prob`, length `ncat` -/
  prob_log : Nat → α
  /-- row-major `nsite × ncat` table of per-site per-category log-likelihoods -/
  site_like_cat : Nat → α
  /-- decoded category of every site, length `nsite` -/
  site_categories : Nat → Nat
  /-- scratch buffer of two rows of `ncat` cells -/
  work_arr : Nat → α
  /-- row-major `nsite × ncat` table of backpointers -/
  next_cat : Nat → Nat
  /-- score of the path found by the last `computeMaxPath` -/
  pathLogLike : α
  /-- the array returned by `modelHmm->getTransitLog()`, `ncat × ncat` cells -/
  transitLog : Nat → α

/-- The two arrays written by the recurrences together with the local variables of
`computeBackLike` / `computeMaxPath` / `optimizeProbEM`. Pointers are offsets:
`pre_work`, `work` into `work_arr`, `site_lh_arr` into `site_like_cat`, `transit_arr` into
the transition array, `next_cat_arr` into `next_cat`. -/
@[ext]
structure Locals (α : Type) where
  work_arr : Nat → α
  next_cat : Nat → Nat
  pre_k : Nat
  k : Nat
  pre_work : Nat
  work : Nat
  site_lh_arr : Nat
  transit_arr : Nat
  next_cat_arr : Nat

namespace PhyloHmm

variable {α : Type}

/-- Lines 69-78 / 96-106 / 160-169: `pre_k = 0`, `site_lh_arr = site_like_cat`,
`memcpy(work_arr, site_lh_arr, sizeof(double) * ncat)`, `pre_work = work_arr`.
The locals not yet assigned by the C code start at 0. -/
def initLocals (h : PhyloHmm α) : Locals α :=
  { work_arr := fun x => if x < h.ncat then h.site_like_cat x else h.work_arr x
    next_cat := h.next_cat
    pre_k := 0
    k := 0
    pre_work := 0
    work := 0
    site_lh_arr := 0
    transit_arr := 0
    next_cat_arr := 0 }

/-! ### computeMaxPath (lines 95-156) -/

/-- Lines 118-122, body of the loop over `l`. -/
def maxPathL [Add α] [LT α] [DecidableRel (fun (a b : α) => a < b)]
    (h : PhyloHmm α) (j l : Nat) (s : Locals α) : Locals α :=
  let v := h.transitLog (s.transit_arr + l) + s.work_arr (s.pre_work + l)
  if s.work_arr (s.work + j) < v then
    { s with
      work_arr := Function.update s.work_arr (s.work + j) v
      next_cat := Function.update s.next_cat (s.next_cat_arr + j) l }
  else s

/-- Lines 115-125, body of the loop over `j`. -/
def maxPathJ [Add α] [LT α] [DecidableRel (fun (a b : α) => a < b)]
    (h : PhyloHmm α) (j : Nat) (s : Locals α) : Locals α :=
  let s1 : Locals α :=
    { s with
      work_arr := Function.update s.work_arr (s.work + j)
        (h.transitLog (s.transit_arr + 0) + s.work_arr (s.pre_work + 0))
      next_cat := Function.update s.next_cat (s.next_cat_arr + j) 0 }
  let s2 := forLoop (maxPathL h j) 1 (h.ncat - 1) s1
  { s2 with
    work_arr := Function.update s2.work_arr (s2.work + j)
      (s2.work_arr (s2.work + j) + h.site_like_cat (s2.site_lh_arr + j))
    transit_arr := s2.transit_arr + h.ncat }

/-- Lines 109-128, body of the loop over `i`. -/
def maxPathI [Add α] [LT α] [DecidableRel (fun (a b : α) => a < b)]
    (h : PhyloHmm α) (i : Nat) (s : Locals α) : Locals α :=
  let k := (s.pre_k + 1) % 2
  let s1 : Locals α :=
    { s with
      k := k
      work := k * h.ncat
      site_lh_arr := s.site_lh_arr + h.ncat
      transit_arr := 0
      next_cat_arr := (h.nsite - i - 1) * h.ncat }
  let s2 := forLoop (maxPathJ h) 0 h.ncat s1
  { s2 with pre_k := s2.k, pre_work := s2.work }

/-- Lines 96-129: the locals after `m` rounds of the loop over `i` (rows `1..m`). -/
def maxPathLoop [Add α] [LT α] [DecidableRel (fun (a b : α) => a < b)]
    (h : PhyloHmm α) (m : Nat) : Locals α :=
  forLoop (maxPathI h) 1 m (initLocals h)

/-- Lines 135-139, body of the loop choosing the start category; the state is
`(max_log_like, max_cat)`. -/
def maxPathStart [Add α] [LT α] [DecidableRel (fun (a b : α) => a < b)]
    (h : PhyloHmm α) (s : Locals α) (j : Nat) (m : α × Nat) : α × Nat :=
  let v := h.prob_log j + s.work_arr (s.pre_work + j)
  if m.1 < v then (v, j) else m

/-- Lines 149-150, body of the traceback loop; the state is `(site_categories, max_cat)`. -/
def maxPathTrace (h : PhyloHmm α) (next_cat : Nat → Nat) (i : Nat)
    (t : (Nat → Nat) × Nat) : (Nat → Nat) × Nat :=
  let max_cat := next_cat (i * h.ncat + t.2)
  (Function.update t.1 (i + 1) max_cat, max_cat)

/-- Function `PhyloHmm::computeMaxPath` (lines 95-156): the returned value and the object
after the call. -/
def computeMaxPath [Add α] [LT α] [DecidableRel (fun (a b : α) => a < b)]
    (h : PhyloHmm α) : α × PhyloHmm α :=
  let s := maxPathLoop h (h.nsite - 1)
  let m := forLoop (maxPathStart h s) 1 (h.ncat - 1)
    (h.prob_log 0 + s.work_arr (s.pre_work + 0), 0)
  let t := forLoop (maxPathTrace h s.next_cat) 0 (h.nsite - 1)
    (Function.update h.site_categories 0 m.2, m.2)
  (m.1,
    { h with
      work_arr := s.work_arr
      next_cat := s.next_cat
      site_categories := t.1
      pathLogLike := m.1 })

/-! ### computeBackLike (lines 68-92) and the forward pass of optimizeProbEM (lines 160-181)

The two passes differ in one expression only, the row toggle: `(pre_k + 1) % 2` in
`computeBackLike`, `pre_k ^ 1` in `optimizeProbEM`; it is the argument `next_k`. -/

/-- Lines 85-86 (176-177), body of the loop over `j`. -/
def backLikeJ [Add α] (ldp : (Nat → α) → (Nat → α) → Nat → α)
    (h : PhyloHmm α) (j : Nat) (s : Locals α) : Locals α :=
  { s with
    work_arr := Function.update s.work_arr (s.work + j)
      (ldp (fun l => h.transitLog (s.transit_arr + l)) (fun l => s.work_arr (s.pre_work + l))
          h.ncat
        + h.site_like_cat (s.site_lh_arr + j))
    transit_arr := s.transit_arr + h.ncat }

/-- Lines 80-89 (171-180), body of the loop over `i`. -/
def backLikeI [Add α] (next_k : Nat → Nat) (ldp : (Nat → α) → (Nat → α) → Nat → α)
    (h : PhyloHmm α) (_i : Nat) (s : Locals α) : Locals α :=
  let k := next_k s.pre_k
  let s1 : Locals α :=
    { s with
      k := k
      work := k * h.ncat
      site_lh_arr := s.site_lh_arr + h.ncat
      transit_arr := 0 }
  let s2 := forLoop (backLikeJ ldp h) 0 h.ncat s1
  { s2 with pre_k := s2.k, pre_work := s2.work }

/-- Lines 69-90 (160-181): the locals after `m` rounds of the loop over `i` (rows `1..m`). -/
def backLikeLoop [Add α] (next_k : Nat → Nat) (ldp : (Nat → α) → (Nat → α) → Nat → α)
    (h : PhyloHmm α) (m : Nat) : Locals α :=
  forLoop (backLikeI next_k ldp h) 1 m (initLocals h)

/-- Function `PhyloHmm::computeBackLike` (lines 68-92): the returned value and the object
after the call (only the scratch buffer changes). -/
def computeBackLike [Add α] (ldp : (Nat → α) → (Nat → α) → Nat → α)
    (h : PhyloHmm α) : α × PhyloHmm α :=
  let s := backLikeLoop (fun pre_k => (pre_k + 1) % 2) ldp h (h.nsite - 1)
  (ldp h.prob_log (fun l => s.work_arr (s.pre_work + l)) h.ncat,
    { h with work_arr := s.work_arr })

/-! ### computeLogProb (lines 289-294), optimizeProbEM (lines 159-218), constructor -/

/-- Function `PhyloHmm::computeLogProb` (lines 289-294). -/
def computeLogProb (logf : α → α) (h : PhyloHmm α) : PhyloHmm α :=
  { h with
    prob_log := forLoop (fun i pl => Function.update pl i (logf (h.prob i))) 0 h.ncat
      h.prob_log }

/-- Lines 186-188 of `optimizeProbEM`: `work[j] = prob_log[j] + pre_work[j]` for `j < ncat`,
on the scratch buffer `w`. -/
def emScoreRow [Add α] (h : PhyloHmm α) (work pre_work : Nat) (w : Nat → α) : Nat → α :=
  forLoop (fun j w => Function.update w (work + j) (h.prob_log j + w (pre_work + j))) 0 h.ncat w

/-- Lines 189-204 of `optimizeProbEM`, on the scratch buffer `w1`: find the maximum of row
`work` and its first index `max_j`, overwrite `work[j]` by `exp (work[j] - max)` for
`j < max_j`, store 1.0 in `work[max_j]`, overwrite `work[j]` by `exp (work[j] - max)` for
`max_j < j < ncat`. -/
def emExpRow [LinearOrderedField α] (expf : α → α) (ncat work : Nat) (w1 : Nat → α) :
    Nat → α :=
  -- lines 189-196, the state is (max, max_j)
  let mx := forLoop
    (fun j (m : α × Nat) => if m.1 < w1 (work + j) then (w1 (work + j), j) else m)
    1 (ncat - 1) (w1 (work + 0), 0)
  -- lines 198-200
  let w2 := forLoop (fun j w => Function.update w (work + j) (expf (w (work + j) - mx.1)))
    0 mx.2 w1
  -- line 201
  let w3 := Function.update w2 (work + mx.2) 1
  -- lines 202-204
  forLoop (fun j w => Function.update w (work + j) (expf (w (work + j) - mx.1)))
    (mx.2 + 1) (ncat - (mx.2 + 1)) w3

/-- Function `PhyloHmm::optimizeProbEM` (lines 159-218): the returned value and the object
after the call. -/
def optimizeProbEM [LinearOrderedField α] (ldp : (Nat → α) → (Nat → α) → Nat → α)
    (expf logf : α → α) (h : PhyloHmm α) : α × PhyloHmm α :=
  -- lines 160-181
  let s := backLikeLoop (fun pre_k => pre_k ^^^ 1) ldp h (h.nsite - 1)
  -- lines 183-184
  let k := s.pre_k ^^^ 1
  let work := k * h.ncat
  -- lines 186-188
  let w1 := emScoreRow h work s.pre_work s.work_arr
  -- lines 189-204
  let w4 := emExpRow expf h.ncat work w1
  -- lines 206-209
  let sum_like := forLoop (fun j acc => acc + w4 (work + j)) 0 h.ncat 0
  -- lines 211-214
  let sum_like := 1 / sum_like
  let prob := forLoop (fun j p => Function.update p j (w4 (work + j) * sum_like)) 0 h.ncat
    h.prob
  -- line 215
  let h' := computeLogProb logf { h with prob := prob, work_arr := w4 }
  -- line 217
  (ldp h'.prob_log (fun l => w4 (s.pre_work + l)) h.ncat, h')

/-- Constructor `PhyloHmm::PhyloHmm(int n_site, int n_cat)`, lines 20-44. `fresh` holds what
the freshly allocated arrays contain and the transition array of the `ModelHmm` the
constructor creates. -/
def create [LinearOrderedField α] (logf : α → α) (n_site n_cat : Nat) (fresh : PhyloHmm α) :
    PhyloHmm α :=
  let init_prob_value : α := 1 / (n_cat : α)
  computeLogProb logf
    { fresh with
      nsite := n_site
      ncat := n_cat
      prob := forLoop (fun i p => Function.update p i init_prob_value) 0 n_cat fresh.prob }

/-! ### Specification-level notions -/

/-- Running maximum of `f 0, ..., f n` together with the first index attaining it. -/
def maxScan [LT α] [DecidableRel (fun (a b : α) => a < b)] (f : Nat → α) : Nat → α × Nat
  | 0 => (f 0, 0)
  | n + 1 => if (maxScan f n).1 < f (n + 1) then (f (n + 1), n + 1) else maxScan f n

/-- One max-accumulator row per site: `vitRow h i j` is the value of the Viterbi recurrence
for row `i` of `site_like_cat` and category `j`. -/
def vitRow [Add α] [LT α] [DecidableRel (fun (a b : α) => a < b)] (h : PhyloHmm α) :
    Nat → Nat → α
  | 0, j => h.site_like_cat j
  | i + 1, j =>
    (maxScan (fun l => h.transitLog (j * h.ncat + l) + vitRow h i l) (h.ncat - 1)).1
      + h.site_like_cat ((i + 1) * h.ncat + j)

/-- The backpointer of row `i + 1` and category `j`: the first category of row `i` attaining
the maximum in `vitRow h (i + 1) j`. -/
def vitArg [Add α] [LT α] [DecidableRel (fun (a b : α) => a < b)] (h : PhyloHmm α)
    (i j : Nat) : Nat :=
  (maxScan (fun l => h.transitLog (j * h.ncat + l) + vitRow h i l) (h.ncat - 1)).2

/-- The pair (best score, first best category) of the last row combined with the log prior. -/
def vitStart [Add α] [LT α] [DecidableRel (fun (a b : α) => a < b)] (h : PhyloHmm α) :
    α × Nat :=
  maxScan (fun j => h.prob_log j + vitRow h (h.nsite - 1) j) (h.ncat - 1)

/-- The categories in the order the traceback writes them: entry 0 is the start category,
entry `m + 1` follows the backpointer of row `nsite - 1 - m`. -/
def vitPath [Add α] [LT α] [DecidableRel (fun (a b : α) => a < b)] (h : PhyloHmm α) :
    Nat → Nat
  | 0 => (vitStart h).2
  | m + 1 => vitArg h (h.nsite - 1 - m - 1) (vitPath h m)

/-- One accumulator row per site for the sum recurrence: `accRow ldp h i j` is the value for
row `i` of `site_like_cat` and category `j`. -/
def accRow [Add α] (ldp : (Nat → α) → (Nat → α) → Nat → α) (h : PhyloHmm α) : Nat → Nat → α
  | 0, j => h.site_like_cat j
  | i + 1, j =>
    ldp (fun l => h.transitLog (j * h.ncat + l)) (accRow ldp h i) h.ncat
      + h.site_like_cat ((i + 1) * h.ncat + j)

/-- The forward value computed with one accumulator row per site. -/
def backLikeRows [Add α] (ldp : (Nat → α) → (Nat → α) → Nat → α) (h : PhyloHmm α) : α :=
  ldp h.prob_log (accRow ldp h (h.nsite - 1)) h.ncat

/-- Joint log score of the assignment `c` of a category to every row of `site_like_cat`:
log prior of the category of the last row, the table entries, and the transition logs
`T[c(i) * ncat + c(i-1)]` for `1 ≤ i < nsite`. -/
def jointScore [AddCommMonoid α] (h : PhyloHmm α) (c : Nat → Nat) : α :=
  h.prob_log (c (h.nsite - 1))
    + ∑ i ∈ Finset.range h.nsite, h.site_like_cat (i * h.ncat + c i)
    + ∑ i ∈ Finset.Ico 1 h.nsite, h.transitLog (c i * h.ncat + c (i - 1))

/-- Score of the rows `0..r` of an assignment, without the prior. -/
def headScore [AddCommMonoid α] (h : PhyloHmm α) (c : Nat → Nat) (r : Nat) : α :=
  ∑ i ∈ Finset.range (r + 1), h.site_like_cat (i * h.ncat + c i)
    + ∑ i ∈ Finset.Ico 1 (r + 1), h.transitLog (c i * h.ncat + c (i - 1))

/-- An assignment gives every row a category below `ncat`. -/
def IsAssignment (h : PhyloHmm α) (c : Nat → Nat) : Prop :=
  ∀ i, i < h.nsite → c i < h.ncat

/-- The row written by one round of the loop over `i` of `computeMaxPath`, from the previous
row `prev`: the value and the backpointer of category `j`. -/
def stepRow [Add α] [LT α] [DecidableRel (fun (a b : α) => a < b)] (h : PhyloHmm α)
    (prev : Nat → α) (site_lh j : Nat) : α × Nat :=
  ((maxScan (fun l => h.transitLog (j * h.ncat + l) + prev l) (h.ncat - 1)).1
      + h.site_like_cat (site_lh + j),
    (maxScan (fun l => h.transitLog (j * h.ncat + l) + prev l) (h.ncat - 1)).2)

/-- What holds of the locals after `m` rounds of the loop over `i` of `computeMaxPath`. -/
structure MaxInv [Add α] [LT α] [DecidableRel (fun (a b : α) => a < b)] (h : PhyloHmm α)
    (m : Nat) (s : Locals α) : Prop where
  pre_k_lt : s.pre_k < 2
  pre_work_eq : s.pre_work = s.pre_k * h.ncat
  site_lh_eq : s.site_lh_arr = m * h.ncat
  row_eq : ∀ j, j < h.ncat → s.work_arr (s.pre_work + j) = vitRow h m j
  arg_eq : ∀ i j, i < m → j < h.ncat →
    s.next_cat ((h.nsite - (i + 1) - 1) * h.ncat + j) = vitArg h i j

/-- The primitive `ldp a b n` reads only the first `n` cells of its two arrays. -/
def LdpLocal (ldp : (Nat → α) → (Nat → α) → Nat → α) : Prop :=
  ∀ (a a' b b' : Nat → α) (n : Nat),
    (∀ l, l < n → a l = a' l) → (∀ l, l < n → b l = b' l) → ldp a b n = ldp a' b' n

/-- The row toggle maps row 0 to row 1 and row 1 to row 0. -/
def IsToggle (next_k : Nat → Nat) : Prop :=
  ∀ k, k < 2 → next_k k < 2 ∧ next_k k ≠ k

/-- What holds of the locals after `m` rounds of the loop over `i` of the sum recurrence. -/
structure BackInv [Add α] (ldp : (Nat → α) → (Nat → α) → Nat → α) (h : PhyloHmm α)
    (m : Nat) (s : Locals α) : Prop where
  pre_k_lt : s.pre_k < 2
  pre_work_eq : s.pre_work = s.pre_k * h.ncat
  site_lh_eq : s.site_lh_arr = m * h.ncat
  row_eq : ∀ j, j < h.ncat → s.work_arr (s.pre_work + j) = accRow ldp h m j

/-- The accumulator cell `work[j]` of `computeBackLike` after the round of the loop for row
`i` (for `i = 0`: after the initial `memcpy`). -/
def backLikeAcc [Add α] (ldp : (Nat → α) → (Nat → α) → Nat → α) (h : PhyloHmm α)
    (i j : Nat) : α :=
  (backLikeLoop (fun pre_k => (pre_k + 1) % 2) ldp h i).work_arr
    ((backLikeLoop (fun pre_k => (pre_k + 1) % 2) ldp h i).pre_work + j)

/-- The vector `optimizeProbEM` takes the softmax of (lines 186-188): log prior plus the
accumulator of the last row. -/
def emScore [Add α] (ldp : (Nat → α) → (Nat → α) → Nat → α) (h : PhyloHmm α) (j : Nat) : α :=
  h.prob_log j + accRow ldp h (h.nsite - 1) j

/-- The weights of lines 198-204: 1 at the first index of the maximum of `emScore`,
`exp (emScore j - max)` elsewhere. -/
def emWeight [LinearOrderedField α] (ldp : (Nat → α) → (Nat → α) → Nat → α) (expf : α → α)
    (h : PhyloHmm α) (j : Nat) : α :=
  if j = (maxScan (emScore ldp h) (h.ncat - 1)).2 then 1
  else expf (emScore ldp h j - (maxScan (emScore ldp h) (h.ncat - 1)).1)

/-- The prior is strictly positive, sums to 1 and `prob_log` holds its logarithms. -/
def PriorOk (h : PhyloHmm ℝ) : Prop :=
  (∀ c, c < h.ncat → 0 < h.prob c)
  ∧ ∑ c ∈ Finset.range h.ncat, h.prob c = 1
  ∧ ∀ c, c < h.ncat → h.prob_log c = Real.log (h.prob c)

/-- The accumulator cell `work[j]` of `computeMaxPath` after the round of the loop for row
`i` (for `i = 0`: after the initial `memcpy`). -/
def maxPathAcc [Add α] [LT α] [DecidableRel (fun (a b : α) => a < b)] (h : PhyloHmm α)
    (i j : Nat) : α :=
  (maxPathLoop h i).work_arr ((maxPathLoop h i).pre_work + j)

/-- Index `l` is the smallest index below `n` at which `f` takes its largest value:
`l < n`, no index below `n` has a larger value, every index before `l` has a strictly
smaller value. -/
def IsFirstArgmax [LE α] [LT α] (f : Nat → α) (n l : Nat) : Prop :=
  l < n ∧ (∀ x, x < n → f x ≤ f l) ∧ ∀ x, x < l → f x < f l

/-! ### showSiteCatMaxLike (lines 243-286) -/

/-- One line `[first,last]` tab `cat` of the segment table (lines 254 and 259). -/
structure Segment where
  first : Nat
  last : Nat
  cat : Nat
deriving DecidableEq

/-- Lines 253-257, body of the loop over `i`; the state is the lines written so far,
`pre_max_cat` and `pre_site`. -/
def showSegStep (h : PhyloHmm α) (i : Nat) (s : List Segment × Nat × Nat) :
    List Segment × Nat × Nat :=
  if h.site_categories i ≠ s.2.1 then
    (s.1 ++ [{ first := s.2.2 + 1, last := i, cat := s.2.1 + 1 }], h.site_categories i, i)
  else s

/-- Lines 250-259: the segment lines written to `out`. After the loop the counter `i` is
`1 + (nsite - 1)`. -/
def showSegments (h : PhyloHmm α) : List Segment :=
  let s := forLoop (showSegStep h) 1 (h.nsite - 1) ([], h.site_categories 0, 0)
  s.1 ++ [{ first := s.2.2 + 1, last := 1 + (h.nsite - 1), cat := s.2.1 + 1 }]

/-- What holds of the state of the segment loop after the rounds `i = 1..m`. -/
structure SegInv (h : PhyloHmm α) (m : Nat) (s : List Segment × Nat × Nat) : Prop where
  pre_site_le : s.2.2 ≤ m
  run : ∀ x, s.2.2 ≤ x → x ≤ m → h.site_categories x = s.2.1
  chain : s.1.Chain' (fun a b => b.first = a.last + 1 ∧ a.cat ≠ b.cat)
  segs : ∀ a, a ∈ s.1 → 1 ≤ a.first ∧ a.first ≤ a.last ∧ a.last ≤ s.2.2
    ∧ ∀ x, a.first ≤ x → x ≤ a.last → h.site_categories (x - 1) + 1 = a.cat
  empty : s.1 = [] → s.2.2 = 0
  last : ∀ a, a ∈ s.1.getLast? → a.last = s.2.2 ∧ a.cat ≠ s.2.1 + 1
  head : ∀ a, a ∈ s.1.head? → a.first = 1
  cover : ∀ x, 1 ≤ x → x ≤ s.2.2 → ∃ a, a ∈ s.1 ∧ a.first ≤ x ∧ x ≤ a.last

/-- Lines 264-266 on the heap block `numSites`: `numSites[site_categories[i]]++`. The state
is `none` once an index falls outside the block. -/
def countStep (h : PhyloHmm α) (i : Nat) (ns : Option (List Nat)) : Option (List Nat) :=
  ns.bind fun a =>
    if h.site_categories i < a.length then
      some (a.set (h.site_categories i) (a.getD (h.site_categories i) 0 + 1))
    else none

/-- Lines 267-268 on the heap blocks `numSites` and `rateSites`:
`rateSites[i] = (double) numSites[i] / nsite`. The state is `none` once an index falls outside
a block. -/
def rateStep [LinearOrderedField α] (h : PhyloHmm α) (i : Nat)
    (st : Option (List Nat × List α)) : Option (List Nat × List α) :=
  st.bind fun p =>
    if i < p.1.length ∧ i < p.2.length then
      some (p.1, p.2.set i ((p.1.getD i 0 : α) / (h.nsite : α)))
    else none

/-- Lines 261-279: `numSites = new int[nsite]` set to 0 and `rateSites = new double[nsite]`
are blocks of `nsite` cells; the result is the pair of lists printed for the categories
`0..ncat-1` (lines 272-278 read the cells line 268 has used), or `none` when an index falls
outside a block. -/
def showStats [LinearOrderedField α] (h : PhyloHmm α) : Option (List Nat × List α) :=
  let ns := forLoop (countStep h) 0 h.nsite (some (List.replicate h.nsite 0))
  let st := forLoop (rateStep h) 0 h.ncat (ns.map fun a => (a, List.replicate h.nsite 0))
  st.map fun p => (p.1.take h.ncat, p.2.take h.ncat)

/-- Function `PhyloHmm::showSiteCatMaxLike` (lines 243-286): the segment lines written
first, the statistics, and the reported `pathLogLike`. The function has no statement that
tests whether `computeMaxPath` has run and no `throw`, `assert` or early return. -/
def showSiteCatMaxLike [LinearOrderedField α] (h : PhyloHmm α) :
    List Segment × Option (List Nat × List α) × α :=
  (showSegments h, showStats h, h.pathLogLike)

/-- The constructor as a call that could end in an error: lines 20-44 contain no test of
`n_site` or `n_cat` and no `throw`, `assert`, `exit` or early return, so every call ends by
returning the object. -/
def construct [LinearOrderedField α] (logf : α → α) (n_site n_cat : Nat)
    (fresh : PhyloHmm α) : Except String (PhyloHmm α) :=
  Except.ok (create logf n_site n_cat fresh)

/-! ### The indexed accesses of computeMaxPath -/

/-- The arrays of `computeMaxPath` whose indexing is recorded. -/
inductive Arr where
  | work_arr
  | next_cat
  | site_categories
deriving DecidableEq

/-- One indexed access: the array, the index, and whether the access stores. -/
structure Access where
  arr : Arr
  idx : Nat
  store : Bool
deriving DecidableEq

/-- The accesses of a counted loop, in order: `acc i s` lists the accesses of round `i`
started in state `s`. -/
def forLoopLog {σ : Type} (body : Nat → σ → σ) (acc : Nat → σ → List Access) :
    Nat → Nat → σ → List Access
  | _, 0, _ => []
  | lo, n + 1, s => acc lo s ++ forLoopLog body acc (lo + 1) n (body lo s)

/-- Accesses of lines 118-122: read `pre_work[l]`, read `work[j]`, and when the test holds
store `work[j]` and `next_cat_arr[j]`. -/
def maxPathLLog [Add α] [LT α] [DecidableRel (fun (a b : α) => a < b)]
    (h : PhyloHmm α) (j l : Nat) (s : Locals α) : List Access :=
  [{ arr := Arr.work_arr, idx := s.pre_work + l, store := false },
    { arr := Arr.work_arr, idx := s.work + j, store := false }]
  ++ (if s.work_arr (s.work + j)
        < h.transitLog (s.transit_arr + l) + s.work_arr (s.pre_work + l) then
      [{ arr := Arr.work_arr, idx := s.work + j, store := true },
        { arr := Arr.next_cat, idx := s.next_cat_arr + j, store := true }]
    else [])

/-- Accesses of lines 115-125: read `pre_work[0]`, store `work[j]` and `next_cat_arr[j]`,
the loop over `l`, then read and store `work[j]`. -/
def maxPathJLog [Add α] [LT α] [DecidableRel (fun (a b : α) => a < b)]
    (h : PhyloHmm α) (j : Nat) (s : Locals α) : List Access :=
  let s1 : Locals α :=
    { s with
      work_arr := Function.update s.work_arr (s.work + j)
        (h.transitLog (s.transit_arr + 0) + s.work_arr (s.pre_work + 0))
      next_cat := Function.update s.next_cat (s.next_cat_arr + j) 0 }
  let s2 := forLoop (maxPathL h j) 1 (h.ncat - 1) s1
  [{ arr := Arr.work_arr, idx := s.pre_work + 0, store := false },
    { arr := Arr.work_arr, idx := s.work + j, store := true },
    { arr := Arr.next_cat, idx := s.next_cat_arr + j, store := true }]
  ++ forLoopLog (maxPathL h j) (maxPathLLog h j) 1 (h.ncat - 1) s1
  ++ [{ arr := Arr.work_arr, idx := s2.work + j, store := false },
    { arr := Arr.work_arr, idx := s2.work + j, store := true }]

/-- Accesses of lines 109-128: the loop over `j` after the pointers of the round are set. -/
def maxPathILog [Add α] [LT α] [DecidableRel (fun (a b : α) => a < b)]
    (h : PhyloHmm α) (i : Nat) (s : Locals α) : List Access :=
  let k := (s.pre_k + 1) % 2
  let s1 : Locals α :=
    { s with
      k := k
      work := k * h.ncat
      site_lh_arr := s.site_lh_arr + h.ncat
      transit_arr := 0
      next_cat_arr := (h.nsite - i - 1) * h.ncat }
  forLoopLog (maxPathJ h) (maxPathJLog h) 0 h.ncat s1

/-- Accesses of lines 105-129: the `memcpy` into `work_arr[0..ncat)` and the loop over
`i`. -/
def maxPathFwdLog [Add α] [LT α] [DecidableRel (fun (a b : α) => a < b)]
    (h : PhyloHmm α) : List Access :=
  (List.range h.ncat).map (fun x => { arr := Arr.work_arr, idx := x, store := true })
  ++ forLoopLog (maxPathI h) (maxPathILog h) 1 (h.nsite - 1) (initLocals h)

/-- Accesses of lines 132-151: read `pre_work[0]`, the loop reading `pre_work[j]`, store
`site_categories[0]`, and the traceback reading `next_cat[i * ncat + max_cat]` and storing
`site_categories[i + 1]`. -/
def maxPathEndLog [Add α] [LT α] [DecidableRel (fun (a b : α) => a < b)]
    (h : PhyloHmm α) : List Access :=
  let s := maxPathLoop h (h.nsite - 1)
  let m := forLoop (maxPathStart h s) 1 (h.ncat - 1)
    (h.prob_log 0 + s.work_arr (s.pre_work + 0), 0)
  [{ arr := Arr.work_arr, idx := s.pre_work + 0, store := false }]
  ++ forLoopLog (maxPathStart h s)
      (fun j _ => [{ arr := Arr.work_arr, idx := s.pre_work + j, store := false }])
      1 (h.ncat - 1) (h.prob_log 0 + s.work_arr (s.pre_work + 0), 0)
  ++ [{ arr := Arr.site_categories, idx := 0, store := true }]
  ++ forLoopLog (maxPathTrace h s.next_cat)
      (fun i t => [{ arr := Arr.next_cat, idx := i * h.ncat + t.2, store := false },
        { arr := Arr.site_categories, idx := i + 1, store := true }])
      0 (h.nsite - 1) (Function.update h.site_categories 0 m.2, m.2)

/-- The number of cells of each array that belong to the model: `2 * ncat` for `work_arr`,
`nsite * ncat` for `next_cat`, `nsite` for `site_categories`. -/
def cells (h : PhyloHmm α) : Arr → Nat
  | Arr.work_arr => 2 * h.ncat
  | Arr.next_cat => h.nsite * h.ncat
  | Arr.site_categories => h.nsite

/-- The pointers `pre_work`, `work` and `next_cat_arr` of `t` are those of `s`. -/
def SamePtr (s t : Locals α) : Prop :=
  t.pre_work = s.pre_work ∧ t.work = s.work ∧ t.next_cat_arr = s.next_cat_arr

/-- The access `a` touches a cell `l < ncat` of the row `pre_work` or `work` of `work_arr`,
or stores into a cell `l < ncat` of the row `next_cat_arr` of `next_cat`. -/
def InRows (ncat : Nat) (s : Locals α) (a : Access) : Prop :=
  ∃ l, l < ncat
    ∧ ((a.arr = Arr.work_arr ∧ (a.idx = s.pre_work + l ∨ a.idx = s.work + l))
      ∨ a = { arr := Arr.next_cat, idx := s.next_cat_arr + l, store := true })

end PhyloHmm

/-! ### Rounded arithmetic: binary64 addition

The C code adds `double`s, so every `+` of `computeMaxPath` is followed by a rounding.
`Dbl` models the finite binary64 values with this addition; the definitions of
`computeMaxPath` above run on it unchanged. -/

/-- Exponent of the spacing of the binary64 values around a magnitude of `n` units:
`spacingExp n fuel e` is the least `e' ≥ e` with `n < 2^(e' + 53)`, searched over at most
`fuel` steps. Below `2^53` units (the subnormal range and the first normal binade) the
spacing is one unit, and every further binade doubles it. -/
def spacingExp (n : Nat) : Nat → Nat → Nat
  | 0, e => e
  | fuel + 1, e => if n < 2 ^ (e + 53) then e else spacingExp n fuel (e + 1)

/-- The multiple of the spacing `u` nearest to `n`; a tie goes to the multiple whose quotient
by `u` is even (round to nearest, ties to even). -/
def roundTo (u n : Nat) : Nat :=
  if 2 * (n % u) < u then n / u * u
  else if u < 2 * (n % u) then (n / u + 1) * u
  else if n / u % 2 = 0 then n / u * u
  else (n / u + 1) * u

/-- A magnitude of `n` units rounded to binary64, i.e. to 53 significant bits with ties to
even. The search bound 2100 exceeds the number of binades of binary64, whose magnitudes are
below `2^2098` units; overflow to infinity is not modelled. -/
def roundNat (n : Nat) : Nat := roundTo (2 ^ spacingExp n 2100 0) n

/-- A finite binary64 value (`double`), given by the integer `units` = value / 2^(-1074).
Every finite binary64 value is an integer multiple of the smallest subnormal 2^(-1074); the
value 1.0 is `2^1074` units. Infinities and NaN are not modelled, and the two zeros are one
value. -/
@[ext]
structure Dbl where
  units : ℤ
deriving DecidableEq

/-- The binary64 value nearest to the exact number of `s` units (ties to even). -/
def Dbl.round (s : ℤ) : Dbl :=
  ⟨if 0 ≤ s then (roundNat s.toNat : ℤ) else -(roundNat (-s).toNat : ℤ)⟩

/-- Binary64 addition in the default rounding mode: the exact sum, rounded. -/
instance Dbl.instAdd : Add Dbl := ⟨fun a b => Dbl.round (a.units + b.units)⟩

/-- Binary64 values are compared by their value, as `<` on `double` does. -/
instance Dbl.instLinearOrder : LinearOrder Dbl :=
  LinearOrder.lift' (fun d => d.units) (fun _ _ h => Dbl.ext h)

/-- The binary64 value `m × 2^(e - 1074)`. -/
def Dbl.pos (m e : Nat) : Dbl := ⟨((m * 2 ^ e : Nat) : ℤ)⟩

/-- The binary64 value `-(m × 2^(e - 1074))`. -/
def Dbl.neg (m e : Nat) : Dbl := ⟨-((m * 2 ^ e : Nat) : ℤ)⟩

/-- The number of `units` is a binary64 value: rounding leaves it unchanged. -/
def Dbl.IsBinary64 (d : Dbl) : Prop := Dbl.round d.units = d

instance Dbl.instDecidableIsBinary64 (d : Dbl) : Decidable d.IsBinary64 :=
  inferInstanceAs (Decidable (Dbl.round d.units = d))

/-- Addition is monotone in each argument. Exact addition is, and so is every correctly
rounded addition, rounding being monotone. -/
def AddMono (α : Type) [LE α] [Add α] : Prop :=
  (∀ a b c : α, b ≤ c → a + b ≤ a + c) ∧ ∀ a b c : α, b ≤ c → b + a ≤ c + a

namespace PhyloHmm

variable {α : Type}

/-- Score of the rows `0..r` of the assignment `c`, added up in the order in which the
recurrence of `computeMaxPath` adds it (lines 115-124): row 0 gives `site_like_cat[0][c(0)]`;
row `r + 1` first adds the transition log on the left, `T[c(r+1)*ncat + c(r)] + acc`, then the
table entry on the right, `... + site_like_cat[r+1][c(r+1)]`. -/
def recScore [Add α] (h : PhyloHmm α) (c : Nat → Nat) : Nat → α
  | 0 => h.site_like_cat (c 0)
  | r + 1 =>
    (h.transitLog (c (r + 1) * h.ncat + c r) + recScore h c r)
      + h.site_like_cat ((r + 1) * h.ncat + c (r + 1))

/-- Joint log score of the assignment `c` added up in the order of `computeMaxPath`: the
rows as in `recScore`, then the log prior on the left (lines 131, 136),
`prob_log[c(nsite-1)] + acc`. With exact addition this is `jointScore`. -/
def recTotal [Add α] (h : PhyloHmm α) (c : Nat → Nat) : α :=
  h.prob_log (c (h.nsite - 1)) + recScore h c (h.nsite - 1)

/-- The values of a binary64 state as exact integers, in units of 2^(-1074): sums over this
state are sums without rounding. -/
def exactOf (h : PhyloHmm Dbl) : PhyloHmm ℤ :=
  { nsite := h.nsite
    ncat := h.ncat
    prob := fun x => (h.prob x).units
    prob_log := fun x => (h.prob_log x).units
    site_like_cat := fun x => (h.site_like_cat x).units
    site_categories := h.site_categories
    work_arr := fun x => (h.work_arr x).units
    next_cat := h.next_cat
    pathLogLike := h.pathLogLike.units
    transitLog := fun x => (h.transitLog x).units }

end PhyloHmm

/-- An assignment given as a function on `Fin n`, read as a function on `Nat` with value
`j` from position `n` on. -/
def extPath {n m : Nat} (f : Fin n → Fin m) (j : Nat) : Nat → Nat :=
  fun i => if hi : i < n then (f ⟨i, hi⟩).val else j

/-- An assignment given as a function on `Fin`, read as a function on `Nat` (0 outside). -/
def pathOf {n m : Nat} (f : Fin n → Fin m) : Nat → Nat :=
  fun i => if hi : i < n then (f ⟨i, hi⟩).val else 0

/-- Modelled from the spec: `logDotProd` is an external primitive (not in
`tree/phylohmm.cpp`), "log of the dot product of two probability-like vectors expressed in
log-space": `logDotProd(a, b, n) = log (∑ l < n, exp (a[l] + b[l]))`, over the reals. -/
noncomputable def logDotProd (a b : Nat → ℝ) (n : Nat) : ℝ :=
  Real.log (∑ l ∈ Finset.range n, Real.exp (a l + b l))

/-! ### Concrete instances -/

/-- Two rows, two categories over `ℤ`: row 0 favours category 0, row 1 favours category 1;
all transition logs and log priors are 0. -/
def exTwoRows : PhyloHmm ℤ :=
  { nsite := 2
    ncat := 2
    prob := fun _ => 0
    prob_log := fun _ => 0
    site_like_cat := fun x => if x = 0 ∨ x = 3 then 0 else -5
    site_categories := fun _ => 0
    work_arr := fun _ => 0
    next_cat := fun _ => 0
    pathLogLike := 0
    transitLog := fun _ => 0 }

/-- Two rows, two categories over `ℝ` with a transition array that is not symmetric:
`T[0*2+1] = 1` and `T[1*2+0] = 0`; the table and the log priors are 0. -/
def exAsym : PhyloHmm ℝ :=
  { nsite := 2
    ncat := 2
    prob := fun _ => 0
    prob_log := fun _ => 0
    site_like_cat := fun _ => 0
    site_categories := fun _ => 0
    work_arr := fun _ => 0
    next_cat := fun _ => 0
    pathLogLike := 0
    transitLog := fun x => if x = 1 then 1 else 0 }

/-- One row, two categories over `ℝ`: uniform prior `[1/2, 1/2]` with its logarithms, table
row `[0, ln 3]`. -/
noncomputable def exEM : PhyloHmm ℝ :=
  { nsite := 1
    ncat := 2
    prob := fun _ => 1 / 2
    prob_log := fun _ => Real.log (1 / 2)
    site_like_cat := fun x => if x = 1 then Real.log 3 else 0
    site_categories := fun _ => 0
    work_arr := fun _ => 0
    next_cat := fun _ => 0
    pathLogLike := 0
    transitLog := fun _ => 0 }

/-- Two rows, one category over `ℝ`: prior `[1]`, log prior `[0]`, transition log `[0]`,
table `[1, 2]`. -/
def exSingle : PhyloHmm ℝ :=
  { nsite := 2
    ncat := 1
    prob := fun _ => 1
    prob_log := fun _ => 0
    site_like_cat := fun x => if x = 0 then 1 else 2
    site_categories := fun _ => 7
    work_arr := fun _ => 0
    next_cat := fun _ => 0
    pathLogLike := 0
    transitLog := fun _ => 0 }

/-- The scenario of three rows and two categories over `ℝ`: table `[[0,-1],[-1,0],[0,-1]]`,
uniform prior `[1/2, 1/2]` with its logarithms, symmetric transition log-matrix with
diagonal entries `a` and off-diagonal entries `b`. -/
noncomputable def exScenario (a b : ℝ) : PhyloHmm ℝ :=
  { nsite := 3
    ncat := 2
    prob := fun _ => 1 / 2
    prob_log := fun _ => Real.log (1 / 2)
    site_like_cat := fun x => if x = 1 ∨ x = 2 ∨ x = 5 then -1 else 0
    site_categories := fun _ => 0
    work_arr := fun _ => 0
    next_cat := fun _ => 0
    pathLogLike := 0
    transitLog := fun x => if x = 0 ∨ x = 3 then a else b }

/-- Five sites over `ℤ` with decoded categories `[0, 0, 1, 1, 0]`. -/
def exRuns : PhyloHmm ℤ :=
  { exTwoRows with
    nsite := 5
    site_categories := fun i => if i = 2 ∨ i = 3 then 1 else 0 }

/-- One site, two categories over `ℚ`, decoded category 1. -/
def exOneSite : PhyloHmm ℚ :=
  { nsite := 1
    ncat := 2
    prob := fun _ => 1 / 2
    prob_log := fun _ => 0
    site_like_cat := fun _ => 0
    site_categories := fun _ => 1
    work_arr := fun _ => 0
    next_cat := fun _ => 0
    pathLogLike := 0
    transitLog := fun _ => 0 }

/-- Two rows, two categories in binary64: table `[[2^53, 2^53], [0, 0]]`, transition logs
`T = [0, 1, 0, 0]`, log priors 0. -/
def exRound : PhyloHmm Dbl :=
  { nsite := 2
    ncat := 2
    prob := fun _ => Dbl.pos 0 0
    prob_log := fun _ => Dbl.pos 0 0
    site_like_cat := fun x => if x < 2 then Dbl.pos 1 1127 else Dbl.pos 0 0
    site_categories := fun _ => 0
    work_arr := fun _ => Dbl.pos 0 0
    next_cat := fun _ => 0
    pathLogLike := Dbl.pos 0 0
    transitLog := fun x => if x = 1 then Dbl.pos 1 1074 else Dbl.pos 0 0 }

/-- Two rows, two categories in binary64: table `[[0.2, 0.30000000000000004], [0, 0]]`,
transition logs `T = [0.1, 0, 0, 0]`, log priors 0. The binary64 values are
`0.2 = 3602879701896397 × 2^(-54)`, `0.30000000000000004 = 1351079888211149 × 2^(-52)` and
`0.1 = 3602879701896397 × 2^(-55)`. -/
def exTenths : PhyloHmm Dbl :=
  { exRound with
    site_like_cat := fun x =>
      if x = 0 then Dbl.pos 3602879701896397 1020
      else if x = 1 then Dbl.pos 1351079888211149 1022
      else Dbl.pos 0 0
    transitLog := fun x => if x = 0 then Dbl.pos 3602879701896397 1019 else Dbl.pos 0 0 }

/-- The scenario of three rows and two categories in binary64: table
`[[0,-1],[-1,0],[0,-1]]`, uniform prior `[0.5, 0.5]` with `prob_log` the binary64 value of
`log(0.5)`, which is `-6243314768165359 × 2^(-53) = -0.6931471805599453`, symmetric transition
log-matrix with diagonal entries `a` and off-diagonal entries `b`. -/
def exScenarioDbl (a b : Dbl) : PhyloHmm Dbl :=
  { nsite := 3
    ncat := 2
    prob := fun _ => Dbl.pos 1 1073
    prob_log := fun _ => Dbl.neg 6243314768165359 1021
    site_like_cat := fun x => if x = 1 ∨ x = 2 ∨ x = 5 then Dbl.neg 1 1074 else Dbl.pos 0 0
    site_categories := fun _ => 0
    work_arr := fun _ => Dbl.pos 0 0
    next_cat := fun _ => 0
    pathLogLike := Dbl.pos 0 0
    transitLog := fun x => if x = 0 ∨ x = 3 then a else b }

/-- Arrays over `ℚ` for an object with one site and two categories: the row of
`site_like_cat` is `[0, -800]`. -/
def exUnderflow : PhyloHmm ℚ :=
  { nsite := 0
    ncat := 0
    prob := fun _ => 0
    prob_log := fun _ => 0
    site_like_cat := fun x => if x = 1 then -800 else 0
    site_categories := fun _ => 0
    work_arr := fun _ => 0
    next_cat := fun _ => 0
    pathLogLike := 0
    transitLog := fun _ => 0 }

/-! ## Theorems: loops -/

theorem forLoop_succ {σ : Type} (body : Nat → σ → σ) (lo n : Nat) (s : σ) :
    forLoop body lo (n + 1) s = body (lo + n) (forLoop body lo n s) := by
  induction n generalizing lo s with
  | zero => simp [forLoop]
  | succ n ih =>
    rw [forLoop, ih (lo + 1) (body lo s)]
    have e : lo + 1 + n = lo + (n + 1) := by omega
    rw [e]
    rfl

/-- Invariant rule for counted loops. -/
theorem forLoop_inv {σ : Type} (P : Nat → σ → Prop) (body : Nat → σ → σ) (lo n : Nat) (s : σ)
    (h0 : P 0 s) (hstep : ∀ m t, m < n → P m t → P (m + 1) (body (lo + m) t)) :
    P n (forLoop body lo n s) := by
  induction n with
  | zero => exact h0
  | succ n ih =>
    rw [forLoop_succ]
    exact hstep n _ (Nat.lt_succ_self n)
      (ih (fun m t hm hP => hstep m t (Nat.lt_succ_of_lt hm) hP))

namespace PhyloHmm

variable {α : Type}

/-! ## The running maximum -/

section MaxScan

variable [LinearOrder α]

theorem maxScan_arg_le (f : Nat → α) (n : Nat) : (maxScan f n).2 ≤ n := by
  induction n with
  | zero => simp [maxScan]
  | succ n ih =>
    rw [maxScan]
    split
    · exact le_rfl
    · exact Nat.le_succ_of_le ih

theorem maxScan_eq_arg (f : Nat → α) (n : Nat) : (maxScan f n).1 = f (maxScan f n).2 := by
  induction n with
  | zero => simp [maxScan]
  | succ n ih =>
    rw [maxScan]
    split
    · rfl
    · exact ih

theorem maxScan_ge (f : Nat → α) (n l : Nat) (hl : l ≤ n) : f l ≤ (maxScan f n).1 := by
  induction n with
  | zero =>
    have : l = 0 := by omega
    subst this
    simp [maxScan]
  | succ n ih =>
    rw [maxScan]
    split
    · rename_i hlt
      rcases Nat.lt_or_ge l (n + 1) with h1 | h1
      · exact le_trans (ih (by omega)) (le_of_lt hlt)
      · have : l = n + 1 := by omega
        subst this
        exact le_rfl
    · rename_i hlt
      rcases Nat.lt_or_ge l (n + 1) with h1 | h1
      · exact ih (by omega)
      · have : l = n + 1 := by omega
        subst this
        exact not_lt.mp hlt

theorem maxScan_congr (f g : Nat → α) (n : Nat) (hfg : ∀ l, l ≤ n → f l = g l) :
    maxScan f n = maxScan g n := by
  induction n with
  | zero => simp [maxScan, hfg 0 le_rfl]
  | succ n ih =>
    rw [maxScan, maxScan, ih (fun l hl => hfg l (Nat.le_succ_of_le hl)), hfg (n + 1) le_rfl]

end MaxScan

end PhyloHmm

namespace PhyloHmm

variable {α : Type}

/-- Cells of a row-major table: different (row, column) pairs are different cells. -/
theorem cell_inj {n r r' j j' : Nat} (hj : j < n) (hj' : j' < n)
    (e : r * n + j = r' * n + j') : r = r' ∧ j = j' := by
  have hn : 0 < n := by omega
  have h1 : (r * n + j) / n = r := by
    rw [Nat.add_comm, Nat.add_mul_div_right _ _ hn, Nat.div_eq_of_lt hj, Nat.zero_add]
  have h2 : (r' * n + j') / n = r' := by
    rw [Nat.add_comm, Nat.add_mul_div_right _ _ hn, Nat.div_eq_of_lt hj', Nat.zero_add]
  have hr : r = r' := by rw [← h1, ← h2, e]
  subst hr
  exact ⟨rfl, by omega⟩

/-- The two rows of the scratch buffer do not overlap. -/
theorem rows_disjoint {n a b l j : Nat} (hab : a ≠ b) (hl : l < n) (hj : j < n) :
    a * n + l ≠ b * n + j :=
  fun e => hab (cell_inj hl hj e).1

/-! ## computeMaxPath: the loops compute the row recurrence -/

section MaxPath

variable [LinearOrder α] [Add α]

/-- The loop over `l` leaves in `work[j]` and `next_cat_arr[j]` the running maximum of
`f l = transit_arr[l] + pre_work[l]` and its first index, when no cell `pre_work[l]` is the
cell `work[j]`. -/
theorem maxPathL_loop (h : PhyloHmm α) (j : Nat) (s : Locals α) (f : Nat → α) (n : Nat)
    (hf : ∀ l, l ≤ n → h.transitLog (s.transit_arr + l) + s.work_arr (s.pre_work + l) = f l)
    (hd : ∀ l, l ≤ n → s.pre_work + l ≠ s.work + j) :
    forLoop (maxPathL h j) 1 n
        { s with
          work_arr := Function.update s.work_arr (s.work + j) (f 0)
          next_cat := Function.update s.next_cat (s.next_cat_arr + j) 0 }
      = { s with
          work_arr := Function.update s.work_arr (s.work + j) (maxScan f n).1
          next_cat := Function.update s.next_cat (s.next_cat_arr + j) (maxScan f n).2 } := by
  induction n with
  | zero => simp [forLoop, maxScan]
  | succ n ih =>
    rw [forLoop_succ, ih (fun l hl => hf l (Nat.le_succ_of_le hl))
      (fun l hl => hd l (Nat.le_succ_of_le hl))]
    have e : 1 + n = n + 1 := by omega
    rw [e]
    have hv : h.transitLog (s.transit_arr + (n + 1))
        + Function.update s.work_arr (s.work + j) (maxScan f n).1 (s.pre_work + (n + 1))
        = f (n + 1) := by
      rw [Function.update_noteq (hd (n + 1) le_rfl)]
      exact hf (n + 1) le_rfl
    simp only [maxPathL, hv, Function.update_same, maxScan]
    split <;> simp

/-- One round of the loop over `j`. -/
theorem maxPathJ_eq (h : PhyloHmm α) (j : Nat) (s : Locals α)
    (hd : ∀ l, l ≤ h.ncat - 1 → s.pre_work + l ≠ s.work + j) :
    maxPathJ h j s
      = { s with
          work_arr := Function.update s.work_arr (s.work + j)
            ((maxScan (fun l => h.transitLog (s.transit_arr + l) + s.work_arr (s.pre_work + l))
                (h.ncat - 1)).1 + h.site_like_cat (s.site_lh_arr + j))
          next_cat := Function.update s.next_cat (s.next_cat_arr + j)
            (maxScan (fun l => h.transitLog (s.transit_arr + l) + s.work_arr (s.pre_work + l))
                (h.ncat - 1)).2
          transit_arr := s.transit_arr + h.ncat } := by
  have key := maxPathL_loop h j s
    (fun l => h.transitLog (s.transit_arr + l) + s.work_arr (s.pre_work + l)) (h.ncat - 1)
    (fun _ _ => rfl) hd
  simp only at key
  simp only [maxPathJ, key, Function.update_same, Function.update_idem]

/-- The loop over `j` fills the first `m` cells of row `work` and of row `next_cat_arr`. -/
theorem maxPathJ_loop (h : PhyloHmm α) (s : Locals α) (m : Nat) (hm : m ≤ h.ncat)
    (ht : s.transit_arr = 0)
    (hd : ∀ l j, l < h.ncat → j < h.ncat → s.pre_work + l ≠ s.work + j) :
    forLoop (maxPathJ h) 0 m s
      = { s with
          work_arr := fun x =>
            if s.work ≤ x ∧ x < s.work + m then
              (stepRow h (fun l => s.work_arr (s.pre_work + l)) s.site_lh_arr (x - s.work)).1
            else s.work_arr x
          next_cat := fun x =>
            if s.next_cat_arr ≤ x ∧ x < s.next_cat_arr + m then
              (stepRow h (fun l => s.work_arr (s.pre_work + l)) s.site_lh_arr
                (x - s.next_cat_arr)).2
            else s.next_cat x
          transit_arr := m * h.ncat } := by
  induction m with
  | zero =>
    ext x
    · have : ¬ (s.work ≤ x ∧ x < s.work + 0) := by omega
      simp only [forLoop, this, if_false]
    · have : ¬ (s.next_cat_arr ≤ x ∧ x < s.next_cat_arr + 0) := by omega
      simp only [forLoop, this, if_false]
    all_goals simp [forLoop, ht]
  | succ m ih =>
    have hm' : m < h.ncat := hm
    rw [forLoop_succ, ih (Nat.le_of_lt hm'), Nat.zero_add, maxPathJ_eq]
    · have hscan : maxScan (fun l => h.transitLog (m * h.ncat + l)
            + (if s.work ≤ s.pre_work + l ∧ s.pre_work + l < s.work + m then
                (stepRow h (fun l => s.work_arr (s.pre_work + l)) s.site_lh_arr
                  (s.pre_work + l - s.work)).1
              else s.work_arr (s.pre_work + l))) (h.ncat - 1)
          = maxScan (fun l => h.transitLog (m * h.ncat + l) + s.work_arr (s.pre_work + l))
              (h.ncat - 1) := by
        apply maxScan_congr
        intro l hl
        have hl' : l < h.ncat := by omega
        have : ¬ (s.work ≤ s.pre_work + l ∧ s.pre_work + l < s.work + m) := by
          rintro ⟨h1, h2⟩
          exact hd l (s.pre_work + l - s.work) hl' (by omega) (by omega)
        simp only [this, if_false]
      simp only [hscan]
      ext x
      · simp only [Function.update_apply, stepRow]
        by_cases hx : x = s.work + m
        · subst hx
          simp
        · have : (s.work ≤ x ∧ x < s.work + (m + 1)) ↔ (s.work ≤ x ∧ x < s.work + m) := by
            constructor
            · rintro ⟨h1, h2⟩
              exact ⟨h1, by omega⟩
            · rintro ⟨h1, h2⟩
              exact ⟨h1, by omega⟩
          simp only [hx, if_false, this]
      · simp only [Function.update_apply, stepRow]
        by_cases hx : x = s.next_cat_arr + m
        · subst hx
          simp
        · have : (s.next_cat_arr ≤ x ∧ x < s.next_cat_arr + (m + 1))
              ↔ (s.next_cat_arr ≤ x ∧ x < s.next_cat_arr + m) := by
            constructor
            · rintro ⟨h1, h2⟩
              exact ⟨h1, by omega⟩
            · rintro ⟨h1, h2⟩
              exact ⟨h1, by omega⟩
          simp only [hx, if_false, this]
      all_goals simp [Nat.succ_mul]
    · intro l hl
      simp only
      exact hd l m (by omega) hm'

end MaxPath

end PhyloHmm

namespace PhyloHmm

variable {α : Type}

section MaxPath

variable [LinearOrder α] [Add α]

theorem maxInv_init (h : PhyloHmm α) : MaxInv h 0 (initLocals h) where
  pre_k_lt := by simp [initLocals]
  pre_work_eq := by simp [initLocals]
  site_lh_eq := by simp [initLocals]
  row_eq := by
    intro j hj
    simp [initLocals, hj, vitRow]
  arg_eq := by
    intro i j hi
    omega

theorem in_row_iff {n r x : Nat} : (r * n ≤ x ∧ x < r * n + n) ↔ ∃ j, j < n ∧ x = r * n + j := by
  constructor
  · rintro ⟨h1, h2⟩
    exact ⟨x - r * n, by omega, by omega⟩
  · rintro ⟨j, hj, rfl⟩
    exact ⟨by omega, by omega⟩

theorem maxInv_step (h : PhyloHmm α) (m : Nat) (s : Locals α) (hm : m + 1 ≤ h.nsite - 1)
    (inv : MaxInv h m s) : MaxInv h (m + 1) (maxPathI h (1 + m) s) := by
  have hk : (s.pre_k + 1) % 2 ≠ s.pre_k := by
    have := inv.pre_k_lt
    omega
  have hloop := maxPathJ_loop h
    { s with
      k := (s.pre_k + 1) % 2
      work := (s.pre_k + 1) % 2 * h.ncat
      site_lh_arr := s.site_lh_arr + h.ncat
      transit_arr := 0
      next_cat_arr := (h.nsite - (1 + m) - 1) * h.ncat } h.ncat le_rfl rfl
    (by
      intro l j hl hj
      simp only [inv.pre_work_eq]
      exact rows_disjoint (Ne.symm hk) hl hj)
  simp only at hloop
  constructor
  · simp only [maxPathI, hloop]
    omega
  · simp only [maxPathI, hloop]
  · simp only [maxPathI, hloop]
    simp only [inv.site_lh_eq, Nat.succ_mul]
  · intro j hj
    simp only [maxPathI, hloop]
    have hin : (s.pre_k + 1) % 2 * h.ncat ≤ (s.pre_k + 1) % 2 * h.ncat + j
        ∧ (s.pre_k + 1) % 2 * h.ncat + j < (s.pre_k + 1) % 2 * h.ncat + h.ncat :=
      ⟨by omega, by omega⟩
    simp only [hin, and_self, if_true, stepRow, Nat.add_sub_cancel_left, vitRow, inv.site_lh_eq,
      Nat.succ_mul]
    congr 2
    apply maxScan_congr
    intro l hl
    rw [inv.row_eq l (by omega)]
  · intro i j hi hj
    simp only [maxPathI, hloop]
    rcases Nat.lt_or_ge i m with him | him
    · have hout : ¬ ((h.nsite - (1 + m) - 1) * h.ncat ≤ (h.nsite - (i + 1) - 1) * h.ncat + j
          ∧ (h.nsite - (i + 1) - 1) * h.ncat + j < (h.nsite - (1 + m) - 1) * h.ncat + h.ncat) := by
        rw [in_row_iff]
        rintro ⟨j', hj', e⟩
        have := (cell_inj hj hj' e).1
        omega
      simp only [hout, if_false]
      exact inv.arg_eq i j him hj
    · have e : i = m := by omega
      subst e
      have e2 : h.nsite - (1 + i) - 1 = h.nsite - (i + 1) - 1 := by omega
      have hin : (h.nsite - (i + 1) - 1) * h.ncat ≤ (h.nsite - (i + 1) - 1) * h.ncat + j
          ∧ (h.nsite - (i + 1) - 1) * h.ncat + j < (h.nsite - (i + 1) - 1) * h.ncat + h.ncat :=
        ⟨by omega, by omega⟩
      simp only [e2, hin, and_self, if_true, stepRow, Nat.add_sub_cancel_left, vitArg]
      congr 1
      apply maxScan_congr
      intro l hl
      rw [inv.row_eq l (by omega)]

/-- After `m ≤ nsite - 1` rounds the scratch row `pre_work` holds row `m` of the recurrence
and the backpointer rows `nsite - 2, ..., nsite - 1 - m` are filled. -/
theorem maxPathLoop_inv (h : PhyloHmm α) (m : Nat) (hm : m ≤ h.nsite - 1) :
    MaxInv h m (maxPathLoop h m) := by
  induction m with
  | zero => exact maxInv_init h
  | succ m ih =>
    rw [maxPathLoop, forLoop_succ]
    exact maxInv_step h m _ hm (ih (Nat.le_of_succ_le hm))

end MaxPath

end PhyloHmm

namespace PhyloHmm

variable {α : Type}

section MaxPath

variable [LinearOrder α] [Add α]

/-- The loop choosing the start category computes the running maximum of
`prob_log[j] + pre_work[j]`. -/
theorem maxPathStart_loop (h : PhyloHmm α) (s : Locals α) (n : Nat) :
    forLoop (maxPathStart h s) 1 n (h.prob_log 0 + s.work_arr (s.pre_work + 0), 0)
      = maxScan (fun j => h.prob_log j + s.work_arr (s.pre_work + j)) n := by
  induction n with
  | zero => simp [forLoop, maxScan]
  | succ n ih =>
    rw [forLoop_succ, ih]
    have e : 1 + n = n + 1 := by omega
    rw [e]
    simp only [maxPathStart, maxScan]

theorem vitArg_lt (h : PhyloHmm α) (i j : Nat) (hc : 1 ≤ h.ncat) : vitArg h i j < h.ncat := by
  have := maxScan_arg_le (fun l => h.transitLog (j * h.ncat + l) + vitRow h i l) (h.ncat - 1)
  unfold vitArg
  omega

theorem vitPath_lt (h : PhyloHmm α) (m : Nat) (hc : 1 ≤ h.ncat) : vitPath h m < h.ncat := by
  cases m with
  | zero =>
    have := maxScan_arg_le (fun j => h.prob_log j + vitRow h (h.nsite - 1) j) (h.ncat - 1)
    simp only [vitPath, vitStart]
    omega
  | succ m => exact vitArg_lt h _ _ hc

/-- The traceback loop writes `vitPath` into `site_categories[0..m]`. -/
theorem maxPathTrace_loop (h : PhyloHmm α) (hc : 1 ≤ h.ncat) (m : Nat)
    (hm : m ≤ h.nsite - 1) :
    (forLoop (maxPathTrace h (maxPathLoop h (h.nsite - 1)).next_cat) 0 m
        (Function.update h.site_categories 0 (vitStart h).2, (vitStart h).2)).2 = vitPath h m
    ∧ ∀ i, i ≤ m →
      (forLoop (maxPathTrace h (maxPathLoop h (h.nsite - 1)).next_cat) 0 m
        (Function.update h.site_categories 0 (vitStart h).2, (vitStart h).2)).1 i
        = vitPath h i := by
  induction m with
  | zero =>
    refine ⟨rfl, ?_⟩
    intro i hi
    have : i = 0 := by omega
    subst this
    simp [forLoop, vitPath]
  | succ m ih =>
    obtain ⟨ih1, ih2⟩ := ih (Nat.le_of_succ_le hm)
    have inv := maxPathLoop_inv h (h.nsite - 1) le_rfl
    have hcell : (maxPathLoop h (h.nsite - 1)).next_cat (m * h.ncat + vitPath h m)
        = vitPath h (m + 1) := by
      have := inv.arg_eq (h.nsite - 1 - m - 1) (vitPath h m) (by omega) (vitPath_lt h m hc)
      have e : h.nsite - (h.nsite - 1 - m - 1 + 1) - 1 = m := by omega
      rw [e] at this
      rw [this, vitPath]
    rw [forLoop_succ, Nat.zero_add]
    simp only [maxPathTrace, ih1, hcell, true_and]
    intro i hi
    rcases Nat.lt_or_ge i (m + 1) with h1 | h1
    · rw [Function.update_noteq (by omega)]
      exact ih2 i (by omega)
    · have : i = m + 1 := by omega
      subst this
      simp

/-- What `computeMaxPath` returns and stores, in terms of the row recurrence. -/
theorem computeMaxPath_rows (h : PhyloHmm α) (hc : 1 ≤ h.ncat) :
    (computeMaxPath h).1 = (vitStart h).1
    ∧ (computeMaxPath h).2.pathLogLike = (vitStart h).1
    ∧ ∀ i, i ≤ h.nsite - 1 → (computeMaxPath h).2.site_categories i = vitPath h i := by
  have inv := maxPathLoop_inv h (h.nsite - 1) le_rfl
  have hstart : forLoop (maxPathStart h (maxPathLoop h (h.nsite - 1))) 1 (h.ncat - 1)
      (h.prob_log 0 + (maxPathLoop h (h.nsite - 1)).work_arr
        ((maxPathLoop h (h.nsite - 1)).pre_work + 0), 0) = vitStart h := by
    rw [maxPathStart_loop, vitStart]
    apply maxScan_congr
    intro l hl
    rw [inv.row_eq l (by omega)]
  simp only [computeMaxPath, hstart, true_and]
  intro i hi
  exact (maxPathTrace_loop h hc (h.nsite - 1) le_rfl).2 i hi

end MaxPath

end PhyloHmm

namespace PhyloHmm

variable {α : Type}

/-! ## computeMaxPath: the row recurrence is the maximum over assignments -/

section Viterbi

variable [LinearOrderedAddCommGroup α]

theorem headScore_zero (h : PhyloHmm α) (c : Nat → Nat) :
    headScore h c 0 = h.site_like_cat (c 0) := by
  simp [headScore]

theorem headScore_succ (h : PhyloHmm α) (c : Nat → Nat) (r : Nat) :
    headScore h c (r + 1)
      = headScore h c r + h.site_like_cat ((r + 1) * h.ncat + c (r + 1))
        + h.transitLog (c (r + 1) * h.ncat + c r) := by
  unfold headScore
  rw [Finset.sum_range_succ, Finset.sum_Ico_succ_top (Nat.le_add_left 1 r)]
  simp only [Nat.add_sub_cancel]
  abel

theorem jointScore_eq_head (h : PhyloHmm α) (c : Nat → Nat) (hs : 1 ≤ h.nsite) :
    jointScore h c = h.prob_log (c (h.nsite - 1)) + headScore h c (h.nsite - 1) := by
  unfold jointScore headScore
  rw [Nat.sub_add_cancel hs]
  abel

/-- Every assignment scores at most the recurrence value of its last category. -/
theorem headScore_le_vitRow (h : PhyloHmm α) (c : Nat → Nat) (r : Nat)
    (hcat : ∀ i, i ≤ r → c i < h.ncat) : headScore h c r ≤ vitRow h r (c r) := by
  induction r with
  | zero => rw [headScore_zero, vitRow]
  | succ r ih =>
    have h1 := ih (fun i hi => hcat i (Nat.le_succ_of_le hi))
    have hl : c r ≤ h.ncat - 1 := by
      have := hcat r (Nat.le_succ r)
      omega
    have h2 := maxScan_ge (fun l => h.transitLog (c (r + 1) * h.ncat + l) + vitRow h r l)
      (h.ncat - 1) (c r) hl
    simp only at h2
    rw [headScore_succ, vitRow]
    calc headScore h c r + h.site_like_cat ((r + 1) * h.ncat + c (r + 1))
          + h.transitLog (c (r + 1) * h.ncat + c r)
        = (h.transitLog (c (r + 1) * h.ncat + c r) + headScore h c r)
          + h.site_like_cat ((r + 1) * h.ncat + c (r + 1)) := by abel
      _ ≤ (h.transitLog (c (r + 1) * h.ncat + c r) + vitRow h r (c r))
          + h.site_like_cat ((r + 1) * h.ncat + c (r + 1)) := by
          exact add_le_add_right (add_le_add_left h1 _) _
      _ ≤ _ := add_le_add_right h2 _

/-- The recurrence value is attained through its backpointer. -/
theorem vitRow_succ_arg (h : PhyloHmm α) (r j : Nat) :
    vitRow h (r + 1) j
      = h.transitLog (j * h.ncat + vitArg h r j) + vitRow h r (vitArg h r j)
        + h.site_like_cat ((r + 1) * h.ncat + j) := by
  rw [vitRow, maxScan_eq_arg]
  rfl

/-- The traced path, read in row order, attains the recurrence value on every head. -/
theorem headScore_vitPath (h : PhyloHmm α) (r : Nat) (hr : r ≤ h.nsite - 1) :
    headScore h (fun i => vitPath h (h.nsite - 1 - i)) r
      = vitRow h r (vitPath h (h.nsite - 1 - r)) := by
  induction r with
  | zero => rw [headScore_zero, vitRow]
  | succ r ih =>
    have e : h.nsite - 1 - r = (h.nsite - 1 - (r + 1)) + 1 := by omega
    have hp : vitPath h (h.nsite - 1 - r) = vitArg h r (vitPath h (h.nsite - 1 - (r + 1))) := by
      rw [e, vitPath]
      congr 1
      omega
    rw [headScore_succ, ih (Nat.le_of_succ_le hr), vitRow_succ_arg]
    simp only [hp]
    abel

/-- The traced path, read in row order, has joint score `vitStart`. -/
theorem jointScore_vitPath (h : PhyloHmm α) (hs : 1 ≤ h.nsite) :
    jointScore h (fun i => vitPath h (h.nsite - 1 - i)) = (vitStart h).1 := by
  rw [jointScore_eq_head h _ hs, headScore_vitPath h _ le_rfl]
  simp only [Nat.sub_self, vitPath]
  rw [vitStart, maxScan_eq_arg]

/-- No assignment scores more than `vitStart`. -/
theorem jointScore_le_vitStart (h : PhyloHmm α) (hs : 1 ≤ h.nsite) (c : Nat → Nat)
    (hcat : IsAssignment h c) : jointScore h c ≤ (vitStart h).1 := by
  have h1 := headScore_le_vitRow h c (h.nsite - 1) (fun i hi => hcat i (by omega))
  have hl : c (h.nsite - 1) ≤ h.ncat - 1 := by
    have := hcat (h.nsite - 1) (by omega)
    omega
  have h2 := maxScan_ge (fun j => h.prob_log j + vitRow h (h.nsite - 1) j) (h.ncat - 1)
    (c (h.nsite - 1)) hl
  rw [jointScore_eq_head h c hs]
  exact le_trans (add_le_add_left h1 _) h2

end Viterbi

end PhyloHmm

/-! ## Rounded addition is monotone -/

/-- Rounding to a multiple of `u` never goes below the multiple under `n`. -/
theorem roundTo_floor_le (u n : Nat) : n / u * u ≤ roundTo u n := by
  unfold roundTo
  split_ifs <;> nlinarith

/-- Rounding to a multiple of `u` never goes above the multiple over `n`. -/
theorem roundTo_le_ceil (u n : Nat) : roundTo u n ≤ (n / u + 1) * u := by
  unfold roundTo
  split_ifs <;> nlinarith

/-- Rounding to the multiples of one spacing is monotone. -/
theorem roundTo_mono (u n m : Nat) (hu : 0 < u) (hnm : n ≤ m) : roundTo u n ≤ roundTo u m := by
  have hq : n / u ≤ m / u := Nat.div_le_div_right hnm
  rcases Nat.lt_or_ge (n / u) (m / u) with hlt | hge
  · calc roundTo u n ≤ (n / u + 1) * u := roundTo_le_ceil u n
      _ ≤ m / u * u := Nat.mul_le_mul_right u hlt
      _ ≤ roundTo u m := roundTo_floor_le u m
  · have he : n / u = m / u := le_antisymm hq hge
    have h1 := Nat.div_add_mod n u
    have h2 := Nat.div_add_mod m u
    have hr : n % u ≤ m % u := by
      rw [he] at h1
      omega
    have e : (m / u + 1) * u = m / u * u + u := by ring
    unfold roundTo
    rw [he, e]
    split_ifs <;> omega

/-- A multiple of the spacing is its own rounding. -/
theorem roundTo_mul (u k : Nat) (hu : 0 < u) : roundTo u (k * u) = k * u := by
  unfold roundTo
  rw [Nat.mul_mod_left, Nat.mul_div_cancel k hu, if_pos (by omega)]

theorem spacingExp_ge (n fuel e : Nat) : e ≤ spacingExp n fuel e := by
  induction fuel generalizing e with
  | zero => exact le_rfl
  | succ fuel ih =>
    rw [spacingExp]
    split_ifs
    · exact le_rfl
    · exact le_trans (Nat.le_succ e) (ih (e + 1))

theorem spacingExp_mono (n m fuel e : Nat) (hnm : n ≤ m) :
    spacingExp n fuel e ≤ spacingExp m fuel e := by
  induction fuel generalizing e with
  | zero => exact le_rfl
  | succ fuel ih =>
    rw [spacingExp, spacingExp]
    split_ifs with h1 h2 h2
    · exact le_rfl
    · exact le_trans (Nat.le_succ e) (spacingExp_ge m fuel (e + 1))
    · omega
    · exact ih (e + 1)

/-- Above the first binade the magnitude is at least `2^52` spacings. -/
theorem spacingExp_lower (n fuel e : Nat) (h : e < spacingExp n fuel e) :
    2 ^ (spacingExp n fuel e + 52) ≤ n := by
  induction fuel generalizing e with
  | zero => simp [spacingExp] at h
  | succ fuel ih =>
    rw [spacingExp] at h ⊢
    split_ifs at h ⊢ with h1
    · omega
    · rcases Nat.lt_or_ge (e + 1) (spacingExp n fuel (e + 1)) with h2 | h2
      · exact ih (e + 1) h2
      · have h3 := spacingExp_ge n fuel (e + 1)
        have h4 : spacingExp n fuel (e + 1) = e + 1 := le_antisymm h2 h3
        rw [h4]
        have : e + 1 + 52 = e + 53 := by omega
        rw [this]
        omega

/-- Below the last binade the magnitude is less than `2^53` spacings. -/
theorem spacingExp_upper (n fuel e : Nat) (h : spacingExp n fuel e < e + fuel) :
    n < 2 ^ (spacingExp n fuel e + 53) := by
  induction fuel generalizing e with
  | zero => simp [spacingExp] at h
  | succ fuel ih =>
    rw [spacingExp] at h ⊢
    split_ifs at h ⊢ with h1
    · exact h1
    · exact ih (e + 1) (by omega)

theorem spacingExp_le (n fuel e : Nat) : spacingExp n fuel e ≤ e + fuel := by
  induction fuel generalizing e with
  | zero => exact le_rfl
  | succ fuel ih =>
    rw [spacingExp]
    split_ifs
    · omega
    · have := ih (e + 1)
      omega

/-- Rounding a magnitude to binary64 is monotone, also across binades. -/
theorem roundNat_mono (n m : Nat) (hnm : n ≤ m) : roundNat n ≤ roundNat m := by
  unfold roundNat
  have hle := spacingExp_mono n m 2100 0 hnm
  rcases Nat.lt_or_ge (spacingExp n 2100 0) (spacingExp m 2100 0) with hlt | hge
  · have hm := spacingExp_le m 2100 0
    have hn : n < 2 ^ (spacingExp n 2100 0 + 53) := spacingExp_upper n 2100 0 (by omega)
    have hm2 : 2 ^ (spacingExp m 2100 0 + 52) ≤ m := spacingExp_lower m 2100 0 (by omega)
    generalize spacingExp n 2100 0 = en at hlt hn
    generalize spacingExp m 2100 0 = em at hlt hm2
    have pn : 0 < 2 ^ en := Nat.pos_pow_of_pos _ (by decide)
    have pm : 0 < 2 ^ em := Nat.pos_pow_of_pos _ (by decide)
    have e1 : 2 ^ (en + 53) = 2 ^ 53 * 2 ^ en := by rw [pow_add, mul_comm]
    have e2 : 2 ^ (em + 52) = 2 ^ 52 * 2 ^ em := by rw [pow_add, mul_comm]
    calc roundTo (2 ^ en) n ≤ roundTo (2 ^ en) (2 ^ 53 * 2 ^ en) :=
          roundTo_mono _ _ _ pn (by rw [← e1]; exact le_of_lt hn)
      _ = 2 ^ (en + 53) := by rw [roundTo_mul _ _ pn, e1]
      _ ≤ 2 ^ (em + 52) := Nat.pow_le_pow_right (by decide) (by omega)
      _ = roundTo (2 ^ em) (2 ^ 52 * 2 ^ em) := by rw [roundTo_mul _ _ pm, e2]
      _ ≤ roundTo (2 ^ em) m := roundTo_mono _ _ _ pm (by rw [← e2]; exact hm2)
  · rw [le_antisymm hle hge]
    exact roundTo_mono _ n m (Nat.pos_pow_of_pos _ (by decide)) hnm

theorem Dbl.le_def (a b : Dbl) : a ≤ b ↔ a.units ≤ b.units := Iff.rfl

theorem Dbl.lt_def (a b : Dbl) : a < b ↔ a.units < b.units := Iff.rfl

/-- Rounding to binary64 is monotone. -/
theorem Dbl.round_mono (s t : ℤ) (hst : s ≤ t) : Dbl.round s ≤ Dbl.round t := by
  rw [Dbl.le_def]
  unfold Dbl.round
  simp only
  split_ifs with h1 h2 h2
  · exact_mod_cast roundNat_mono _ _ (Int.toNat_le_toNat hst)
  · omega
  · have : (0 : ℤ) ≤ (roundNat t.toNat : ℤ) := Int.natCast_nonneg _
    have : (0 : ℤ) ≤ (roundNat (-s).toNat : ℤ) := Int.natCast_nonneg _
    omega
  · have := roundNat_mono (-t).toNat (-s).toNat (Int.toNat_le_toNat (by omega))
    omega

theorem Dbl.add_def (a b : Dbl) : a + b = Dbl.round (a.units + b.units) := rfl

/-- Rounded addition is monotone in each argument. -/
theorem Dbl.addMono : AddMono Dbl := by
  constructor
  · intro a b c hbc
    rw [Dbl.add_def, Dbl.add_def]
    exact Dbl.round_mono _ _ (by rw [Dbl.le_def] at hbc; omega)
  · intro a b c hbc
    rw [Dbl.add_def, Dbl.add_def]
    exact Dbl.round_mono _ _ (by rw [Dbl.le_def] at hbc; omega)

/-- Sample sums of the model: `0.1 + 0.2 = 0.30000000000000004`, `2^53 + 1 = 2^53` (a tie,
resolved to the even neighbour), `2^53 + 3 = 2^53 + 4` and `-1 + 0.5 = -0.5`. -/
theorem Dbl.add_samples :
    Dbl.pos 3602879701896397 1019 + Dbl.pos 3602879701896397 1020
      = Dbl.pos 1351079888211149 1022
    ∧ Dbl.pos 1 1127 + Dbl.pos 1 1074 = Dbl.pos 1 1127
    ∧ Dbl.pos 1 1127 + Dbl.pos 3 1074 = Dbl.pos (2 ^ 53 + 4) 1074
    ∧ Dbl.neg 1 1074 + Dbl.pos 1 1073 = Dbl.neg 1 1073 := by
  decide!

namespace PhyloHmm

variable {α : Type}

/-! ## computeMaxPath: the score accumulated in the order of the recurrence -/

section Rec

variable [LinearOrder α] [Add α]

/-- The recurrence value is attained through its backpointer. -/
theorem vitRow_arg (h : PhyloHmm α) (r j : Nat) :
    vitRow h (r + 1) j
      = h.transitLog (j * h.ncat + vitArg h r j) + vitRow h r (vitArg h r j)
        + h.site_like_cat ((r + 1) * h.ncat + j) := by
  rw [vitRow, maxScan_eq_arg]
  rfl

/-- The traced path, read in row order, accumulates the recurrence value on every head. -/
theorem recScore_vitPath (h : PhyloHmm α) (r : Nat) (hr : r ≤ h.nsite - 1) :
    recScore h (fun i => vitPath h (h.nsite - 1 - i)) r
      = vitRow h r (vitPath h (h.nsite - 1 - r)) := by
  induction r with
  | zero => rw [recScore, vitRow]
  | succ r ih =>
    have e : h.nsite - 1 - r = (h.nsite - 1 - (r + 1)) + 1 := by omega
    have hp : vitPath h (h.nsite - 1 - r) = vitArg h r (vitPath h (h.nsite - 1 - (r + 1))) := by
      rw [e, vitPath]
      congr 1
      omega
    rw [recScore, ih (Nat.le_of_succ_le hr), vitRow_arg]
    simp only [hp]

/-- The traced path, read in row order, accumulates to `vitStart`. -/
theorem recTotal_vitPath (h : PhyloHmm α) :
    recTotal h (fun i => vitPath h (h.nsite - 1 - i)) = (vitStart h).1 := by
  rw [recTotal, recScore_vitPath h _ le_rfl]
  simp only [Nat.sub_self, vitPath]
  rw [vitStart, maxScan_eq_arg]

/-- With monotone addition every assignment accumulates at most the recurrence value of its
last category. -/
theorem recScore_le_vitRow (hmono : AddMono α) (h : PhyloHmm α) (c : Nat → Nat) (r : Nat)
    (hcat : ∀ i, i ≤ r → c i < h.ncat) : recScore h c r ≤ vitRow h r (c r) := by
  induction r with
  | zero => rw [recScore, vitRow]
  | succ r ih =>
    have h1 := ih (fun i hi => hcat i (Nat.le_succ_of_le hi))
    have hl : c r ≤ h.ncat - 1 := by
      have := hcat r (Nat.le_succ r)
      omega
    have h2 := maxScan_ge (fun l => h.transitLog (c (r + 1) * h.ncat + l) + vitRow h r l)
      (h.ncat - 1) (c r) hl
    simp only at h2
    rw [recScore, vitRow]
    exact hmono.2 _ _ _ (le_trans (hmono.1 _ _ _ h1) h2)

/-- With monotone addition no assignment accumulates more than `vitStart`. -/
theorem recTotal_le_vitStart (hmono : AddMono α) (h : PhyloHmm α) (hs : 1 ≤ h.nsite)
    (c : Nat → Nat) (hcat : IsAssignment h c) : recTotal h c ≤ (vitStart h).1 := by
  have h1 := recScore_le_vitRow hmono h c (h.nsite - 1) (fun i hi => hcat i (by omega))
  have hl : c (h.nsite - 1) ≤ h.ncat - 1 := by
    have := hcat (h.nsite - 1) (by omega)
    omega
  have h2 := maxScan_ge (fun j => h.prob_log j + vitRow h (h.nsite - 1) j) (h.ncat - 1)
    (c (h.nsite - 1)) hl
  exact le_trans (hmono.1 _ _ _ h1) h2

end Rec

section RecExact

variable [LinearOrderedAddCommGroup α]

/-- In exact arithmetic the order of accumulation does not matter. -/
theorem recScore_eq_headScore (h : PhyloHmm α) (c : Nat → Nat) (r : Nat) :
    recScore h c r = headScore h c r := by
  induction r with
  | zero => rw [recScore, headScore_zero]
  | succ r ih =>
    rw [recScore, headScore_succ, ih]
    abel

theorem recTotal_eq_jointScore (h : PhyloHmm α) (c : Nat → Nat) (hs : 1 ≤ h.nsite) :
    recTotal h c = jointScore h c := by
  rw [recTotal, jointScore_eq_head h c hs, recScore_eq_headScore]

end RecExact

end PhyloHmm

namespace PhyloHmm

/-! ## computeMaxPath: claims -/

section ViterbiClaims

/-- C1 as stated fails on the `double`s of the code. On `exRound` (`nsite = 2`, `ncat = 2`,
table `[[2^53, 2^53], [0, 0]]`, `T = [0, 1, 0, 0]`, log priors 0, all of them binary64 values)
the sum `T[1] + 2^53 = 1 + 2^53` of line 119 rounds to `2^53`, so `computeMaxPath` returns and
stores `2^53`, while the assignment "category 1 for row 0, category 0 for row 1" has the joint
log score `0 + (2^53 + 0) + T[0*2+1] = 2^53 + 1`: the returned value is not the maximum. -/
theorem computeMaxPath_rounded_not_max :
    1 ≤ exRound.nsite ∧ 1 ≤ exRound.ncat
    ∧ (∀ x, x < 4 → (exRound.site_like_cat x).IsBinary64 ∧ (exRound.transitLog x).IsBinary64)
    ∧ (∀ x, x < 2 → (exRound.prob_log x).IsBinary64)
    ∧ (computeMaxPath exRound).1 = Dbl.pos 1 1127
    ∧ (computeMaxPath exRound).2.pathLogLike = Dbl.pos 1 1127
    ∧ IsAssignment (exactOf exRound) (fun i => if i = 0 then 1 else 0)
    ∧ jointScore (exactOf exRound) (fun i => if i = 0 then 1 else 0)
        = (Dbl.pos 1 1127).units + (Dbl.pos 1 1074).units
    ∧ (computeMaxPath exRound).1.units
        < jointScore (exactOf exRound) (fun i => if i = 0 then 1 else 0) :=
  ⟨by decide, by decide, by decide!, by decide!, by decide!, by decide!,
    by unfold IsAssignment; decide, by decide!, by decide!⟩

/-- C1 amended: for `nsite ≥ 1` and `ncat ≥ 1` the value `computeMaxPath` returns, which is
also the value it stores in `pathLogLike`, is a maximum over all assignments `c` of a category
below `ncat` to every site (some assignment has this score and none has a larger one)

* of the joint log score accumulated in the order of the recurrence (`recTotal`: every `+` is
  the `+` of the code), for every addition that is monotone in each argument, such as the
  rounded addition of `double`s (state `h`);
* of the joint log score
  `prob_log[c(nsite-1)] + Σ site_like_cat[i][c(i)] + Σ T[c(i)*ncat + c(i-1)]` when the
  arithmetic is exact, as over the reals (state `g`). -/
theorem computeMaxPath_isMax {α β : Type} [LinearOrder α] [Add α]
    [LinearOrderedAddCommGroup β] (h : PhyloHmm α) (g : PhyloHmm β) (hmono : AddMono α)
    (hs : 1 ≤ h.nsite) (hc : 1 ≤ h.ncat) (gs : 1 ≤ g.nsite) (gc : 1 ≤ g.ncat) :
    ((computeMaxPath h).2.pathLogLike = (computeMaxPath h).1
      ∧ (∃ c, IsAssignment h c ∧ recTotal h c = (computeMaxPath h).1)
      ∧ ∀ c, IsAssignment h c → recTotal h c ≤ (computeMaxPath h).1)
    ∧ ((computeMaxPath g).2.pathLogLike = (computeMaxPath g).1
      ∧ (∃ c, IsAssignment g c ∧ jointScore g c = (computeMaxPath g).1)
      ∧ ∀ c, IsAssignment g c → jointScore g c ≤ (computeMaxPath g).1) := by
  obtain ⟨h1, h2, _⟩ := computeMaxPath_rows h hc
  obtain ⟨g1, g2, _⟩ := computeMaxPath_rows g gc
  refine ⟨⟨by rw [h1, h2], ⟨fun i => vitPath h (h.nsite - 1 - i), ?_, ?_⟩, ?_⟩,
    ⟨by rw [g1, g2], ⟨fun i => vitPath g (g.nsite - 1 - i), ?_, ?_⟩, ?_⟩⟩
  · intro i _
    exact vitPath_lt h _ hc
  · rw [h1]
    exact recTotal_vitPath h
  · intro c hcat
    rw [h1]
    exact recTotal_le_vitStart hmono h hs c hcat
  · intro i _
    exact vitPath_lt g _ gc
  · rw [g1]
    exact jointScore_vitPath g gs
  · intro c hcat
    rw [g1]
    exact jointScore_le_vitStart g gs c hcat

/-- Instance of the amended C1 at the binary64 state `exRound` and the exact state
`exTwoRows`. -/
theorem computeMaxPath_isMax_witness :
    (AddMono Dbl ∧ 1 ≤ exRound.nsite ∧ 1 ≤ exRound.ncat
      ∧ 1 ≤ exTwoRows.nsite ∧ 1 ≤ exTwoRows.ncat)
    ∧ ((computeMaxPath exRound).2.pathLogLike = (computeMaxPath exRound).1
      ∧ (∃ c, IsAssignment exRound c ∧ recTotal exRound c = (computeMaxPath exRound).1)
      ∧ ∀ c, IsAssignment exRound c → recTotal exRound c ≤ (computeMaxPath exRound).1)
    ∧ ((computeMaxPath exTwoRows).2.pathLogLike = (computeMaxPath exTwoRows).1
      ∧ (∃ c, IsAssignment exTwoRows c ∧ jointScore exTwoRows c = (computeMaxPath exTwoRows).1)
      ∧ ∀ c, IsAssignment exTwoRows c →
          jointScore exTwoRows c ≤ (computeMaxPath exTwoRows).1) :=
  ⟨⟨Dbl.addMono, by decide, by decide, by decide, by decide⟩,
    computeMaxPath_isMax exRound exTwoRows Dbl.addMono (by decide) (by decide) (by decide)
      (by decide)⟩

/-- C2 as stated fails: on `exTwoRows` (`nsite = 2`, `ncat = 2`) the decoded sequence is
`[1, 0]`, and read as "category `site_categories[i]` for row `i`" its joint log score is
`-10`, not the returned `pathLogLike = 0`. -/
theorem site_categories_row_order_fails :
    1 ≤ exTwoRows.nsite ∧ 1 ≤ exTwoRows.ncat
    ∧ (computeMaxPath exTwoRows).2.site_categories 0 = 1
    ∧ (computeMaxPath exTwoRows).2.site_categories 1 = 0
    ∧ (computeMaxPath exTwoRows).2.pathLogLike = 0
    ∧ jointScore exTwoRows (computeMaxPath exTwoRows).2.site_categories = -10
    ∧ jointScore exTwoRows (computeMaxPath exTwoRows).2.site_categories
        ≠ (computeMaxPath exTwoRows).2.pathLogLike := by
  decide

/-- On the binary64 state `exTenths` (table `[[0.2, 0.30000000000000004], [0, 0]]`,
`T = [0.1, 0, 0, 0]`) `computeMaxPath` returns `0.30000000000000004`, the rounded sum
`0.1 + 0.2`, and decodes `[0, 0]`; the sum without rounding of the terms of that path is
another number. -/
theorem exTenths_exact_score_differs :
    (computeMaxPath exTenths).1 = Dbl.pos 1351079888211149 1022
    ∧ (computeMaxPath exTenths).2.site_categories 0 = 0
    ∧ (computeMaxPath exTenths).2.site_categories 1 = 0
    ∧ jointScore (exactOf exTenths)
        (fun i => (computeMaxPath exTenths).2.site_categories (exTenths.nsite - 1 - i))
      ≠ (computeMaxPath exTenths).1.units := by
  decide!

/-- C2 amended: for `nsite ≥ 1` and `ncat ≥ 1`, after `computeMaxPath` the sequence
`site_categories` read in reverse row order, category `site_categories[nsite-1-i]` for row `i`
of `site_like_cat`, is an assignment of categories below `ncat` whose joint log score equals
the stored and returned `pathLogLike`:

* the score accumulated in the order of the recurrence (`recTotal`: every `+` is the `+` of
  the code), for every addition, rounded or not (state `h`);
* the joint log score `jointScore` (log prior of the category of row `nsite-1`, the table
  entries, the transition logs `T[c(i)*ncat + c(i-1)]`) when the arithmetic is exact, as over
  the reals (state `g`). -/
theorem site_categories_reversed_score {α β : Type} [LinearOrder α] [Add α]
    [LinearOrderedAddCommGroup β] (h : PhyloHmm α) (g : PhyloHmm β)
    (_hs : 1 ≤ h.nsite) (hc : 1 ≤ h.ncat) (gs : 1 ≤ g.nsite) (gc : 1 ≤ g.ncat) :
    (IsAssignment h (fun i => (computeMaxPath h).2.site_categories (h.nsite - 1 - i))
      ∧ recTotal h (fun i => (computeMaxPath h).2.site_categories (h.nsite - 1 - i))
          = (computeMaxPath h).2.pathLogLike
      ∧ (computeMaxPath h).2.pathLogLike = (computeMaxPath h).1)
    ∧ (IsAssignment g (fun i => (computeMaxPath g).2.site_categories (g.nsite - 1 - i))
      ∧ jointScore g (fun i => (computeMaxPath g).2.site_categories (g.nsite - 1 - i))
          = (computeMaxPath g).2.pathLogLike
      ∧ (computeMaxPath g).2.pathLogLike = (computeMaxPath g).1) := by
  obtain ⟨h1, h2, h3⟩ := computeMaxPath_rows h hc
  obtain ⟨g1, g2, g3⟩ := computeMaxPath_rows g gc
  have e : (fun i => (computeMaxPath h).2.site_categories (h.nsite - 1 - i))
      = fun i => vitPath h (h.nsite - 1 - i) := by
    funext i
    exact h3 _ (Nat.sub_le _ _)
  have e' : (fun i => (computeMaxPath g).2.site_categories (g.nsite - 1 - i))
      = fun i => vitPath g (g.nsite - 1 - i) := by
    funext i
    exact g3 _ (Nat.sub_le _ _)
  rw [e, h2, h1, e', g2, g1]
  refine ⟨⟨?_, recTotal_vitPath h, rfl⟩, ⟨?_, jointScore_vitPath g gs, rfl⟩⟩
  · intro i _
    exact vitPath_lt h _ hc
  · intro i _
    exact vitPath_lt g _ gc

/-- Instance of the amended C2 at the binary64 state `exTenths` and the exact state
`exTwoRows`. -/
theorem site_categories_reversed_score_witness :
    (1 ≤ exTenths.nsite ∧ 1 ≤ exTenths.ncat ∧ 1 ≤ exTwoRows.nsite ∧ 1 ≤ exTwoRows.ncat)
    ∧ (IsAssignment exTenths
          (fun i => (computeMaxPath exTenths).2.site_categories (exTenths.nsite - 1 - i))
      ∧ recTotal exTenths
          (fun i => (computeMaxPath exTenths).2.site_categories (exTenths.nsite - 1 - i))
          = (computeMaxPath exTenths).2.pathLogLike
      ∧ (computeMaxPath exTenths).2.pathLogLike = (computeMaxPath exTenths).1)
    ∧ (IsAssignment exTwoRows
          (fun i => (computeMaxPath exTwoRows).2.site_categories (exTwoRows.nsite - 1 - i))
      ∧ jointScore exTwoRows
          (fun i => (computeMaxPath exTwoRows).2.site_categories (exTwoRows.nsite - 1 - i))
          = (computeMaxPath exTwoRows).2.pathLogLike
      ∧ (computeMaxPath exTwoRows).2.pathLogLike = (computeMaxPath exTwoRows).1) :=
  ⟨⟨by decide, by decide, by decide, by decide⟩,
    site_categories_reversed_score exTenths exTwoRows (by decide) (by decide) (by decide)
      (by decide)⟩

end ViterbiClaims

end PhyloHmm

namespace PhyloHmm

variable {α : Type}

/-! ## computeBackLike: the two-row buffer computes the row recurrence -/

section BackLike

variable [Add α]

theorem isToggle_mod : IsToggle (fun pre_k => (pre_k + 1) % 2) := by
  intro k hk
  constructor <;> simp only <;> omega

theorem isToggle_xor : IsToggle (fun pre_k => pre_k ^^^ 1) := by
  intro k hk
  interval_cases k <;> decide

/-- The loop over `j` fills the first `m` cells of row `work`. -/
theorem backLikeJ_loop (ldp : (Nat → α) → (Nat → α) → Nat → α) (hldp : LdpLocal ldp)
    (h : PhyloHmm α) (s : Locals α) (m : Nat) (hm : m ≤ h.ncat) (ht : s.transit_arr = 0)
    (hd : ∀ l j, l < h.ncat → j < h.ncat → s.pre_work + l ≠ s.work + j) :
    forLoop (backLikeJ ldp h) 0 m s
      = { s with
          work_arr := fun x =>
            if s.work ≤ x ∧ x < s.work + m then
              ldp (fun l => h.transitLog ((x - s.work) * h.ncat + l))
                  (fun l => s.work_arr (s.pre_work + l)) h.ncat
                + h.site_like_cat (s.site_lh_arr + (x - s.work))
            else s.work_arr x
          transit_arr := m * h.ncat } := by
  induction m with
  | zero =>
    ext x
    · have : ¬ (s.work ≤ x ∧ x < s.work + 0) := by omega
      simp only [forLoop, this, if_false]
    all_goals simp [forLoop, ht]
  | succ m ih =>
    have hm' : m < h.ncat := hm
    rw [forLoop_succ, ih (Nat.le_of_lt hm'), Nat.zero_add]
    have hread : ldp (fun l => h.transitLog (m * h.ncat + l))
          (fun l =>
            if s.work ≤ s.pre_work + l ∧ s.pre_work + l < s.work + m then
              ldp (fun l' => h.transitLog ((s.pre_work + l - s.work) * h.ncat + l'))
                  (fun l' => s.work_arr (s.pre_work + l')) h.ncat
                + h.site_like_cat (s.site_lh_arr + (s.pre_work + l - s.work))
            else s.work_arr (s.pre_work + l)) h.ncat
        = ldp (fun l => h.transitLog (m * h.ncat + l)) (fun l => s.work_arr (s.pre_work + l))
            h.ncat := by
      apply hldp
      · intro l _
        rfl
      · intro l hl
        have : ¬ (s.work ≤ s.pre_work + l ∧ s.pre_work + l < s.work + m) := by
          rintro ⟨h1, h2⟩
          exact hd l (s.pre_work + l - s.work) hl (by omega) (by omega)
        simp only [this, if_false]
    simp only [backLikeJ, hread]
    ext x
    · simp only [Function.update_apply]
      by_cases hx : x = s.work + m
      · subst hx
        simp
      · have : (s.work ≤ x ∧ x < s.work + (m + 1)) ↔ (s.work ≤ x ∧ x < s.work + m) := by
          constructor
          · rintro ⟨h1, h2⟩
            exact ⟨h1, by omega⟩
          · rintro ⟨h1, h2⟩
            exact ⟨h1, by omega⟩
        simp only [hx, if_false, this]
    all_goals simp [Nat.succ_mul]

theorem backInv_init (ldp : (Nat → α) → (Nat → α) → Nat → α) (h : PhyloHmm α) :
    BackInv ldp h 0 (initLocals h) where
  pre_k_lt := by simp [initLocals]
  pre_work_eq := by simp [initLocals]
  site_lh_eq := by simp [initLocals]
  row_eq := by
    intro j hj
    simp [initLocals, hj, accRow]

theorem backInv_step (next_k : Nat → Nat) (hk : IsToggle next_k)
    (ldp : (Nat → α) → (Nat → α) → Nat → α) (hldp : LdpLocal ldp) (h : PhyloHmm α)
    (m i : Nat) (s : Locals α) (inv : BackInv ldp h m s) :
    BackInv ldp h (m + 1) (backLikeI next_k ldp h i s) := by
  obtain ⟨hk1, hk2⟩ := hk s.pre_k inv.pre_k_lt
  have hloop := backLikeJ_loop ldp hldp h
    { s with
      k := next_k s.pre_k
      work := next_k s.pre_k * h.ncat
      site_lh_arr := s.site_lh_arr + h.ncat
      transit_arr := 0 } h.ncat le_rfl rfl
    (by
      intro l j hl hj
      simp only [inv.pre_work_eq]
      exact rows_disjoint (Ne.symm hk2) hl hj)
  simp only at hloop
  constructor
  · simp only [backLikeI, hloop]
    exact hk1
  · simp only [backLikeI, hloop]
  · simp only [backLikeI, hloop]
    simp only [inv.site_lh_eq, Nat.succ_mul]
  · intro j hj
    simp only [backLikeI, hloop]
    have hin : next_k s.pre_k * h.ncat ≤ next_k s.pre_k * h.ncat + j
        ∧ next_k s.pre_k * h.ncat + j < next_k s.pre_k * h.ncat + h.ncat :=
      ⟨by omega, by omega⟩
    simp only [hin, and_self, if_true, Nat.add_sub_cancel_left, accRow, inv.site_lh_eq,
      Nat.succ_mul]
    congr 1
    apply hldp
    · intro l _
      rfl
    · intro l hl
      exact inv.row_eq l hl

/-- After `m` rounds the scratch row `pre_work` holds row `m` of the sum recurrence,
whichever of the two toggles is used. -/
theorem backLikeLoop_inv (next_k : Nat → Nat) (hk : IsToggle next_k)
    (ldp : (Nat → α) → (Nat → α) → Nat → α) (hldp : LdpLocal ldp) (h : PhyloHmm α) (m : Nat) :
    BackInv ldp h m (backLikeLoop next_k ldp h m) := by
  induction m with
  | zero => exact backInv_init ldp h
  | succ m ih =>
    rw [backLikeLoop, forLoop_succ]
    exact backInv_step next_k hk ldp hldp h m _ _ ih

/-- The value of `computeBackLike` is the value computed with one accumulator row per
site. -/
theorem computeBackLike_rows (ldp : (Nat → α) → (Nat → α) → Nat → α) (hldp : LdpLocal ldp)
    (h : PhyloHmm α) : (computeBackLike ldp h).1 = backLikeRows ldp h := by
  have inv := backLikeLoop_inv _ isToggle_mod ldp hldp h (h.nsite - 1)
  simp only [computeBackLike, backLikeRows]
  apply hldp
  · intro l _
    rfl
  · intro l hl
    exact inv.row_eq l hl

end BackLike

end PhyloHmm

/-! ## Sums over all assignments -/

/-- A sum over all tuples of length `n + 1` splits into the last entry and the rest. -/
theorem sum_fin_succ_fun {M : Type} [AddCommMonoid M] (n m : Nat)
    (G : (Fin (n + 1) → Fin m) → M) :
    ∑ f, G f = ∑ x : Fin m, ∑ f' : Fin n → Fin m, G (Fin.snoc f' x) := by
  rw [← (Fin.snocEquiv (fun _ => Fin m)).sum_comp G, Fintype.sum_prod_type]
  rfl

theorem extPath_snoc_le {n m : Nat} (f' : Fin n → Fin m) (x : Fin m) (j i : Nat)
    (hi : i ≤ n) :
    extPath (Fin.snoc f' x : Fin (n + 1) → Fin m) j i = extPath f' x.val i := by
  unfold extPath
  rcases Nat.lt_or_ge i n with h1 | h1
  · have h2 : i < n + 1 := by omega
    rw [dif_pos h1, dif_pos h2]
    have : (⟨i, h2⟩ : Fin (n + 1)) = Fin.castSucc ⟨i, h1⟩ := rfl
    rw [this, Fin.snoc_castSucc]
  · have e : i = n := by omega
    subst e
    have h2 : i < i + 1 := by omega
    rw [dif_neg (lt_irrefl i), dif_pos h2]
    have : (⟨i, h2⟩ : Fin (i + 1)) = Fin.last i := rfl
    rw [this, Fin.snoc_last]

theorem extPath_ge {n m : Nat} (f : Fin n → Fin m) (j i : Nat) (hi : n ≤ i) :
    extPath f j i = j := by
  unfold extPath
  rw [dif_neg (by omega)]

theorem pathOf_eq_extPath {n m : Nat} (f : Fin n → Fin m) : pathOf f = extPath f 0 := rfl

theorem logDotProd_local : PhyloHmm.LdpLocal logDotProd := by
  intro a a' b b' n ha hb
  unfold logDotProd
  congr 1
  apply Finset.sum_congr rfl
  intro l hl
  rw [ha l (Finset.mem_range.mp hl), hb l (Finset.mem_range.mp hl)]

namespace PhyloHmm

variable {α : Type}

theorem headScore_congr [AddCommMonoid α] (h : PhyloHmm α) (c c' : Nat → Nat) (r : Nat)
    (hcc : ∀ i, i ≤ r → c i = c' i) : headScore h c r = headScore h c' r := by
  unfold headScore
  congr 1
  · apply Finset.sum_congr rfl
    intro i hi
    rw [hcc i (by have := Finset.mem_range.mp hi; omega)]
  · apply Finset.sum_congr rfl
    intro i hi
    have := Finset.mem_Ico.mp hi
    rw [hcc i (by omega), hcc (i - 1) (by omega)]

/-! ## computeBackLike: the row recurrence is the sum over assignments -/

/-- The exponential of the accumulator of row `i` and category `j` is the sum, over all
assignments of the rows before `i`, of the exponential of the score of the rows `0..i`. -/
theorem exp_accRow (h : PhyloHmm ℝ) (hc : 1 ≤ h.ncat) (i j : Nat) :
    Real.exp (accRow logDotProd h i j)
      = ∑ f : Fin i → Fin h.ncat, Real.exp (headScore h (extPath f j) i) := by
  induction i generalizing j with
  | zero =>
    simp [accRow, headScore_zero, extPath]
  | succ i ih =>
    have hpos : 0 < ∑ l ∈ Finset.range h.ncat,
        Real.exp (h.transitLog (j * h.ncat + l) + accRow logDotProd h i l) := by
      apply Finset.sum_pos
      · intro l _
        exact Real.exp_pos _
      · exact ⟨0, Finset.mem_range.mpr hc⟩
    rw [accRow, logDotProd, Real.exp_add, Real.exp_log hpos, sum_fin_succ_fun,
      ← Fin.sum_univ_eq_sum_range
        (fun l => Real.exp (h.transitLog (j * h.ncat + l) + accRow logDotProd h i l)),
      Finset.sum_mul]
    apply Finset.sum_congr rfl
    intro x _
    rw [Real.exp_add, ih, Finset.mul_sum, Finset.sum_mul]
    apply Finset.sum_congr rfl
    intro f' _
    rw [headScore_succ, extPath_ge _ _ _ le_rfl, extPath_snoc_le _ _ _ _ le_rfl,
      extPath_ge _ _ _ le_rfl,
      headScore_congr h _ (extPath f' x.val) i (fun k hk => extPath_snoc_le f' x j k hk),
      Real.exp_add, Real.exp_add]
    ring

/-- The sum over all assignments of the exponential of the joint score, through the
accumulators of the last row. -/
theorem sum_exp_jointScore (h : PhyloHmm ℝ) (hc : 1 ≤ h.ncat) (n : Nat)
    (hn : h.nsite = n + 1) :
    ∑ f : Fin (n + 1) → Fin h.ncat, Real.exp (jointScore h (pathOf f))
      = ∑ l ∈ Finset.range h.ncat, Real.exp (h.prob_log l + accRow logDotProd h n l) := by
  have hn1 : h.nsite - 1 = n := by omega
  rw [sum_fin_succ_fun,
    ← Fin.sum_univ_eq_sum_range (fun l => Real.exp (h.prob_log l + accRow logDotProd h n l))]
  apply Finset.sum_congr rfl
  intro x _
  rw [Real.exp_add, exp_accRow h hc, Finset.mul_sum]
  apply Finset.sum_congr rfl
  intro f' _
  rw [jointScore_eq_head h _ (by omega), hn1, pathOf_eq_extPath,
    extPath_snoc_le _ _ _ _ le_rfl, extPath_ge _ _ _ le_rfl,
    headScore_congr h _ (extPath f' x.val) n (fun k hk => extPath_snoc_le f' x 0 k hk),
    Real.exp_add]

/-- The forward value computed row by row is the log of the sum over all assignments. -/
theorem backLikeRows_eq_log_sum (h : PhyloHmm ℝ) (hs : 1 ≤ h.nsite) (hc : 1 ≤ h.ncat) :
    backLikeRows logDotProd h
      = Real.log (∑ f : Fin h.nsite → Fin h.ncat, Real.exp (jointScore h (pathOf f))) := by
  obtain ⟨nsite, ncat, prob, prob_log, slc, sc, wa, nc, pl, tl⟩ := h
  obtain ⟨n, rfl⟩ : ∃ n, nsite = n + 1 := ⟨nsite - 1, by simp at hs; omega⟩
  rw [sum_exp_jointScore _ hc n rfl]
  rfl

end PhyloHmm

namespace PhyloHmm

/-! ## computeBackLike: claims -/

/-- C3: for `nsite ≥ 1` and `ncat ≥ 1`, with `logDotProd a b n = log (Σ l < n, exp (a[l] + b[l]))`
over the reals, `computeBackLike` returns the log of the sum, over all assignments `c` of
categories to sites, of `exp` of the joint log score
`prob_log[c(nsite-1)] + Σ site_like_cat[i][c(i)] + Σ T[c(i)*ncat + c(i-1)]`, and the two-row
parity buffer gives the value obtained with one accumulator row per site. -/
theorem computeBackLike_marginal (h : PhyloHmm ℝ) (hs : 1 ≤ h.nsite) (hc : 1 ≤ h.ncat) :
    (computeBackLike logDotProd h).1
      = Real.log (∑ f : Fin h.nsite → Fin h.ncat, Real.exp (jointScore h (pathOf f)))
    ∧ (computeBackLike logDotProd h).1 = backLikeRows logDotProd h := by
  have e := computeBackLike_rows logDotProd logDotProd_local h
  exact ⟨by rw [e, backLikeRows_eq_log_sum h hs hc], e⟩

/-- Instance of C3 at `exAsym`. -/
theorem computeBackLike_marginal_witness :
    1 ≤ exAsym.nsite ∧ 1 ≤ exAsym.ncat
    ∧ (computeBackLike logDotProd exAsym).1
      = Real.log (∑ f : Fin exAsym.nsite → Fin exAsym.ncat,
          Real.exp (jointScore exAsym (pathOf f)))
    ∧ (computeBackLike logDotProd exAsym).1 = backLikeRows logDotProd exAsym :=
  ⟨by decide, by decide, computeBackLike_marginal exAsym (by decide) (by decide)⟩

/-- The accumulator cells of `computeBackLike` are the rows of the recurrence. -/
theorem backLikeAcc_eq_accRow (h : PhyloHmm ℝ) (i j : Nat) (hj : j < h.ncat) :
    backLikeAcc logDotProd h i j = accRow logDotProd h i j :=
  (backLikeLoop_inv _ isToggle_mod logDotProd logDotProd_local h i).row_eq j hj

/-- C4 as stated fails: on `exAsym` (`T[0*2+1] = 1`, `T[1*2+0] = 0`) the accumulator written
for site 1 and category 0 is `log (exp 0 + exp 1)`, while the formula of the claim, which
reads entry `s * ncat + j` for source `s` and destination `j`, gives `log (exp 0 + exp 0)`. -/
theorem backLike_source_row_fails :
    backLikeAcc logDotProd exAsym 1 0
      ≠ Real.log (∑ s ∈ Finset.range exAsym.ncat,
            Real.exp (exAsym.transitLog (s * exAsym.ncat + 0)
              + backLikeAcc logDotProd exAsym 0 s))
          + exAsym.site_like_cat (1 * exAsym.ncat + 0) := by
  have h0 : ∀ s, backLikeAcc logDotProd exAsym 0 s = 0 := by
    intro s
    simp [backLikeAcc, backLikeLoop, forLoop, initLocals, exAsym]
  have h1 : backLikeAcc logDotProd exAsym 1 0 = Real.log (1 + Real.exp 1) := by
    rw [backLikeAcc_eq_accRow exAsym 1 0 (by decide)]
    simp [accRow, logDotProd, exAsym, Finset.sum_range_succ]
  rw [h1]
  simp only [h0]
  have h2 : Real.log (∑ s ∈ Finset.range exAsym.ncat,
            Real.exp (exAsym.transitLog (s * exAsym.ncat + 0) + 0))
          + exAsym.site_like_cat (1 * exAsym.ncat + 0) = Real.log 2 := by
    simp [exAsym, Finset.sum_range_succ]
  rw [h2]
  intro e
  have hpos : (0 : ℝ) < 1 + Real.exp 1 := by positivity
  have := Real.log_injOn_pos (Set.mem_Ioi.mpr hpos) (Set.mem_Ioi.mpr (by norm_num)) e
  have hlt : (1 : ℝ) < Real.exp 1 := by
    have := Real.add_one_lt_exp (x := 1) (by norm_num)
    linarith
  linarith

/-- C4 amended: in `computeBackLike`, for every site `1 ≤ i < nsite` and destination category
`j < ncat`, the accumulator written for site `i` is
`acc[j] = log (Σ s < ncat, exp (T[j*ncat + s] + prevAcc[s])) + site_like_cat[i][j]`:
the destination `j` selects the row of the row-major transition array and the source `s` the
column, for every transition array. -/
theorem backLike_recurrence (h : PhyloHmm ℝ) (i j : Nat) (hi : 1 ≤ i) (hi' : i < h.nsite)
    (hj : j < h.ncat) :
    backLikeAcc logDotProd h i j
      = Real.log (∑ s ∈ Finset.range h.ncat,
            Real.exp (h.transitLog (j * h.ncat + s) + backLikeAcc logDotProd h (i - 1) s))
          + h.site_like_cat (i * h.ncat + j) := by
  obtain ⟨i', rfl⟩ : ∃ i', i = i' + 1 := ⟨i - 1, by omega⟩
  rw [backLikeAcc_eq_accRow h _ j hj, accRow, logDotProd, Nat.add_sub_cancel]
  congr 2
  apply Finset.sum_congr rfl
  intro s hs
  rw [backLikeAcc_eq_accRow h i' s (Finset.mem_range.mp hs)]

/-- Instance of the amended C4 at `exAsym`. -/
theorem backLike_recurrence_witness :
    1 ≤ 1 ∧ 1 < exAsym.nsite ∧ 0 < exAsym.ncat
    ∧ backLikeAcc logDotProd exAsym 1 0
      = Real.log (∑ s ∈ Finset.range exAsym.ncat,
            Real.exp (exAsym.transitLog (0 * exAsym.ncat + s)
              + backLikeAcc logDotProd exAsym (1 - 1) s))
          + exAsym.site_like_cat (1 * exAsym.ncat + 0) :=
  ⟨by decide, by decide, by decide,
    backLike_recurrence exAsym 1 0 (by decide) (by decide) (by decide)⟩

theorem jointScore_congr {α : Type} [AddCommMonoid α] (h : PhyloHmm α) (c c' : Nat → Nat)
    (hs : 1 ≤ h.nsite) (hcc : ∀ i, i < h.nsite → c i = c' i) :
    jointScore h c = jointScore h c' := by
  unfold jointScore
  congr 1
  · congr 1
    · rw [hcc _ (by omega)]
    · apply Finset.sum_congr rfl
      intro i hi
      rw [hcc i (Finset.mem_range.mp hi)]
  · apply Finset.sum_congr rfl
    intro i hi
    have := Finset.mem_Ico.mp hi
    rw [hcc i (by omega), hcc (i - 1) (by omega)]

/-- C5: for `nsite ≥ 1` and `ncat ≥ 1`, on the same table, transition array and prior, the
value returned by `computeMaxPath` is at most the value returned by `computeBackLike`, over
the reals. -/
theorem computeMaxPath_le_computeBackLike (h : PhyloHmm ℝ) (hs : 1 ≤ h.nsite)
    (hc : 1 ≤ h.ncat) : (computeMaxPath h).1 ≤ (computeBackLike logDotProd h).1 := by
  have hv : (computeMaxPath h).1 = (vitStart h).1 := (computeMaxPath_rows h hc).1
  have hsc := jointScore_vitPath h hs
  have hf : jointScore h (pathOf (fun i : Fin h.nsite =>
      (⟨vitPath h (h.nsite - 1 - i.val), vitPath_lt h _ hc⟩ : Fin h.ncat)))
      = (vitStart h).1 := by
    rw [← hsc]
    apply jointScore_congr h _ _ hs
    intro i hi
    simp [pathOf, hi]
  rw [computeBackLike_rows logDotProd logDotProd_local h, backLikeRows_eq_log_sum h hs hc, hv,
    ← hf]
  have hle : Real.exp (jointScore h (pathOf (fun i : Fin h.nsite =>
      (⟨vitPath h (h.nsite - 1 - i.val), vitPath_lt h _ hc⟩ : Fin h.ncat))))
      ≤ ∑ f : Fin h.nsite → Fin h.ncat, Real.exp (jointScore h (pathOf f)) :=
    Finset.single_le_sum (f := fun f : Fin h.nsite → Fin h.ncat =>
      Real.exp (jointScore h (pathOf f))) (fun f _ => le_of_lt (Real.exp_pos _))
      (Finset.mem_univ _)
  calc jointScore h (pathOf (fun i : Fin h.nsite =>
      (⟨vitPath h (h.nsite - 1 - i.val), vitPath_lt h _ hc⟩ : Fin h.ncat)))
      = Real.log (Real.exp (jointScore h (pathOf (fun i : Fin h.nsite =>
      (⟨vitPath h (h.nsite - 1 - i.val), vitPath_lt h _ hc⟩ : Fin h.ncat))))) :=
        (Real.log_exp _).symm
    _ ≤ _ := Real.log_le_log (Real.exp_pos _) hle

/-- Instance of C5 at `exAsym`. -/
theorem computeMaxPath_le_computeBackLike_witness :
    1 ≤ exAsym.nsite ∧ 1 ≤ exAsym.ncat
    ∧ (computeMaxPath exAsym).1 ≤ (computeBackLike logDotProd exAsym).1 :=
  ⟨by decide, by decide, computeMaxPath_le_computeBackLike exAsym (by decide) (by decide)⟩

end PhyloHmm

/-! ## optimizeProbEM: the loops -/

/-- A loop storing `f j` into cell `j` for `j < n`. -/
theorem fillLoop {β : Type} (f : Nat → β) (n : Nat) (P : Nat → β) :
    forLoop (fun j p => Function.update p j (f j)) 0 n P
      = fun x => if x < n then f x else P x := by
  induction n with
  | zero => simp [forLoop]
  | succ n ih =>
    rw [forLoop_succ, ih, Nat.zero_add]
    funext x
    simp only [Function.update_apply]
    by_cases hx : x = n
    · subst hx
      simp
    · have : x < n + 1 ↔ x < n := by omega
      simp only [hx, if_false, this]

/-- A loop adding `f j` for `j < n` to an accumulator that starts at 0. -/
theorem sumLoop {β : Type} [AddCommMonoid β] (f : Nat → β) (n : Nat) :
    forLoop (fun j acc => acc + f j) 0 n 0 = ∑ j ∈ Finset.range n, f j := by
  induction n with
  | zero => simp [forLoop]
  | succ n ih => rw [forLoop_succ, ih, Nat.zero_add, Finset.sum_range_succ]

/-- The loop of lines 186-188: `work[j] = pl[j] + pre_work[j]`. -/
theorem scoreLoop {β : Type} [Add β] (work pre_work n : Nat) (pl W : Nat → β)
    (hd : ∀ l j, l < n → j < n → pre_work + l ≠ work + j) :
    forLoop (fun j w => Function.update w (work + j) (pl j + w (pre_work + j))) 0 n W
      = fun x => if work ≤ x ∧ x < work + n then pl (x - work) + W (pre_work + (x - work))
          else W x := by
  induction n with
  | zero =>
    funext x
    have : ¬ (work ≤ x ∧ x < work + 0) := by omega
    simp only [forLoop, this, if_false]
  | succ n ih =>
    rw [forLoop_succ, ih (fun l j hl hj => hd l j (by omega) (by omega)), Nat.zero_add]
    have hread : ¬ (work ≤ pre_work + n ∧ pre_work + n < work + n) := by
      rintro ⟨h1, h2⟩
      exact hd n (pre_work + n - work) (by omega) (by omega) (by omega)
    funext x
    simp only [Function.update_apply, hread, if_false]
    by_cases hx : x = work + n
    · subst hx
      simp
    · have : (work ≤ x ∧ x < work + (n + 1)) ↔ (work ≤ x ∧ x < work + n) := by
        constructor
        · rintro ⟨h1, h2⟩
          exact ⟨h1, by omega⟩
        · rintro ⟨h1, h2⟩
          exact ⟨h1, by omega⟩
      simp only [hx, if_false, this]

/-- The loops of lines 198-200 and 202-204: `work[j] = exp (work[j] - max)` for
`lo ≤ j < lo + n`. -/
theorem expLoop {β : Type} [Sub β] (expf : β → β) (work lo n : Nat) (M : β) (W : Nat → β) :
    forLoop (fun j w => Function.update w (work + j) (expf (w (work + j) - M))) lo n W
      = fun x => if work + lo ≤ x ∧ x < work + lo + n then expf (W x - M) else W x := by
  induction n with
  | zero =>
    funext x
    have : ¬ (work + lo ≤ x ∧ x < work + lo + 0) := by omega
    simp only [forLoop, this, if_false]
  | succ n ih =>
    rw [forLoop_succ, ih]
    have hread : ¬ (work + lo ≤ work + (lo + n) ∧ work + (lo + n) < work + lo + n) := by omega
    funext x
    simp only [Function.update_apply, hread, if_false]
    by_cases hx : x = work + (lo + n)
    · subst hx
      have : work + lo ≤ work + (lo + n) ∧ work + (lo + n) < work + lo + (n + 1) :=
        ⟨by omega, by omega⟩
      simp only [if_true, this, and_self]
    · have : (work + lo ≤ x ∧ x < work + lo + (n + 1)) ↔ (work + lo ≤ x ∧ x < work + lo + n) := by
        constructor
        · rintro ⟨h1, h2⟩
          exact ⟨h1, by omega⟩
        · rintro ⟨h1, h2⟩
          exact ⟨h1, by omega⟩
      simp only [hx, if_false, this]

/-- The loop of lines 191-196 computes the running maximum with its first index. -/
theorem maxLoop {β : Type} [LinearOrder β] (f : Nat → β) (n : Nat) :
    forLoop (fun j (m : β × Nat) => if m.1 < f j then (f j, j) else m) 1 n (f 0, 0)
      = PhyloHmm.maxScan f n := by
  induction n with
  | zero => simp [forLoop, PhyloHmm.maxScan]
  | succ n ih =>
    rw [forLoop_succ, ih]
    have e : 1 + n = n + 1 := by omega
    rw [e]
    simp only [PhyloHmm.maxScan]

namespace PhyloHmm

variable {α : Type} [LinearOrderedField α]

/-- The cells of the scratch buffer after lines 189-204. -/
theorem emExpRow_cells (expf : α → α) (ncat work : Nat) (w1 : Nat → α) (hc : 1 ≤ ncat) :
    (∀ j, j < ncat →
      emExpRow expf ncat work w1 (work + j)
        = if j = (maxScan (fun j => w1 (work + j)) (ncat - 1)).2 then 1
          else expf (w1 (work + j) - (maxScan (fun j => w1 (work + j)) (ncat - 1)).1))
    ∧ ∀ x, ¬ (work ≤ x ∧ x < work + ncat) → emExpRow expf ncat work w1 x = w1 x := by
  have ha := maxScan_arg_le (fun j => w1 (work + j)) (ncat - 1)
  simp only [emExpRow, maxLoop (fun j => w1 (work + j)), expLoop]
  generalize (maxScan (fun j => w1 (work + j)) (ncat - 1)) = mx at *
  constructor
  · intro j hj
    simp only [Function.update_apply]
    by_cases h1 : j = mx.2
    · subst h1
      have c1 : ¬ (work + (mx.2 + 1) ≤ work + mx.2
          ∧ work + mx.2 < work + (mx.2 + 1) + (ncat - (mx.2 + 1))) := by omega
      simp only [c1, if_false, if_true]
    · rcases Nat.lt_or_ge j mx.2 with h2 | h2
      · have c1 : ¬ (work + (mx.2 + 1) ≤ work + j
            ∧ work + j < work + (mx.2 + 1) + (ncat - (mx.2 + 1))) := by omega
        have c2 : ¬ (work + j = work + mx.2) := by omega
        have c3 : work + 0 ≤ work + j ∧ work + j < work + 0 + mx.2 := ⟨by omega, by omega⟩
        simp only [c1, c2, c3, h1, if_false, if_true, and_self]
      · have c1 : work + (mx.2 + 1) ≤ work + j
            ∧ work + j < work + (mx.2 + 1) + (ncat - (mx.2 + 1)) := ⟨by omega, by omega⟩
        have c2 : ¬ (work + j = work + mx.2) := by omega
        have c3 : ¬ (work + 0 ≤ work + j ∧ work + j < work + 0 + mx.2) := by omega
        simp only [c1, c2, c3, h1, if_false, if_true, and_self]
  · intro x hx
    have c1 : ¬ (work + (mx.2 + 1) ≤ x ∧ x < work + (mx.2 + 1) + (ncat - (mx.2 + 1))) := by
      omega
    have c2 : ¬ (x = work + mx.2) := by omega
    have c3 : ¬ (work + 0 ≤ x ∧ x < work + 0 + mx.2) := by omega
    simp only [Function.update_apply, c1, c2, c3, if_false]

end PhyloHmm

namespace PhyloHmm

variable {α : Type} [LinearOrderedField α]

/-- What `optimizeProbEM` returns and stores, in terms of the row recurrence `accRow` and the
weights `emWeight`. -/
theorem optimizeProbEM_spec (ldp : (Nat → α) → (Nat → α) → Nat → α) (hldp : LdpLocal ldp)
    (expf logf : α → α) (h : PhyloHmm α) (hc : 1 ≤ h.ncat) :
    (optimizeProbEM ldp expf logf h).2.nsite = h.nsite
    ∧ (optimizeProbEM ldp expf logf h).2.ncat = h.ncat
    ∧ (optimizeProbEM ldp expf logf h).2.site_like_cat = h.site_like_cat
    ∧ (optimizeProbEM ldp expf logf h).2.transitLog = h.transitLog
    ∧ (∀ j, j < h.ncat →
        (optimizeProbEM ldp expf logf h).2.prob j
          = emWeight ldp expf h j * (1 / ∑ k ∈ Finset.range h.ncat, emWeight ldp expf h k))
    ∧ (∀ j, j < h.ncat →
        (optimizeProbEM ldp expf logf h).2.prob_log j
          = logf ((optimizeProbEM ldp expf logf h).2.prob j))
    ∧ (optimizeProbEM ldp expf logf h).1
        = ldp (optimizeProbEM ldp expf logf h).2.prob_log (accRow ldp h (h.nsite - 1))
            h.ncat := by
  have inv := backLikeLoop_inv _ isToggle_xor ldp hldp h (h.nsite - 1)
  obtain ⟨hk1, hk2⟩ := isToggle_xor _ inv.pre_k_lt
  simp only at hk1 hk2
  simp only [optimizeProbEM, computeLogProb, fillLoop, sumLoop]
  generalize backLikeLoop (fun pre_k => pre_k ^^^ 1) ldp h (h.nsite - 1) = s at inv hk1 hk2 ⊢
  have hd : ∀ l j, l < h.ncat → j < h.ncat →
      s.pre_work + l ≠ (s.pre_k ^^^ 1) * h.ncat + j := by
    intro l j hl hj
    rw [inv.pre_work_eq]
    exact rows_disjoint (Ne.symm hk2) hl hj
  have hw1 : emScoreRow h ((s.pre_k ^^^ 1) * h.ncat) s.pre_work s.work_arr
      = fun x => if (s.pre_k ^^^ 1) * h.ncat ≤ x ∧ x < (s.pre_k ^^^ 1) * h.ncat + h.ncat then
          h.prob_log (x - (s.pre_k ^^^ 1) * h.ncat)
            + s.work_arr (s.pre_work + (x - (s.pre_k ^^^ 1) * h.ncat))
        else s.work_arr x :=
    scoreLoop ((s.pre_k ^^^ 1) * h.ncat) s.pre_work h.ncat h.prob_log s.work_arr hd
  have hW1a : ∀ j, j < h.ncat →
      emScoreRow h ((s.pre_k ^^^ 1) * h.ncat) s.pre_work s.work_arr
        ((s.pre_k ^^^ 1) * h.ncat + j) = emScore ldp h j := by
    intro j hj
    have c : (s.pre_k ^^^ 1) * h.ncat ≤ (s.pre_k ^^^ 1) * h.ncat + j
        ∧ (s.pre_k ^^^ 1) * h.ncat + j < (s.pre_k ^^^ 1) * h.ncat + h.ncat :=
      ⟨by omega, by omega⟩
    rw [hw1]
    simp only [c, and_self, if_true, Nat.add_sub_cancel_left, emScore, inv.row_eq j hj]
  have hW1b : ∀ l, l < h.ncat →
      emScoreRow h ((s.pre_k ^^^ 1) * h.ncat) s.pre_work s.work_arr (s.pre_work + l)
        = accRow ldp h (h.nsite - 1) l := by
    intro l hl
    have c : ¬ ((s.pre_k ^^^ 1) * h.ncat ≤ s.pre_work + l
        ∧ s.pre_work + l < (s.pre_k ^^^ 1) * h.ncat + h.ncat) := by
      rintro ⟨h1, h2⟩
      exact hd l (s.pre_work + l - (s.pre_k ^^^ 1) * h.ncat) hl (by omega) (by omega)
    rw [hw1]
    simp only [c, if_false, inv.row_eq l hl]
  obtain ⟨hW4a, hW4b⟩ := emExpRow_cells expf h.ncat ((s.pre_k ^^^ 1) * h.ncat)
    (emScoreRow h ((s.pre_k ^^^ 1) * h.ncat) s.pre_work s.work_arr) hc
  have hmx : maxScan (fun j => emScoreRow h ((s.pre_k ^^^ 1) * h.ncat) s.pre_work s.work_arr
      ((s.pre_k ^^^ 1) * h.ncat + j)) (h.ncat - 1) = maxScan (emScore ldp h) (h.ncat - 1) :=
    maxScan_congr _ _ _ (fun l hl => hW1a l (by omega))
  have hcell : ∀ j, j < h.ncat →
      emExpRow expf h.ncat ((s.pre_k ^^^ 1) * h.ncat)
        (emScoreRow h ((s.pre_k ^^^ 1) * h.ncat) s.pre_work s.work_arr)
        ((s.pre_k ^^^ 1) * h.ncat + j) = emWeight ldp expf h j := by
    intro j hj
    rw [hW4a j hj, hmx, hW1a j hj]
    rfl
  have hpre : ∀ l, l < h.ncat →
      emExpRow expf h.ncat ((s.pre_k ^^^ 1) * h.ncat)
        (emScoreRow h ((s.pre_k ^^^ 1) * h.ncat) s.pre_work s.work_arr) (s.pre_work + l)
        = accRow ldp h (h.nsite - 1) l := by
    intro l hl
    rw [hW4b, hW1b l hl]
    rintro ⟨h1, h2⟩
    exact hd l (s.pre_work + l - (s.pre_k ^^^ 1) * h.ncat) hl (by omega) (by omega)
  refine ⟨trivial, trivial, trivial, trivial, ?_, ?_, ?_⟩
  · intro j hj
    simp only [hj, if_true, hcell j hj]
    congr 2
    exact Finset.sum_congr rfl (fun k hk => hcell k (Finset.mem_range.mp hk))
  · intro j hj
    simp only [hj, if_true]
  · apply hldp
    · intro l _
      rfl
    · intro l hl
      exact hpre l hl

end PhyloHmm

/-! ## optimizeProbEM over the reals -/

/-- For weights `p ≥ 0` of total 1, the square of the mean is at most the mean of the
squares. -/
theorem sq_mean_le_mean_sq (n : Nat) (p x : Nat → ℝ) (hp : ∀ j, j < n → 0 ≤ p j)
    (hsum : ∑ j ∈ Finset.range n, p j = 1) :
    (∑ j ∈ Finset.range n, p j * x j) ^ 2 ≤ ∑ j ∈ Finset.range n, p j * x j ^ 2 := by
  have e : ∀ Z : ℝ, ∑ j ∈ Finset.range n, p j * (x j - Z) ^ 2
      = ∑ j ∈ Finset.range n, p j * x j ^ 2 - 2 * Z * ∑ j ∈ Finset.range n, p j * x j
        + Z ^ 2 * ∑ j ∈ Finset.range n, p j := by
    intro Z
    rw [Finset.mul_sum, Finset.mul_sum, ← Finset.sum_sub_distrib, ← Finset.sum_add_distrib]
    apply Finset.sum_congr rfl
    intro j _
    ring
  have h0 : 0 ≤ ∑ j ∈ Finset.range n, p j * (x j - ∑ k ∈ Finset.range n, p k * x k) ^ 2 :=
    Finset.sum_nonneg (fun j hj => mul_nonneg (hp j (Finset.mem_range.mp hj)) (sq_nonneg _))
  rw [e, hsum] at h0
  nlinarith [h0]

namespace PhyloHmm

/-- The recurrence rows depend only on the table, the transition array and `ncat`. -/
theorem accRow_congr {α : Type} [Add α] (ldp : (Nat → α) → (Nat → α) → Nat → α)
    (h h' : PhyloHmm α) (hn : h'.ncat = h.ncat) (hS : h'.site_like_cat = h.site_like_cat)
    (hT : h'.transitLog = h.transitLog) (i j : Nat) :
    accRow ldp h' i j = accRow ldp h i j := by
  induction i generalizing j with
  | zero => simp [accRow, hS]
  | succ i ih =>
    have e : accRow ldp h' i = accRow ldp h i := funext ih
    simp only [accRow, hn, hS, hT, e]

/-- Over the reals the weight is `exp (emScore j - max)` at every index. -/
theorem emWeight_real (h : PhyloHmm ℝ) (j : Nat) :
    emWeight logDotProd Real.exp h j
      = Real.exp (emScore logDotProd h j)
        * Real.exp (-(maxScan (emScore logDotProd h) (h.ncat - 1)).1) := by
  rw [← Real.exp_add, ← sub_eq_add_neg]
  unfold emWeight
  split
  · rename_i hj
    rw [maxScan_eq_arg, ← hj, sub_self, Real.exp_zero]
  · rfl

/-- Over the reals the new prior is the softmax of `emScore`. -/
theorem em_prob_real (h : PhyloHmm ℝ) (hc : 1 ≤ h.ncat) (j : Nat) (hj : j < h.ncat) :
    (optimizeProbEM logDotProd Real.exp Real.log h).2.prob j
      = Real.exp (emScore logDotProd h j)
        / ∑ k ∈ Finset.range h.ncat, Real.exp (emScore logDotProd h k) := by
  obtain ⟨_, _, _, _, hp, _, _⟩ :=
    optimizeProbEM_spec logDotProd logDotProd_local Real.exp Real.log h hc
  have hsum : ∑ k ∈ Finset.range h.ncat, emWeight logDotProd Real.exp h k
      = (∑ k ∈ Finset.range h.ncat, Real.exp (emScore logDotProd h k))
        * Real.exp (-(maxScan (emScore logDotProd h) (h.ncat - 1)).1) := by
    rw [Finset.sum_mul]
    exact Finset.sum_congr rfl (fun k _ => emWeight_real h k)
  have hZ : (∑ k ∈ Finset.range h.ncat, Real.exp (emScore logDotProd h k)) ≠ 0 :=
    ne_of_gt (Finset.sum_pos (fun _ _ => Real.exp_pos _) ⟨0, Finset.mem_range.mpr hc⟩)
  have hM : Real.exp (-(maxScan (emScore logDotProd h) (h.ncat - 1)).1) ≠ 0 :=
    ne_of_gt (Real.exp_pos _)
  rw [hp j hj, hsum, emWeight_real]
  generalize Real.exp (-(maxScan (emScore logDotProd h) (h.ncat - 1)).1) = m at hM ⊢
  generalize (∑ k ∈ Finset.range h.ncat, Real.exp (emScore logDotProd h k)) = Z at hZ ⊢
  field_simp
  ring

theorem sum_exp_emScore_pos (h : PhyloHmm ℝ) (hc : 1 ≤ h.ncat) :
    0 < ∑ k ∈ Finset.range h.ncat, Real.exp (emScore logDotProd h k) :=
  Finset.sum_pos (fun _ _ => Real.exp_pos _) ⟨0, Finset.mem_range.mpr hc⟩

theorem em_prob_pos (h : PhyloHmm ℝ) (hc : 1 ≤ h.ncat) (j : Nat) (hj : j < h.ncat) :
    0 < (optimizeProbEM logDotProd Real.exp Real.log h).2.prob j := by
  rw [em_prob_real h hc j hj]
  exact div_pos (Real.exp_pos _) (sum_exp_emScore_pos h hc)

theorem em_prob_sum (h : PhyloHmm ℝ) (hc : 1 ≤ h.ncat) :
    ∑ c ∈ Finset.range h.ncat, (optimizeProbEM logDotProd Real.exp Real.log h).2.prob c
      = 1 := by
  rw [Finset.sum_congr rfl (fun c hc' => em_prob_real h hc c (Finset.mem_range.mp hc')),
    ← Finset.sum_div]
  exact div_self (ne_of_gt (sum_exp_emScore_pos h hc))

/-- The state after `optimizeProbEM` has a strictly positive, normalised prior with its
logarithms in `prob_log`. -/
theorem em_priorOk (h : PhyloHmm ℝ) (hc : 1 ≤ h.ncat) :
    PriorOk (optimizeProbEM logDotProd Real.exp Real.log h).2 := by
  obtain ⟨_, hn, _, _, _, hl, _⟩ :=
    optimizeProbEM_spec logDotProd logDotProd_local Real.exp Real.log h hc
  refine ⟨?_, ?_, ?_⟩
  · intro c hc'
    rw [hn] at hc'
    exact em_prob_pos h hc c hc'
  · rw [hn]
    exact em_prob_sum h hc
  · intro c hc'
    rw [hn] at hc'
    exact hl c hc'

/-- The value `optimizeProbEM` returns is the forward value of the state it leaves. -/
theorem em_value_eq_backLike_after (h : PhyloHmm ℝ) (hc : 1 ≤ h.ncat) :
    (optimizeProbEM logDotProd Real.exp Real.log h).1
      = (computeBackLike logDotProd (optimizeProbEM logDotProd Real.exp Real.log h).2).1 := by
  obtain ⟨hs, hn, hS, hT, _, _, hv⟩ :=
    optimizeProbEM_spec logDotProd logDotProd_local Real.exp Real.log h hc
  rw [computeBackLike_rows logDotProd logDotProd_local, backLikeRows, hv, hn, hs]
  congr 1
  funext j
  exact (accRow_congr logDotProd h _ hn hS hT _ j).symm

/-- With a positive prior and its logarithms, the forward value is the log of the
prior-weighted sum of the exponentials of the last accumulator row. -/
theorem backLike_of_priorOk (h : PhyloHmm ℝ) (hp : PriorOk h) :
    (computeBackLike logDotProd h).1
      = Real.log (∑ j ∈ Finset.range h.ncat,
          h.prob j * Real.exp (accRow logDotProd h (h.nsite - 1) j)) := by
  rw [computeBackLike_rows logDotProd logDotProd_local, backLikeRows, logDotProd]
  congr 1
  apply Finset.sum_congr rfl
  intro j hj
  have hj' := Finset.mem_range.mp hj
  rw [Real.exp_add, hp.2.2 j hj', Real.exp_log (hp.1 j hj')]

end PhyloHmm

namespace PhyloHmm

theorem priorOk_ncat_pos (h : PhyloHmm ℝ) (hp : PriorOk h) : 1 ≤ h.ncat := by
  rcases Nat.eq_zero_or_pos h.ncat with h0 | h0
  · have := hp.2.1
    rw [h0, Finset.sum_range_zero] at this
    exact absurd this (by norm_num)
  · exact h0

/-- One call of `optimizeProbEM` does not decrease the forward value. -/
theorem em_step_monotone (h : PhyloHmm ℝ) (hp : PriorOk h) :
    (computeBackLike logDotProd h).1
      ≤ (computeBackLike logDotProd (optimizeProbEM logDotProd Real.exp Real.log h).2).1 := by
  have hc := priorOk_ncat_pos h hp
  obtain ⟨hs, hn, hS, hT, _, _, _⟩ :=
    optimizeProbEM_spec logDotProd logDotProd_local Real.exp Real.log h hc
  have hx : ∀ j, j < h.ncat →
      Real.exp (emScore logDotProd h j)
        = h.prob j * Real.exp (accRow logDotProd h (h.nsite - 1) j) := by
    intro j hj
    rw [emScore, Real.exp_add, hp.2.2 j hj, Real.exp_log (hp.1 j hj)]
  have hZ : ∑ k ∈ Finset.range h.ncat, Real.exp (emScore logDotProd h k)
      = ∑ k ∈ Finset.range h.ncat,
          h.prob k * Real.exp (accRow logDotProd h (h.nsite - 1) k) :=
    Finset.sum_congr rfl (fun k hk => hx k (Finset.mem_range.mp hk))
  have hZpos : 0 < ∑ k ∈ Finset.range h.ncat,
      h.prob k * Real.exp (accRow logDotProd h (h.nsite - 1) k) := by
    rw [← hZ]
    exact sum_exp_emScore_pos h hc
  rw [backLike_of_priorOk h hp, backLike_of_priorOk _ (em_priorOk h hc), hn, hs]
  have hnew : ∑ j ∈ Finset.range h.ncat,
      (optimizeProbEM logDotProd Real.exp Real.log h).2.prob j
        * Real.exp (accRow logDotProd (optimizeProbEM logDotProd Real.exp Real.log h).2
            (h.nsite - 1) j)
      = (∑ j ∈ Finset.range h.ncat,
          h.prob j * Real.exp (accRow logDotProd h (h.nsite - 1) j) ^ 2)
        / ∑ k ∈ Finset.range h.ncat,
            h.prob k * Real.exp (accRow logDotProd h (h.nsite - 1) k) := by
    rw [Finset.sum_div]
    apply Finset.sum_congr rfl
    intro j hj
    have hj' := Finset.mem_range.mp hj
    rw [em_prob_real h hc j hj', hZ, hx j hj', accRow_congr logDotProd h _ hn hS hT]
    ring
  rw [hnew]
  apply Real.log_le_log hZpos
  rw [le_div_iff₀ hZpos, ← sq]
  exact sq_mean_le_mean_sq h.ncat h.prob _ (fun j hj => le_of_lt (hp.1 j hj)) hp.2.1

theorem priorOk_iterate (h : PhyloHmm ℝ) (hp : PriorOk h) (n : Nat) :
    PriorOk ((fun g => (optimizeProbEM logDotProd Real.exp Real.log g).2)^[n] h) := by
  induction n with
  | zero => exact hp
  | succ n ih =>
    rw [Function.iterate_succ_apply']
    exact em_priorOk _ (priorOk_ncat_pos _ ih)

/-! ## optimizeProbEM: claims -/

/-- C6: if `prob` is strictly positive, sums to 1 and `prob_log = ln prob`, then the forward
log-likelihood `computeBackLike` after one call of `optimizeProbEM` is at least the one
before the call (over the reals; the call leaves the table and the transition array
unchanged), and along any sequence of consecutive calls the forward log-likelihood is
non-decreasing. -/
theorem em_monotone (h : PhyloHmm ℝ) (hpos : ∀ c, c < h.ncat → 0 < h.prob c)
    (hsum : ∑ c ∈ Finset.range h.ncat, h.prob c = 1)
    (hlog : ∀ c, c < h.ncat → h.prob_log c = Real.log (h.prob c)) :
    (computeBackLike logDotProd h).1
      ≤ (computeBackLike logDotProd (optimizeProbEM logDotProd Real.exp Real.log h).2).1
    ∧ (optimizeProbEM logDotProd Real.exp Real.log h).2.site_like_cat = h.site_like_cat
    ∧ (optimizeProbEM logDotProd Real.exp Real.log h).2.transitLog = h.transitLog
    ∧ ∀ n : Nat,
      (computeBackLike logDotProd
          ((fun g => (optimizeProbEM logDotProd Real.exp Real.log g).2)^[n] h)).1
        ≤ (computeBackLike logDotProd
          ((fun g => (optimizeProbEM logDotProd Real.exp Real.log g).2)^[n + 1] h)).1 := by
  have hp : PriorOk h := ⟨hpos, hsum, hlog⟩
  obtain ⟨_, _, hS, hT, _, _, _⟩ :=
    optimizeProbEM_spec logDotProd logDotProd_local Real.exp Real.log h (priorOk_ncat_pos h hp)
  refine ⟨em_step_monotone h hp, hS, hT, ?_⟩
  intro n
  rw [Function.iterate_succ_apply']
  exact em_step_monotone _ (priorOk_iterate h hp n)

theorem exEM_priorOk : PriorOk exEM := by
  refine ⟨?_, ?_, ?_⟩
  · intro c _
    simp [exEM]
  · simp [exEM, Finset.sum_range_succ]
  · intro c _
    simp [exEM]

/-- Instance of C6 at `exEM`. -/
theorem em_monotone_witness :
    (∀ c, c < exEM.ncat → 0 < exEM.prob c)
    ∧ ∑ c ∈ Finset.range exEM.ncat, exEM.prob c = 1
    ∧ (∀ c, c < exEM.ncat → exEM.prob_log c = Real.log (exEM.prob c))
    ∧ (computeBackLike logDotProd exEM).1
      ≤ (computeBackLike logDotProd (optimizeProbEM logDotProd Real.exp Real.log exEM).2).1
    ∧ (optimizeProbEM logDotProd Real.exp Real.log exEM).2.site_like_cat = exEM.site_like_cat
    ∧ (optimizeProbEM logDotProd Real.exp Real.log exEM).2.transitLog = exEM.transitLog
    ∧ ∀ n : Nat,
      (computeBackLike logDotProd
          ((fun g => (optimizeProbEM logDotProd Real.exp Real.log g).2)^[n] exEM)).1
        ≤ (computeBackLike logDotProd
          ((fun g => (optimizeProbEM logDotProd Real.exp Real.log g).2)^[n + 1] exEM)).1 :=
  ⟨exEM_priorOk.1, exEM_priorOk.2.1, exEM_priorOk.2.2,
    em_monotone exEM exEM_priorOk.1 exEM_priorOk.2.1 exEM_priorOk.2.2⟩

end PhyloHmm

namespace PhyloHmm

/-- C7: after construction with `nsite ≥ 1`, `ncat ≥ 1`, and after a call of `optimizeProbEM`
from any state with `nsite ≥ 1`, `ncat ≥ 1` (the call keeps `nsite` and `ncat`, so this covers
every later call), the entries of `prob` sum to exactly 1 over the reals and
`prob_log[c] = ln (prob[c])` for every category `c < ncat`. -/
theorem prob_normalised (n_site n_cat : Nat) (fresh h : PhyloHmm ℝ) (_hs0 : 1 ≤ n_site)
    (hc0 : 1 ≤ n_cat) (_hs : 1 ≤ h.nsite) (hc : 1 ≤ h.ncat) :
    ((create Real.log n_site n_cat fresh).nsite = n_site
      ∧ (create Real.log n_site n_cat fresh).ncat = n_cat
      ∧ ∑ c ∈ Finset.range n_cat, (create Real.log n_site n_cat fresh).prob c = 1
      ∧ ∀ c, c < n_cat →
        (create Real.log n_site n_cat fresh).prob_log c
          = Real.log ((create Real.log n_site n_cat fresh).prob c))
    ∧ ((optimizeProbEM logDotProd Real.exp Real.log h).2.nsite = h.nsite
      ∧ (optimizeProbEM logDotProd Real.exp Real.log h).2.ncat = h.ncat
      ∧ ∑ c ∈ Finset.range h.ncat, (optimizeProbEM logDotProd Real.exp Real.log h).2.prob c = 1
      ∧ ∀ c, c < h.ncat →
        (optimizeProbEM logDotProd Real.exp Real.log h).2.prob_log c
          = Real.log ((optimizeProbEM logDotProd Real.exp Real.log h).2.prob c)) := by
  constructor
  · refine ⟨rfl, rfl, ?_, ?_⟩
    · simp only [create, computeLogProb, fillLoop]
      rw [Finset.sum_congr rfl (g := fun _ => (1 : ℝ) / (n_cat : ℝ))
        (fun c hc' => by simp only [Finset.mem_range.mp hc', if_true])]
      rw [Finset.sum_const, Finset.card_range, nsmul_eq_mul]
      have : (n_cat : ℝ) ≠ 0 := by
        have : (0 : ℝ) < (n_cat : ℝ) := by exact_mod_cast hc0
        exact ne_of_gt this
      field_simp
    · intro c hc'
      simp only [create, computeLogProb, fillLoop, hc', if_true]
  · obtain ⟨h1, h2, _, _, _, hl, _⟩ :=
      optimizeProbEM_spec logDotProd logDotProd_local Real.exp Real.log h hc
    exact ⟨h1, h2, em_prob_sum h hc, hl⟩

/-- Instance of C7 at the construction with 1 site and 2 categories and at `exEM`. -/
theorem prob_normalised_witness :
    (1 ≤ 1 ∧ 1 ≤ 2 ∧ 1 ≤ exEM.nsite ∧ 1 ≤ exEM.ncat)
    ∧ ((create Real.log 1 2 exEM).nsite = 1
      ∧ (create Real.log 1 2 exEM).ncat = 2
      ∧ ∑ c ∈ Finset.range 2, (create Real.log 1 2 exEM).prob c = 1
      ∧ ∀ c, c < 2 →
        (create Real.log 1 2 exEM).prob_log c = Real.log ((create Real.log 1 2 exEM).prob c))
    ∧ ((optimizeProbEM logDotProd Real.exp Real.log exEM).2.nsite = exEM.nsite
      ∧ (optimizeProbEM logDotProd Real.exp Real.log exEM).2.ncat = exEM.ncat
      ∧ ∑ c ∈ Finset.range exEM.ncat,
          (optimizeProbEM logDotProd Real.exp Real.log exEM).2.prob c = 1
      ∧ ∀ c, c < exEM.ncat →
        (optimizeProbEM logDotProd Real.exp Real.log exEM).2.prob_log c
          = Real.log ((optimizeProbEM logDotProd Real.exp Real.log exEM).2.prob c)) :=
  ⟨⟨le_refl 1, by decide, le_refl 1, by decide⟩,
    prob_normalised 1 2 exEM exEM (le_refl 1) (by decide) (le_refl 1) (by decide)⟩

/-- C8 as stated fails: on `exEM` (uniform prior `[1/2, 1/2]`, one row `[0, ln 3]`) the
forward value before the call is `ln 2`, the prior after the call is `[1/4, 3/4]`, and
`optimizeProbEM` returns `ln (5/2)`. -/
theorem em_returns_previous_fails :
    1 ≤ exEM.nsite ∧ 1 ≤ exEM.ncat
    ∧ (computeBackLike logDotProd exEM).1 = Real.log 2
    ∧ (optimizeProbEM logDotProd Real.exp Real.log exEM).1 = Real.log (5 / 2)
    ∧ (optimizeProbEM logDotProd Real.exp Real.log exEM).1
        ≠ (computeBackLike logDotProd exEM).1 := by
  have hc : 1 ≤ exEM.ncat := by decide
  have h3 : Real.exp (Real.log 3) = 3 := Real.exp_log (by norm_num)
  have hh : Real.exp (Real.log (1 / 2)) = 1 / 2 := Real.exp_log (by norm_num)
  have hB : (computeBackLike logDotProd exEM).1 = Real.log 2 := by
    rw [backLike_of_priorOk exEM exEM_priorOk]
    congr 1
    simp only [exEM, Finset.sum_range_succ, Finset.sum_range_zero, accRow]
    norm_num [h3]
  have e0 : Real.exp (emScore logDotProd exEM 0) = 1 / 2 := by
    simp only [emScore, exEM, accRow]
    norm_num [hh]
  have e1 : Real.exp (emScore logDotProd exEM 1) = 3 / 2 := by
    simp only [emScore, exEM, accRow, Real.exp_add]
    norm_num [hh, h3]
  have hZ : ∑ k ∈ Finset.range exEM.ncat, Real.exp (emScore logDotProd exEM k) = 2 := by
    have : exEM.ncat = 2 := rfl
    rw [this, Finset.sum_range_succ, Finset.sum_range_succ, Finset.sum_range_zero, e0, e1]
    norm_num
  have p0 : (optimizeProbEM logDotProd Real.exp Real.log exEM).2.prob 0 = 1 / 4 := by
    rw [em_prob_real exEM hc 0 (by decide), hZ, e0]
    norm_num
  have p1 : (optimizeProbEM logDotProd Real.exp Real.log exEM).2.prob 1 = 3 / 4 := by
    rw [em_prob_real exEM hc 1 (by decide), hZ, e1]
    norm_num
  obtain ⟨_, _, _, _, _, hl, hv⟩ :=
    optimizeProbEM_spec logDotProd logDotProd_local Real.exp Real.log exEM hc
  have hE : (optimizeProbEM logDotProd Real.exp Real.log exEM).1 = Real.log (5 / 2) := by
    have hn : exEM.ncat = 2 := rfl
    rw [hv, logDotProd, hn, Finset.sum_range_succ, Finset.sum_range_succ,
      Finset.sum_range_zero, hl 0 (by decide), hl 1 (by decide), p0, p1, Real.exp_add,
      Real.exp_add, Real.exp_log (by norm_num), Real.exp_log (by norm_num)]
    congr 1
    simp only [exEM, accRow]
    norm_num [h3]
  refine ⟨by decide, hc, hB, hE, ?_⟩
  rw [hB, hE]
  intro e
  have := Real.log_injOn_pos (Set.mem_Ioi.mpr (by norm_num)) (Set.mem_Ioi.mpr (by norm_num)) e
  norm_num at this

/-- C8 amended: for `nsite ≥ 1` and `ncat ≥ 1` the value returned by `optimizeProbEM` is the
forward log-likelihood under the new prior: the value `computeBackLike` returns on the state
just after the call (the `prob_log` written by the call). -/
theorem em_returns_forward_of_new_prior (h : PhyloHmm ℝ) (_hs : 1 ≤ h.nsite)
    (hc : 1 ≤ h.ncat) :
    (optimizeProbEM logDotProd Real.exp Real.log h).1
      = (computeBackLike logDotProd (optimizeProbEM logDotProd Real.exp Real.log h).2).1 :=
  em_value_eq_backLike_after h hc

/-- Instance of the amended C8 at `exEM`. -/
theorem em_returns_forward_of_new_prior_witness :
    1 ≤ exEM.nsite ∧ 1 ≤ exEM.ncat
    ∧ (optimizeProbEM logDotProd Real.exp Real.log exEM).1
      = (computeBackLike logDotProd (optimizeProbEM logDotProd Real.exp Real.log exEM).2).1 :=
  ⟨by decide, by decide, em_returns_forward_of_new_prior exEM (by decide) (by decide)⟩

end PhyloHmm

namespace PhyloHmm

/-! ## Degenerate inputs -/

end PhyloHmm

namespace PhyloHmm

variable {α : Type}

section Uniform

variable [LinearOrderedAddCommGroup α]

end Uniform

end PhyloHmm

namespace PhyloHmm

variable {α : Type}

/-! ## computeMaxPath: tie-breaking and the order of the decoded sequence -/

section FirstArgmax

variable [LinearOrder α]

theorem maxScan_lt_before (f : Nat → α) (n x : Nat) (hx : x < (maxScan f n).2) :
    f x < (maxScan f n).1 := by
  induction n with
  | zero => simp [maxScan] at hx
  | succ n ih =>
    rw [maxScan] at hx ⊢
    split
    · rename_i hlt
      rw [if_pos hlt] at hx
      exact lt_of_le_of_lt (maxScan_ge f n x (by simp only at hx; omega)) hlt
    · rename_i hlt
      rw [if_neg hlt] at hx
      exact ih hx

/-- The running maximum over `0..n` ends at the smallest index of the largest value. -/
theorem maxScan_isFirstArgmax (f : Nat → α) (n : Nat) :
    IsFirstArgmax f (n + 1) (maxScan f n).2 := by
  refine ⟨Nat.lt_succ_of_le (maxScan_arg_le f n), ?_, ?_⟩
  · intro x hx
    rw [← maxScan_eq_arg f n]
    exact maxScan_ge f n x (Nat.le_of_lt_succ hx)
  · intro x hx
    rw [← maxScan_eq_arg f n]
    exact maxScan_lt_before f n x hx

theorem isFirstArgmax_congr (f g : Nat → α) (n l : Nat) (hfg : ∀ x, x < n → f x = g x)
    (hf : IsFirstArgmax f n l) : IsFirstArgmax g n l := by
  obtain ⟨h1, h2, h3⟩ := hf
  refine ⟨h1, ?_, ?_⟩
  · intro x hx
    rw [← hfg x hx, ← hfg l h1]
    exact h2 x hx
  · intro x hx
    rw [← hfg x (by omega), ← hfg l h1]
    exact h3 x hx

end FirstArgmax

section Order

variable [LinearOrder α] [Add α]

/-- The accumulator cells of `computeMaxPath` are the rows of the max recurrence. -/
theorem maxPathAcc_eq_vitRow (h : PhyloHmm α) (i j : Nat) (hi : i ≤ h.nsite - 1)
    (hj : j < h.ncat) : maxPathAcc h i j = vitRow h i j :=
  (maxPathLoop_inv h i hi).row_eq j hj

/-- The backpointer table after `computeMaxPath`. -/
theorem computeMaxPath_next_cat (h : PhyloHmm α) (i j : Nat) (hi : i + 1 ≤ h.nsite - 1)
    (hj : j < h.ncat) :
    (computeMaxPath h).2.next_cat ((h.nsite - (i + 1) - 1) * h.ncat + j) = vitArg h i j :=
  (maxPathLoop_inv h (h.nsite - 1) le_rfl).arg_eq i j hi hj

theorem vitArg_isFirstArgmax (h : PhyloHmm α) (i j : Nat) (hc : 1 ≤ h.ncat) :
    IsFirstArgmax (fun l => h.transitLog (j * h.ncat + l) + vitRow h i l) h.ncat
      (vitArg h i j) := by
  have := maxScan_isFirstArgmax (fun l => h.transitLog (j * h.ncat + l) + vitRow h i l)
    (h.ncat - 1)
  rw [Nat.sub_add_cancel hc] at this
  exact this

theorem vitStart_isFirstArgmax (h : PhyloHmm α) (hc : 1 ≤ h.ncat) :
    IsFirstArgmax (fun j => h.prob_log j + vitRow h (h.nsite - 1) j) h.ncat
      (vitStart h).2 := by
  have := maxScan_isFirstArgmax (fun j => h.prob_log j + vitRow h (h.nsite - 1) j)
    (h.ncat - 1)
  rw [Nat.sub_add_cancel hc] at this
  exact this

/-- C11: in `computeMaxPath`, for every site step `1 ≤ i < nsite` and destination category
`j < ncat`, the backpointer stored for `(i, j)` (cell `j` of row `nsite - i - 1` of
`next_cat`) is the smallest index `l` that maximises `transit[j*ncat + l] + prevAcc[l]`; the
terminal category chosen after the pass (written to `site_categories[0]`) is the smallest
index `j` that maximises `prob_log[j] + finalAcc[j]`; and in both loops a later index leaves
the running maximum and its index unchanged unless its score is strictly greater. -/
theorem computeMaxPath_first_index (h : PhyloHmm α) (hs : 1 ≤ h.nsite) (hc : 1 ≤ h.ncat) :
    (∀ i j, 1 ≤ i → i < h.nsite → j < h.ncat →
      IsFirstArgmax (fun l => h.transitLog (j * h.ncat + l) + maxPathAcc h (i - 1) l) h.ncat
        ((computeMaxPath h).2.next_cat ((h.nsite - i - 1) * h.ncat + j)))
    ∧ IsFirstArgmax (fun j => h.prob_log j + maxPathAcc h (h.nsite - 1) j) h.ncat
        ((computeMaxPath h).2.site_categories 0)
    ∧ (∀ (j l : Nat) (s : Locals α),
        ¬ (s.work_arr (s.work + j)
            < h.transitLog (s.transit_arr + l) + s.work_arr (s.pre_work + l)) →
        maxPathL h j l s = s)
    ∧ ∀ (s : Locals α) (j : Nat) (m : α × Nat),
        ¬ (m.1 < h.prob_log j + s.work_arr (s.pre_work + j)) → maxPathStart h s j m = m := by
  refine ⟨?_, ?_, ?_, ?_⟩
  · intro i j hi hi' hj
    obtain ⟨i', rfl⟩ : ∃ i', i = i' + 1 := ⟨i - 1, by omega⟩
    rw [computeMaxPath_next_cat h i' j (by omega) hj, Nat.add_sub_cancel]
    apply isFirstArgmax_congr _ _ _ _ _ (vitArg_isFirstArgmax h i' j hc)
    intro x hx
    rw [maxPathAcc_eq_vitRow h i' x (by omega) hx]
  · rw [(computeMaxPath_rows h hc).2.2 0 (Nat.zero_le _), vitPath]
    apply isFirstArgmax_congr _ _ _ _ _ (vitStart_isFirstArgmax h hc)
    intro x hx
    rw [maxPathAcc_eq_vitRow h _ x le_rfl hx]
  · intro j l s hn
    simp only [maxPathL, hn, if_false]
  · intro s j m hn
    simp only [maxPathStart, hn, if_false]

/-- Instance of C11 at `exTwoRows`. -/
theorem computeMaxPath_first_index_witness :
    1 ≤ exTwoRows.nsite ∧ 1 ≤ exTwoRows.ncat
    ∧ (∀ i j, 1 ≤ i → i < exTwoRows.nsite → j < exTwoRows.ncat →
      IsFirstArgmax
        (fun l => exTwoRows.transitLog (j * exTwoRows.ncat + l) + maxPathAcc exTwoRows (i - 1) l)
        exTwoRows.ncat
        ((computeMaxPath exTwoRows).2.next_cat
          ((exTwoRows.nsite - i - 1) * exTwoRows.ncat + j)))
    ∧ IsFirstArgmax
        (fun j => exTwoRows.prob_log j + maxPathAcc exTwoRows (exTwoRows.nsite - 1) j)
        exTwoRows.ncat ((computeMaxPath exTwoRows).2.site_categories 0)
    ∧ (∀ (j l : Nat) (s : Locals ℤ),
        ¬ (s.work_arr (s.work + j)
            < exTwoRows.transitLog (s.transit_arr + l) + s.work_arr (s.pre_work + l)) →
        maxPathL exTwoRows j l s = s)
    ∧ ∀ (s : Locals ℤ) (j : Nat) (m : ℤ × Nat),
        ¬ (m.1 < exTwoRows.prob_log j + s.work_arr (s.pre_work + j)) →
        maxPathStart exTwoRows s j m = m :=
  ⟨by decide, by decide, computeMaxPath_first_index exTwoRows (by decide) (by decide)⟩

end Order

section Reverse

/-- C17 as stated fails on the `double`s of the code. On `exRound` (table
`[[2^53, 2^53], [0, 0]]`, `T = [0, 1, 0, 0]`, log priors 0) `computeMaxPath` writes
`site_categories = [0, 0]`, because `1 + 2^53` rounds to `2^53` and the strict test of line
120 keeps category 0; the assignment `c(i) = site_categories[nsite-1-i]` has the joint log
score `2^53`, less than the score `2^53 + 1` of "category 1 for row 0, category 0 for row 1":
the written sequence does not attain the maximum joint log score. -/
theorem site_categories_rounded_not_optimal :
    1 ≤ exRound.nsite ∧ 1 ≤ exRound.ncat
    ∧ (∀ x, x < 4 → (exRound.site_like_cat x).IsBinary64 ∧ (exRound.transitLog x).IsBinary64)
    ∧ (∀ x, x < 2 → (exRound.prob_log x).IsBinary64)
    ∧ (computeMaxPath exRound).2.site_categories 0 = 0
    ∧ (computeMaxPath exRound).2.site_categories 1 = 0
    ∧ IsAssignment (exactOf exRound) (fun i => if i = 0 then 1 else 0)
    ∧ jointScore (exactOf exRound)
          (fun i => (computeMaxPath exRound).2.site_categories (exRound.nsite - 1 - i))
        < jointScore (exactOf exRound) (fun i => if i = 0 then 1 else 0) :=
  ⟨by decide, by decide, by decide!, by decide!, by decide!, by decide!,
    by unfold IsAssignment; decide, by decide!⟩

/-- C17 amended: for `nsite ≥ 1` and `ncat ≥ 1` the sequence written by `computeMaxPath` is a
maximising path in reverse site order. The assignment `c(i) = site_categories[nsite-1-i]`
maps every row to a category below `ncat`; its joint log score equals `pathLogLike` and no
assignment has a larger one; and `site_categories[0]` is a best category for the last row of
`site_like_cat` (it maximises `prob_log[j] + finalAcc[j]`). The joint log score is

* the score accumulated in the order of the recurrence (`recTotal`: every `+` is the `+` of
  the code), for every addition that is monotone in each argument, such as the rounded
  addition of `double`s (state `h`);
* `prob_log[c(nsite-1)] + Σ site_like_cat[i][c(i)] + Σ T[c(i)*ncat + c(i-1)]` when the
  arithmetic is exact, as over the reals (state `g`). -/
theorem site_categories_reverse_optimal {α β : Type} [LinearOrder α] [Add α]
    [LinearOrderedAddCommGroup β] (h : PhyloHmm α) (g : PhyloHmm β) (hmono : AddMono α)
    (hs : 1 ≤ h.nsite) (hc : 1 ≤ h.ncat) (gs : 1 ≤ g.nsite) (gc : 1 ≤ g.ncat) :
    (IsAssignment h (fun i => (computeMaxPath h).2.site_categories (h.nsite - 1 - i))
      ∧ recTotal h (fun i => (computeMaxPath h).2.site_categories (h.nsite - 1 - i))
          = (computeMaxPath h).2.pathLogLike
      ∧ (∀ c, IsAssignment h c →
          recTotal h c
            ≤ recTotal h (fun i => (computeMaxPath h).2.site_categories (h.nsite - 1 - i)))
      ∧ (computeMaxPath h).2.site_categories 0 < h.ncat
      ∧ ∀ j, j < h.ncat →
          h.prob_log j + maxPathAcc h (h.nsite - 1) j
            ≤ h.prob_log ((computeMaxPath h).2.site_categories 0)
              + maxPathAcc h (h.nsite - 1) ((computeMaxPath h).2.site_categories 0))
    ∧ (IsAssignment g (fun i => (computeMaxPath g).2.site_categories (g.nsite - 1 - i))
      ∧ jointScore g (fun i => (computeMaxPath g).2.site_categories (g.nsite - 1 - i))
          = (computeMaxPath g).2.pathLogLike
      ∧ (∀ c, IsAssignment g c →
          jointScore g c
            ≤ jointScore g (fun i => (computeMaxPath g).2.site_categories (g.nsite - 1 - i)))
      ∧ (computeMaxPath g).2.site_categories 0 < g.ncat
      ∧ ∀ j, j < g.ncat →
          g.prob_log j + maxPathAcc g (g.nsite - 1) j
            ≤ g.prob_log ((computeMaxPath g).2.site_categories 0)
              + maxPathAcc g (g.nsite - 1) ((computeMaxPath g).2.site_categories 0)) := by
  obtain ⟨_, h2, h3⟩ := computeMaxPath_rows h hc
  obtain ⟨_, g2, g3⟩ := computeMaxPath_rows g gc
  have e : (fun i => (computeMaxPath h).2.site_categories (h.nsite - 1 - i))
      = fun i => vitPath h (h.nsite - 1 - i) := by
    funext i
    exact h3 _ (Nat.sub_le _ _)
  have e' : (fun i => (computeMaxPath g).2.site_categories (g.nsite - 1 - i))
      = fun i => vitPath g (g.nsite - 1 - i) := by
    funext i
    exact g3 _ (Nat.sub_le _ _)
  have hstart : IsFirstArgmax (fun j => h.prob_log j + maxPathAcc h (h.nsite - 1) j) h.ncat
      ((computeMaxPath h).2.site_categories 0) := by
    rw [h3 0 (Nat.zero_le _), vitPath]
    apply isFirstArgmax_congr _ _ _ _ _ (vitStart_isFirstArgmax h hc)
    intro x hx
    rw [maxPathAcc_eq_vitRow h _ x le_rfl hx]
  have gstart : IsFirstArgmax (fun j => g.prob_log j + maxPathAcc g (g.nsite - 1) j) g.ncat
      ((computeMaxPath g).2.site_categories 0) := by
    rw [g3 0 (Nat.zero_le _), vitPath]
    apply isFirstArgmax_congr _ _ _ _ _ (vitStart_isFirstArgmax g gc)
    intro x hx
    rw [maxPathAcc_eq_vitRow g _ x le_rfl hx]
  rw [e, h2, recTotal_vitPath h, e', g2, jointScore_vitPath g gs]
  refine ⟨⟨?_, rfl, ?_, hstart.1, hstart.2.1⟩, ⟨?_, rfl, ?_, gstart.1, gstart.2.1⟩⟩
  · intro i _
    exact vitPath_lt h _ hc
  · intro c hcat
    exact recTotal_le_vitStart hmono h hs c hcat
  · intro i _
    exact vitPath_lt g _ gc
  · intro c hcat
    exact jointScore_le_vitStart g gs c hcat

/-- Instance of the amended C17 at the binary64 state `exRound` and the exact state
`exTwoRows`. -/
theorem site_categories_reverse_optimal_witness :
    (AddMono Dbl ∧ 1 ≤ exRound.nsite ∧ 1 ≤ exRound.ncat
      ∧ 1 ≤ exTwoRows.nsite ∧ 1 ≤ exTwoRows.ncat)
    ∧ (IsAssignment exRound
          (fun i => (computeMaxPath exRound).2.site_categories (exRound.nsite - 1 - i))
      ∧ recTotal exRound
          (fun i => (computeMaxPath exRound).2.site_categories (exRound.nsite - 1 - i))
          = (computeMaxPath exRound).2.pathLogLike
      ∧ (∀ c, IsAssignment exRound c →
          recTotal exRound c
            ≤ recTotal exRound
              (fun i => (computeMaxPath exRound).2.site_categories (exRound.nsite - 1 - i)))
      ∧ (computeMaxPath exRound).2.site_categories 0 < exRound.ncat
      ∧ ∀ j, j < exRound.ncat →
          exRound.prob_log j + maxPathAcc exRound (exRound.nsite - 1) j
            ≤ exRound.prob_log ((computeMaxPath exRound).2.site_categories 0)
              + maxPathAcc exRound (exRound.nsite - 1)
                  ((computeMaxPath exRound).2.site_categories 0))
    ∧ (IsAssignment exTwoRows
          (fun i => (computeMaxPath exTwoRows).2.site_categories (exTwoRows.nsite - 1 - i))
      ∧ jointScore exTwoRows
          (fun i => (computeMaxPath exTwoRows).2.site_categories (exTwoRows.nsite - 1 - i))
          = (computeMaxPath exTwoRows).2.pathLogLike
      ∧ (∀ c, IsAssignment exTwoRows c →
          jointScore exTwoRows c
            ≤ jointScore exTwoRows
              (fun i => (computeMaxPath exTwoRows).2.site_categories (exTwoRows.nsite - 1 - i)))
      ∧ (computeMaxPath exTwoRows).2.site_categories 0 < exTwoRows.ncat
      ∧ ∀ j, j < exTwoRows.ncat →
          exTwoRows.prob_log j + maxPathAcc exTwoRows (exTwoRows.nsite - 1) j
            ≤ exTwoRows.prob_log ((computeMaxPath exTwoRows).2.site_categories 0)
              + maxPathAcc exTwoRows (exTwoRows.nsite - 1)
                  ((computeMaxPath exTwoRows).2.site_categories 0)) :=
  ⟨⟨Dbl.addMono, by decide, by decide, by decide, by decide⟩,
    site_categories_reverse_optimal exRound exTwoRows Dbl.addMono (by decide) (by decide)
      (by decide) (by decide)⟩

end Reverse

end PhyloHmm

namespace PhyloHmm

variable {α : Type}

/-! ## optimizeProbEM: the softmax form and positivity -/

/-- The softmax of `emScore` does not change when a constant is subtracted from every
entry. -/
theorem em_prob_shift (h : PhyloHmm ℝ) (hc : 1 ≤ h.ncat) (j : Nat) (hj : j < h.ncat)
    (m : ℝ) :
    (optimizeProbEM logDotProd Real.exp Real.log h).2.prob j
      = Real.exp (emScore logDotProd h j - m)
        / ∑ k ∈ Finset.range h.ncat, Real.exp (emScore logDotProd h k - m) := by
  have hsum : ∑ k ∈ Finset.range h.ncat, Real.exp (emScore logDotProd h k - m)
      = (∑ k ∈ Finset.range h.ncat, Real.exp (emScore logDotProd h k)) * Real.exp (-m) := by
    rw [Finset.sum_mul]
    apply Finset.sum_congr rfl
    intro k _
    rw [← Real.exp_add, sub_eq_add_neg]
  have hZ := ne_of_gt (sum_exp_emScore_pos h hc)
  have hM : Real.exp (-m) ≠ 0 := ne_of_gt (Real.exp_pos _)
  rw [em_prob_real h hc j hj, hsum, sub_eq_add_neg, Real.exp_add]
  field_simp
  ring

/-- C14: for `nsite ≥ 1`, `ncat ≥ 1` and `prob_log = ln prob` (over the reals:
`exp (prob_log[c]) = prob[c]` for every category), `optimizeProbEM` sets
`prob[j] = prob_old[j] * exp (a[j]) / Σ_k prob_old[k] * exp (a[k])` for every category `j`,
where `a` is the final-site forward accumulator; this is the exact softmax
`exp (prob_log[j] + a[j]) / Σ_k exp (prob_log[k] + a[k])`, and subtracting any constant `m`
from every `prob_log[k] + a[k]` gives the same value, so the result depends neither on the
subtracted maximum nor on the index where it was found. -/
theorem em_softmax (h : PhyloHmm ℝ) (_hs : 1 ≤ h.nsite) (hc : 1 ≤ h.ncat)
    (hexp : ∀ c, c < h.ncat → Real.exp (h.prob_log c) = h.prob c) (j : Nat)
    (hj : j < h.ncat) :
    (optimizeProbEM logDotProd Real.exp Real.log h).2.prob j
      = h.prob j * Real.exp (backLikeAcc logDotProd h (h.nsite - 1) j)
        / ∑ k ∈ Finset.range h.ncat,
            h.prob k * Real.exp (backLikeAcc logDotProd h (h.nsite - 1) k)
    ∧ (optimizeProbEM logDotProd Real.exp Real.log h).2.prob j
      = Real.exp (h.prob_log j + backLikeAcc logDotProd h (h.nsite - 1) j)
        / ∑ k ∈ Finset.range h.ncat,
            Real.exp (h.prob_log k + backLikeAcc logDotProd h (h.nsite - 1) k)
    ∧ ∀ m : ℝ,
      (optimizeProbEM logDotProd Real.exp Real.log h).2.prob j
        = Real.exp (h.prob_log j + backLikeAcc logDotProd h (h.nsite - 1) j - m)
          / ∑ k ∈ Finset.range h.ncat,
              Real.exp (h.prob_log k + backLikeAcc logDotProd h (h.nsite - 1) k - m) := by
  have hacc : ∀ k, k < h.ncat →
      h.prob_log k + backLikeAcc logDotProd h (h.nsite - 1) k = emScore logDotProd h k := by
    intro k hk
    rw [backLikeAcc_eq_accRow h _ k hk, emScore]
  have hx : ∀ k, k < h.ncat →
      h.prob k * Real.exp (backLikeAcc logDotProd h (h.nsite - 1) k)
        = Real.exp (emScore logDotProd h k) := by
    intro k hk
    rw [← hacc k hk, Real.exp_add, hexp k hk]
  refine ⟨?_, ?_, ?_⟩
  · rw [hx j hj, Finset.sum_congr rfl (fun k hk => hx k (Finset.mem_range.mp hk))]
    exact em_prob_real h hc j hj
  · rw [hacc j hj,
      Finset.sum_congr rfl (fun k hk => by rw [hacc k (Finset.mem_range.mp hk)])]
    exact em_prob_real h hc j hj
  · intro m
    rw [hacc j hj,
      Finset.sum_congr rfl (fun k hk => by rw [hacc k (Finset.mem_range.mp hk)])]
    exact em_prob_shift h hc j hj m

theorem exEM_exp_prob_log :
    ∀ c, c < exEM.ncat → Real.exp (exEM.prob_log c) = exEM.prob c := by
  intro c hc
  rw [exEM_priorOk.2.2 c hc, Real.exp_log (exEM_priorOk.1 c hc)]

/-- Instance of C14 at `exEM`, category 1. -/
theorem em_softmax_witness :
    1 ≤ exEM.nsite ∧ 1 ≤ exEM.ncat
    ∧ (∀ c, c < exEM.ncat → Real.exp (exEM.prob_log c) = exEM.prob c) ∧ 1 < exEM.ncat
    ∧ (optimizeProbEM logDotProd Real.exp Real.log exEM).2.prob 1
      = exEM.prob 1 * Real.exp (backLikeAcc logDotProd exEM (exEM.nsite - 1) 1)
        / ∑ k ∈ Finset.range exEM.ncat,
            exEM.prob k * Real.exp (backLikeAcc logDotProd exEM (exEM.nsite - 1) k)
    ∧ (optimizeProbEM logDotProd Real.exp Real.log exEM).2.prob 1
      = Real.exp (exEM.prob_log 1 + backLikeAcc logDotProd exEM (exEM.nsite - 1) 1)
        / ∑ k ∈ Finset.range exEM.ncat,
            Real.exp (exEM.prob_log k + backLikeAcc logDotProd exEM (exEM.nsite - 1) k)
    ∧ ∀ m : ℝ,
      (optimizeProbEM logDotProd Real.exp Real.log exEM).2.prob 1
        = Real.exp (exEM.prob_log 1 + backLikeAcc logDotProd exEM (exEM.nsite - 1) 1 - m)
          / ∑ k ∈ Finset.range exEM.ncat,
              Real.exp (exEM.prob_log k + backLikeAcc logDotProd exEM (exEM.nsite - 1) k - m) :=
  ⟨by decide, by decide, exEM_exp_prob_log, by decide,
    em_softmax exEM (by decide) (by decide) exEM_exp_prob_log 1 (by decide)⟩

/-- The constructed object has a strictly positive, normalised prior with its logarithms in
`prob_log`. -/
theorem create_priorOk (n_site n_cat : Nat) (fresh : PhyloHmm ℝ) (hc : 1 ≤ n_cat) :
    PriorOk (create Real.log n_site n_cat fresh) := by
  have hn : (0 : ℝ) < (n_cat : ℝ) := by exact_mod_cast hc
  refine ⟨?_, ?_, ?_⟩
  · intro c hc'
    have hc'' : c < n_cat := hc'
    simp only [create, computeLogProb, fillLoop, hc'', if_true]
    positivity
  · show ∑ c ∈ Finset.range n_cat, (create Real.log n_site n_cat fresh).prob c = 1
    simp only [create, computeLogProb, fillLoop]
    rw [Finset.sum_congr rfl (g := fun _ => (1 : ℝ) / (n_cat : ℝ))
      (fun c hc' => by simp only [Finset.mem_range.mp hc', if_true])]
    rw [Finset.sum_const, Finset.card_range, nsmul_eq_mul]
    field_simp
  · intro c hc'
    have hc'' : c < n_cat := hc'
    simp only [create, computeLogProb, fillLoop, hc'', if_true]

theorem em_iterate_ncat (h : PhyloHmm ℝ) (hc : 1 ≤ h.ncat) (n : Nat) :
    ((fun g => (optimizeProbEM logDotProd Real.exp Real.log g).2)^[n] h).ncat = h.ncat := by
  induction n with
  | zero => rfl
  | succ n ih =>
    rw [Function.iterate_succ_apply']
    have := (optimizeProbEM_spec logDotProd logDotProd_local Real.exp Real.log
      ((fun g => (optimizeProbEM logDotProd Real.exp Real.log g).2)^[n] h) (by omega)).2.1
    rw [this, ih]

/-- The normalising sum of `optimizeProbEM` is at least 1: the entry at the index of the
maximum is exactly 1 and the others are positive. -/
theorem one_le_sum_emWeight (h : PhyloHmm ℝ) (hc : 1 ≤ h.ncat) :
    1 ≤ ∑ k ∈ Finset.range h.ncat, emWeight logDotProd Real.exp h k := by
  have harg : (maxScan (emScore logDotProd h) (h.ncat - 1)).2 ∈ Finset.range h.ncat := by
    have := maxScan_arg_le (emScore logDotProd h) (h.ncat - 1)
    exact Finset.mem_range.mpr (by omega)
  have hle := Finset.single_le_sum (f := fun k => emWeight logDotProd Real.exp h k)
    (fun k _ => by
      show 0 ≤ emWeight logDotProd Real.exp h k
      rw [emWeight_real]
      exact le_of_lt (mul_pos (Real.exp_pos _) (Real.exp_pos _))) harg
  simp only [emWeight, if_true] at hle
  exact hle

/-- The constructor stores `1 / n_cat` and its logarithm in the first `n_cat` cells. -/
theorem create_prob_log (logf : ℚ → ℚ) (n_site n_cat : Nat) (fresh : PhyloHmm ℚ) (c : Nat)
    (hc : c < n_cat) :
    (create logf n_site n_cat fresh).prob c = 1 / (n_cat : ℚ)
    ∧ (create logf n_site n_cat fresh).prob_log c = logf (1 / (n_cat : ℚ)) := by
  have hc' : c < { fresh with
      nsite := n_site
      ncat := n_cat
      prob := fun x => if x < n_cat then 1 / (n_cat : ℚ) else fresh.prob x }.ncat := hc
  simp only [create, computeLogProb, fillLoop, hc, hc', if_true, and_self]

/-- C20 as stated fails on the `double`s of the code: strict positivity is lost as soon as
`exp` underflows. Start from the constructor with one site and two categories (uniform prior
`[1/2, 1/2]`, both `prob_log` equal to `log(1/2)`) and the table row `[0, -800]`. For every
`exp` that returns 0 below `-746`, as the binary64 `exp` does (`e^(-746) < 2^(-1075)`, half
the smallest positive binary64 value), one call of `optimizeProbEM` stores `prob = [1, 0]`
and `prob_log[1] = log(0)`: the weight of category 1 is `exp(-800) = 0`, the normalising
sum is 1. -/
theorem em_underflow_zero_prior :
    exUnderflow.site_like_cat 0 = 0 ∧ exUnderflow.site_like_cat 1 = -800
    ∧ ∀ (ldp : (Nat → ℚ) → (Nat → ℚ) → Nat → ℚ) (expf logf : ℚ → ℚ), LdpLocal ldp →
        (∀ x : ℚ, x < -746 → expf x = 0) →
        (create logf 1 2 exUnderflow).prob 0 = 1 / 2
        ∧ (create logf 1 2 exUnderflow).prob 1 = 1 / 2
        ∧ (create logf 1 2 exUnderflow).prob_log 0 = logf (1 / 2)
        ∧ (create logf 1 2 exUnderflow).prob_log 1 = logf (1 / 2)
        ∧ (optimizeProbEM ldp expf logf (create logf 1 2 exUnderflow)).2.prob 0 = 1
        ∧ (optimizeProbEM ldp expf logf (create logf 1 2 exUnderflow)).2.prob 1 = 0
        ∧ (optimizeProbEM ldp expf logf (create logf 1 2 exUnderflow)).2.prob_log 1
            = logf 0 := by
  refine ⟨by decide, by decide, ?_⟩
  intro ldp expf logf hldp hexp
  obtain ⟨p0, l0⟩ := create_prob_log logf 1 2 exUnderflow 0 (by decide)
  obtain ⟨p1, l1⟩ := create_prob_log logf 1 2 exUnderflow 1 (by decide)
  have hn : (create logf 1 2 exUnderflow).ncat = 2 := rfl
  have hs : (create logf 1 2 exUnderflow).nsite = 1 := rfl
  have ht : (create logf 1 2 exUnderflow).site_like_cat = exUnderflow.site_like_cat := rfl
  obtain ⟨-, -, -, -, hp, hl, -⟩ := optimizeProbEM_spec ldp hldp expf logf
    (create logf 1 2 exUnderflow) (by rw [hn]; decide)
  have a0 : ∀ j, accRow ldp (create logf 1 2 exUnderflow)
      ((create logf 1 2 exUnderflow).nsite - 1) j = exUnderflow.site_like_cat j := fun _ => rfl
  have s0 : emScore ldp (create logf 1 2 exUnderflow) 0 = logf (1 / 2) := by
    unfold emScore
    rw [a0, l0]
    norm_num [exUnderflow]
  have s1 : emScore ldp (create logf 1 2 exUnderflow) 1 = logf (1 / 2) + -800 := by
    unfold emScore
    rw [a0, l1]
    norm_num [exUnderflow]
  have hm : maxScan (emScore ldp (create logf 1 2 exUnderflow)) 1 = (logf (1 / 2), 0) := by
    have e : maxScan (emScore ldp (create logf 1 2 exUnderflow)) 1
        = if emScore ldp (create logf 1 2 exUnderflow) 0
              < emScore ldp (create logf 1 2 exUnderflow) 1
          then (emScore ldp (create logf 1 2 exUnderflow) 1, 1)
          else (emScore ldp (create logf 1 2 exUnderflow) 0, 0) := rfl
    rw [e, s0, s1, if_neg (by linarith)]
  have w0 : emWeight ldp expf (create logf 1 2 exUnderflow) 0 = 1 := by
    simp [emWeight, hn, hm]
  have w1 : emWeight ldp expf (create logf 1 2 exUnderflow) 1 = 0 := by
    simp only [emWeight, hn, hm, s1]
    rw [if_neg (by decide)]
    exact hexp _ (by linarith)
  have hsum : ∑ k ∈ Finset.range (create logf 1 2 exUnderflow).ncat,
      emWeight ldp expf (create logf 1 2 exUnderflow) k = 1 := by
    rw [hn, Finset.sum_range_succ, Finset.sum_range_one, w0, w1]
    norm_num
  have q0 := hp 0 (by rw [hn]; decide)
  have q1 := hp 1 (by rw [hn]; decide)
  rw [hsum, w0] at q0
  rw [hsum, w1] at q1
  refine ⟨by rw [p0]; norm_num, by rw [p1]; norm_num, by rw [l0]; norm_num,
    by rw [l1]; norm_num, by rw [q0]; norm_num, by rw [q1]; norm_num, ?_⟩
  rw [hl 1 (by rw [hn]; decide), q1]
  norm_num

/-- C20 amended: strict positivity of the prior is an invariant of the model over the reals,
where `exp` is exact and never 0. After construction with `ncat ≥ 1` every `prob[c] > 0`; if
every `prob[c] > 0` with `prob_log = ln prob` before `optimizeProbEM` then every
`prob[c] > 0` after it, the normalising sum being at least 1; hence over the reals, after any
number of calls from the uniform start, every `prob[c]` is positive and `prob_log[c]` is its
(finite) logarithm. -/
theorem prob_positive (n_site n_cat : Nat) (fresh h : PhyloHmm ℝ) (hc0 : 1 ≤ n_cat)
    (hc : 1 ≤ h.ncat) (_hpos : ∀ c, c < h.ncat → 0 < h.prob c)
    (_hlog : ∀ c, c < h.ncat → h.prob_log c = Real.log (h.prob c)) :
    (∀ c, c < n_cat → 0 < (create Real.log n_site n_cat fresh).prob c)
    ∧ (∀ c, c < h.ncat → 0 < (optimizeProbEM logDotProd Real.exp Real.log h).2.prob c)
    ∧ 1 ≤ ∑ k ∈ Finset.range h.ncat, emWeight logDotProd Real.exp h k
    ∧ (∀ c, c < h.ncat →
        (optimizeProbEM logDotProd Real.exp Real.log h).2.prob c
          = emWeight logDotProd Real.exp h c
            * (1 / ∑ k ∈ Finset.range h.ncat, emWeight logDotProd Real.exp h k))
    ∧ ∀ (n c : Nat), c < n_cat →
        0 < ((fun g => (optimizeProbEM logDotProd Real.exp Real.log g).2)^[n]
              (create Real.log n_site n_cat fresh)).prob c
        ∧ ((fun g => (optimizeProbEM logDotProd Real.exp Real.log g).2)^[n]
              (create Real.log n_site n_cat fresh)).prob_log c
          = Real.log (((fun g => (optimizeProbEM logDotProd Real.exp Real.log g).2)^[n]
              (create Real.log n_site n_cat fresh)).prob c) := by
  have h0 := create_priorOk n_site n_cat fresh hc0
  refine ⟨h0.1, fun c hc' => em_prob_pos h hc c hc', one_le_sum_emWeight h hc,
    (optimizeProbEM_spec logDotProd logDotProd_local Real.exp Real.log h hc).2.2.2.2.1, ?_⟩
  intro n c hc'
  have hp := priorOk_iterate _ h0 n
  have hn := em_iterate_ncat (create Real.log n_site n_cat fresh) hc0 n
  have hc'' : c < ((fun g => (optimizeProbEM logDotProd Real.exp Real.log g).2)^[n]
      (create Real.log n_site n_cat fresh)).ncat := by
    rw [hn]
    exact hc'
  exact ⟨hp.1 c hc'', hp.2.2 c hc''⟩

/-- Instance of the amended C20 at the construction with 1 site and 2 categories and at `exEM`. -/
theorem prob_positive_witness :
    (1 ≤ 2 ∧ 1 ≤ exEM.ncat ∧ (∀ c, c < exEM.ncat → 0 < exEM.prob c)
      ∧ ∀ c, c < exEM.ncat → exEM.prob_log c = Real.log (exEM.prob c))
    ∧ (∀ c, c < 2 → 0 < (create Real.log 1 2 exEM).prob c)
    ∧ (∀ c, c < exEM.ncat → 0 < (optimizeProbEM logDotProd Real.exp Real.log exEM).2.prob c)
    ∧ 1 ≤ ∑ k ∈ Finset.range exEM.ncat, emWeight logDotProd Real.exp exEM k
    ∧ (∀ c, c < exEM.ncat →
        (optimizeProbEM logDotProd Real.exp Real.log exEM).2.prob c
          = emWeight logDotProd Real.exp exEM c
            * (1 / ∑ k ∈ Finset.range exEM.ncat, emWeight logDotProd Real.exp exEM k))
    ∧ ∀ (n c : Nat), c < 2 →
        0 < ((fun g => (optimizeProbEM logDotProd Real.exp Real.log g).2)^[n]
              (create Real.log 1 2 exEM)).prob c
        ∧ ((fun g => (optimizeProbEM logDotProd Real.exp Real.log g).2)^[n]
              (create Real.log 1 2 exEM)).prob_log c
          = Real.log (((fun g => (optimizeProbEM logDotProd Real.exp Real.log g).2)^[n]
              (create Real.log 1 2 exEM)).prob c) :=
  ⟨⟨by decide, by decide, exEM_priorOk.1, exEM_priorOk.2.2⟩,
    prob_positive 1 2 exEM exEM (by decide) (by decide) exEM_priorOk.1 exEM_priorOk.2.2⟩

end PhyloHmm

namespace PhyloHmm

variable {α : Type}

/-! ## The scenario with three sites and two categories -/

theorem maxScan_one {β : Type} [LT β] [DecidableRel (fun (a b : β) => a < b)] (f : Nat → β) :
    maxScan f 1 = if f 0 < f 1 then (f 1, 1) else (f 0, 0) := rfl

/-- The rows and backpointers of the max recurrence on `exScenario a b` for `b ≤ a`. -/
theorem exScenario_rows (a b : ℝ) (hab : b ≤ a) :
    vitArg (exScenario a b) 0 0 = 0
    ∧ vitArg (exScenario a b) 0 1 = (if b < a - 1 then 1 else 0)
    ∧ vitArg (exScenario a b) 1 0 = (if 2 * a - 1 < 2 * b then 1 else 0)
    ∧ vitStart (exScenario a b) = (Real.log (1 / 2) + max (2 * a - 1) (2 * b), 0) := by
  have v00 : vitRow (exScenario a b) 0 0 = 0 := by simp [vitRow, exScenario]
  have v01 : vitRow (exScenario a b) 0 1 = -1 := by simp [vitRow, exScenario]
  have t0 : (exScenario a b).transitLog 0 = a := by simp [exScenario]
  have t1 : (exScenario a b).transitLog 1 = b := by simp [exScenario]
  have t2 : (exScenario a b).transitLog 2 = b := by simp [exScenario]
  have t3 : (exScenario a b).transitLog 3 = a := by simp [exScenario]
  have s2 : (exScenario a b).site_like_cat 2 = -1 := by simp [exScenario]
  have s3 : (exScenario a b).site_like_cat 3 = 0 := by simp [exScenario]
  have s4 : (exScenario a b).site_like_cat 4 = 0 := by simp [exScenario]
  have s5 : (exScenario a b).site_like_cat 5 = -1 := by simp [exScenario]
  have g0 : ∀ j, vitArg (exScenario a b) 0 j
      = (maxScan (fun l => (exScenario a b).transitLog (j * 2 + l)
          + vitRow (exScenario a b) 0 l) 1).2 := fun _ => rfl
  have g1 : ∀ j, vitArg (exScenario a b) 1 j
      = (maxScan (fun l => (exScenario a b).transitLog (j * 2 + l)
          + vitRow (exScenario a b) 1 l) 1).2 := fun _ => rfl
  have r1 : ∀ j, vitRow (exScenario a b) 1 j
      = (maxScan (fun l => (exScenario a b).transitLog (j * 2 + l)
          + vitRow (exScenario a b) 0 l) 1).1 + (exScenario a b).site_like_cat (1 * 2 + j) :=
    fun _ => rfl
  have r2 : ∀ j, vitRow (exScenario a b) 2 j
      = (maxScan (fun l => (exScenario a b).transitLog (j * 2 + l)
          + vitRow (exScenario a b) 1 l) 1).1 + (exScenario a b).site_like_cat (2 * 2 + j) :=
    fun _ => rfl
  have a00 : vitArg (exScenario a b) 0 0 = 0 := by
    rw [g0, maxScan_one]
    norm_num [v00, v01, t0, t1]
    split_ifs with hlt
    · exfalso
      linarith
    · rfl
  have v10 : vitRow (exScenario a b) 1 0 = a - 1 := by
    rw [r1, maxScan_one]
    norm_num [v00, v01, t0, t1, s2]
    split_ifs with hlt
    · linarith
    · ring
  have a01 : vitArg (exScenario a b) 0 1 = (if b < a - 1 then 1 else 0) := by
    rw [g0, maxScan_one]
    norm_num [v00, v01, t2, t3]
    split_ifs <;> first | rfl | (exfalso; linarith)
  have v11 : vitRow (exScenario a b) 1 1 = max b (a - 1) := by
    rw [r1, maxScan_one]
    norm_num [v00, v01, t2, t3, s3]
    split_ifs with hlt
    · rw [max_eq_right (by linarith)]
      simp only
      ring
    · rw [max_eq_left (by linarith)]
  have a10 : vitArg (exScenario a b) 1 0 = (if 2 * a - 1 < 2 * b then 1 else 0) := by
    rw [g1, maxScan_one]
    norm_num [v10, v11, t0, t1]
    rcases le_total b (a - 1) with h1 | h1
    · rw [max_eq_right h1]
      split_ifs <;> first | rfl | (exfalso; linarith)
    · rw [max_eq_left h1]
      split_ifs <;> first | rfl | (exfalso; linarith)
  have v20 : vitRow (exScenario a b) 2 0 = max (2 * a - 1) (2 * b) := by
    rw [r2, maxScan_one]
    norm_num [v10, v11, t0, t1, s4]
    rcases le_total b (a - 1) with h1 | h1
    · rw [max_eq_right h1, max_eq_left (by linarith)]
      split_ifs with hlt
      · exfalso
        linarith
      · simp only
        ring
    · rw [max_eq_left h1]
      split_ifs with hlt
      · rw [max_eq_right (by linarith)]
        simp only
        ring
      · rw [max_eq_left (by linarith)]
        simp only
        ring
  have v21 : vitRow (exScenario a b) 2 1 ≤ 2 * a - 1 := by
    rw [r2, maxScan_one]
    norm_num [v10, v11, t2, t3, s5]
    rcases le_total b (a - 1) with h1 | h1
    · rw [max_eq_right h1]
      split_ifs <;> simp only <;> linarith
    · rw [max_eq_left h1]
      split_ifs <;> simp only <;> linarith
  refine ⟨a00, a01, a10, ?_⟩
  have e : vitStart (exScenario a b)
      = maxScan (fun j => Real.log (1 / 2) + vitRow (exScenario a b) 2 j) 1 := rfl
  rw [e, maxScan_one]
  have : ¬ (Real.log (1 / 2) + vitRow (exScenario a b) 2 0
      < Real.log (1 / 2) + vitRow (exScenario a b) 2 1) := by
    have := le_max_left (2 * a - 1) (2 * b)
    rw [v20]
    linarith
  rw [if_neg this, v20]

/-- C13 as stated fails on the `double`s of the code, in both directions (`exScenarioDbl`,
all entries binary64 values, `a ≥ b`).

* `a = -0.40309273233720366`, `b = -0.9030927323372037`: here `2b > 2a - 1` is false, and
  `computeMaxPath` decodes `[0, 1, 0]`, not `[0, 0, 0]`: the sums `a + (a - 1)` and `b + b`
  of line 119 both round, and the rounded `b + b` is the larger.
* `a = -0.08504242956601893`, `b = -0.5850424295660188`: here `2b > 2a - 1` is true, and
  `computeMaxPath` decodes `[0, 0, 0]`, not `[0, 1, 0]`. -/
theorem scenario_rounded_decode :
    ((Dbl.neg 3630736558299171 1021).IsBinary64 ∧ (Dbl.neg 8134336185669667 1021).IsBinary64
      ∧ (Dbl.neg 6243314768165359 1021).IsBinary64 ∧ (Dbl.neg 1 1074).IsBinary64
      ∧ Dbl.neg 8134336185669667 1021 ≤ Dbl.neg 3630736558299171 1021
      ∧ ¬ (2 * (Dbl.neg 3630736558299171 1021).units - (Dbl.pos 1 1074).units
            < 2 * (Dbl.neg 8134336185669667 1021).units)
      ∧ (computeMaxPath (exScenarioDbl (Dbl.neg 3630736558299171 1021)
            (Dbl.neg 8134336185669667 1021))).2.site_categories 0 = 0
      ∧ (computeMaxPath (exScenarioDbl (Dbl.neg 3630736558299171 1021)
            (Dbl.neg 8134336185669667 1021))).2.site_categories 1 = 1
      ∧ (computeMaxPath (exScenarioDbl (Dbl.neg 3630736558299171 1021)
            (Dbl.neg 8134336185669667 1021))).2.site_categories 2 = 0)
    ∧ ((Dbl.neg 765994108208409 1021).IsBinary64 ∧ (Dbl.neg 658699216947363 1024).IsBinary64
      ∧ Dbl.neg 658699216947363 1024 ≤ Dbl.neg 765994108208409 1021
      ∧ 2 * (Dbl.neg 765994108208409 1021).units - (Dbl.pos 1 1074).units
            < 2 * (Dbl.neg 658699216947363 1024).units
      ∧ (computeMaxPath (exScenarioDbl (Dbl.neg 765994108208409 1021)
            (Dbl.neg 658699216947363 1024))).2.site_categories 0 = 0
      ∧ (computeMaxPath (exScenarioDbl (Dbl.neg 765994108208409 1021)
            (Dbl.neg 658699216947363 1024))).2.site_categories 1 = 0
      ∧ (computeMaxPath (exScenarioDbl (Dbl.neg 765994108208409 1021)
            (Dbl.neg 658699216947363 1024))).2.site_categories 2 = 0) := by
  decide!

/-- C13 amended: with exact arithmetic over the reals, for `nsite = 3`, `ncat = 2`, table
`[[0,-1],[-1,0],[0,-1]]`, uniform prior and a symmetric transition log-matrix with diagonal
`a` and off-diagonal `b`, `a ≥ b`: `computeMaxPath` decodes `site_categories = [0,1,0]` when
`2b > 2a - 1` and `[0,0,0]` otherwise, and `pathLogLike = max (2a - 1) (2b) + ln (1/2)`. -/
theorem scenario_decode (a b : ℝ) (hab : b ≤ a) :
    (2 * a - 1 < 2 * b →
      (computeMaxPath (exScenario a b)).2.site_categories 0 = 0
      ∧ (computeMaxPath (exScenario a b)).2.site_categories 1 = 1
      ∧ (computeMaxPath (exScenario a b)).2.site_categories 2 = 0)
    ∧ (¬ (2 * a - 1 < 2 * b) →
      (computeMaxPath (exScenario a b)).2.site_categories 0 = 0
      ∧ (computeMaxPath (exScenario a b)).2.site_categories 1 = 0
      ∧ (computeMaxPath (exScenario a b)).2.site_categories 2 = 0)
    ∧ (computeMaxPath (exScenario a b)).2.pathLogLike
        = max (2 * a - 1) (2 * b) + Real.log (1 / 2)
    ∧ (computeMaxPath (exScenario a b)).1 = max (2 * a - 1) (2 * b) + Real.log (1 / 2) := by
  obtain ⟨a00, a01, a10, hst⟩ := exScenario_rows a b hab
  obtain ⟨h1, h2, h3⟩ := computeMaxPath_rows (exScenario a b) (by show 1 ≤ 2; decide)
  have p0 : vitPath (exScenario a b) 0 = 0 := by rw [vitPath, hst]
  have p1 : vitPath (exScenario a b) 1 = (if 2 * a - 1 < 2 * b then 1 else 0) := by
    rw [vitPath, p0]
    exact a10
  have p2 : vitPath (exScenario a b) 2
      = vitArg (exScenario a b) 0 (vitPath (exScenario a b) 1) := by
    rw [vitPath]
    rfl
  refine ⟨?_, ?_, ?_, ?_⟩
  · intro hlt
    rw [h3 0 (by show 0 ≤ 2; decide), h3 1 (by show 1 ≤ 2; decide),
      h3 2 (by show 2 ≤ 2; decide), p2, p1, p0, if_pos hlt, a01,
      if_neg (by linarith)]
    exact ⟨rfl, rfl, rfl⟩
  · intro hlt
    rw [h3 0 (by show 0 ≤ 2; decide), h3 1 (by show 1 ≤ 2; decide),
      h3 2 (by show 2 ≤ 2; decide), p2, p1, p0, if_neg hlt, a00]
    exact ⟨rfl, rfl, rfl⟩
  · rw [h2, hst]
    ring
  · rw [h1, hst]
    ring

/-- Instance of the amended C13 at `a = 0`, `b = -1`. -/
theorem scenario_decode_witness :
    (-1 : ℝ) ≤ 0
    ∧ (2 * (0 : ℝ) - 1 < 2 * (-1) →
      (computeMaxPath (exScenario 0 (-1))).2.site_categories 0 = 0
      ∧ (computeMaxPath (exScenario 0 (-1))).2.site_categories 1 = 1
      ∧ (computeMaxPath (exScenario 0 (-1))).2.site_categories 2 = 0)
    ∧ (¬ (2 * (0 : ℝ) - 1 < 2 * (-1)) →
      (computeMaxPath (exScenario 0 (-1))).2.site_categories 0 = 0
      ∧ (computeMaxPath (exScenario 0 (-1))).2.site_categories 1 = 0
      ∧ (computeMaxPath (exScenario 0 (-1))).2.site_categories 2 = 0)
    ∧ (computeMaxPath (exScenario 0 (-1))).2.pathLogLike
        = max (2 * (0 : ℝ) - 1) (2 * (-1)) + Real.log (1 / 2)
    ∧ (computeMaxPath (exScenario 0 (-1))).1
        = max (2 * (0 : ℝ) - 1) (2 * (-1)) + Real.log (1 / 2) :=
  ⟨by norm_num, scenario_decode 0 (-1) (by norm_num)⟩

end PhyloHmm

namespace PhyloHmm

variable {α : Type}

/-! ## showSiteCatMaxLike: the segment listing -/

theorem segInv_init (h : PhyloHmm α) : SegInv h 0 ([], h.site_categories 0, 0) where
  pre_site_le := le_rfl
  run := by
    intro x h1 h2
    have : x = 0 := by omega
    rw [this]
  chain := List.chain'_nil
  segs := by
    intro a ha
    simp at ha
  empty := fun _ => rfl
  last := by
    intro a ha
    simp at ha
  head := by
    intro a ha
    simp at ha
  cover := by
    intro x h1 h2
    simp only at h2
    omega

theorem segInv_step (h : PhyloHmm α) (m : Nat) (s : List Segment × Nat × Nat)
    (inv : SegInv h m s) : SegInv h (m + 1) (showSegStep h (1 + m) s) := by
  have e : 1 + m = m + 1 := by omega
  rw [e]
  unfold showSegStep
  by_cases hne : h.site_categories (m + 1) ≠ s.2.1
  · rw [if_pos hne]
    refine ⟨le_rfl, ?_, ?_, ?_, ?_, ?_, ?_, ?_⟩
    rotate_right
    · intro x h1 h2
      simp only at h2
      rcases Nat.lt_or_ge s.2.2 x with h3 | h3
      · exact ⟨_, List.mem_append.mpr (Or.inr (List.mem_singleton.mpr rfl)),
          by simp only; omega, by simp only; omega⟩
      · obtain ⟨a, ha, h4, h5⟩ := inv.cover x h1 h3
        exact ⟨a, List.mem_append.mpr (Or.inl ha), h4, h5⟩
    · intro x h1 h2
      have : x = m + 1 := by
        simp only at h1
        omega
      rw [this]
    · apply List.Chain'.append inv.chain (List.chain'_singleton _)
      intro a ha b hb
      simp only [List.head?_cons, Option.mem_def, Option.some.injEq] at hb
      subst hb
      obtain ⟨h1, h2⟩ := inv.last a ha
      exact ⟨by simp only; omega, h2⟩
    · intro a ha
      rcases List.mem_append.mp ha with ha | ha
      · obtain ⟨h1, h2, h3, h4⟩ := inv.segs a ha
        have := inv.pre_site_le
        exact ⟨h1, h2, by simp only; omega, h4⟩
      · simp only [List.mem_singleton] at ha
        subst ha
        have := inv.pre_site_le
        refine ⟨by simp only; omega, by simp only; omega, le_rfl, ?_⟩
        intro x h1 h2
        simp only at h1 h2 ⊢
        rw [inv.run (x - 1) (by omega) (by omega)]
    · intro hnil
      simp at hnil
    · intro a ha
      rw [List.getLast?_concat] at ha
      simp only [Option.mem_def, Option.some.injEq] at ha
      subst ha
      refine ⟨rfl, ?_⟩
      simp only
      intro hc
      exact hne (by omega)
    · intro a ha
      cases hs : s.1 with
      | nil =>
        rw [hs] at ha
        simp only [List.nil_append, List.head?_cons, Option.mem_def, Option.some.injEq] at ha
        subst ha
        simp only [inv.empty hs]
      | cons b t =>
        rw [hs] at ha
        simp only [List.cons_append, List.head?_cons, Option.mem_def, Option.some.injEq] at ha
        rw [← ha]
        exact inv.head b (by rw [hs]; simp)
  · rw [if_neg hne]
    have heq : h.site_categories (m + 1) = s.2.1 := not_not.mp hne
    refine ⟨Nat.le_succ_of_le inv.pre_site_le, ?_, inv.chain, inv.segs, inv.empty, inv.last,
      inv.head, inv.cover⟩
    intro x h1 h2
    rcases Nat.lt_or_ge x (m + 1) with h3 | h3
    · exact inv.run x h1 (by omega)
    · have : x = m + 1 := by omega
      rw [this, heq]

theorem segInv_loop (h : PhyloHmm α) (m : Nat) :
    SegInv h m (forLoop (showSegStep h) 1 m ([], h.site_categories 0, 0)) := by
  induction m with
  | zero => exact segInv_init h
  | succ m ih =>
    rw [forLoop_succ]
    exact segInv_step h m _ ih

/-- The properties of the emitted segment lines, for any content of `site_categories`. -/
theorem showSegments_rle (h : PhyloHmm α) (hs : 1 ≤ h.nsite) :
    (∀ a, a ∈ (showSegments h).head? → a.first = 1)
    ∧ (∀ a, a ∈ (showSegments h).getLast? → a.last = h.nsite)
    ∧ (showSegments h).Chain' (fun a b => b.first = a.last + 1 ∧ a.cat ≠ b.cat)
    ∧ (∀ a, a ∈ showSegments h → 1 ≤ a.first ∧ a.first ≤ a.last ∧ a.last ≤ h.nsite
      ∧ ∀ x, a.first ≤ x → x ≤ a.last → h.site_categories (x - 1) + 1 = a.cat)
    ∧ ∀ x, 1 ≤ x → x ≤ h.nsite → ∃ a, a ∈ showSegments h ∧ a.first ≤ x ∧ x ≤ a.last := by
  have inv := segInv_loop h (h.nsite - 1)
  have hn : 1 + (h.nsite - 1) = h.nsite := by omega
  unfold showSegments
  simp only [hn]
  generalize forLoop (showSegStep h) 1 (h.nsite - 1) ([], h.site_categories 0, 0) = s at inv
  refine ⟨?_, ?_, ?_, ?_, ?_⟩
  rotate_right
  · intro x h1 h2
    rcases Nat.lt_or_ge s.2.2 x with h3 | h3
    · exact ⟨_, List.mem_append.mpr (Or.inr (List.mem_singleton.mpr rfl)),
        by simp only; omega, by simp only; omega⟩
    · obtain ⟨a, ha, h4, h5⟩ := inv.cover x h1 h3
      exact ⟨a, List.mem_append.mpr (Or.inl ha), h4, h5⟩
  · intro a ha
    cases hs' : s.1 with
    | nil =>
      rw [hs'] at ha
      simp only [List.nil_append, List.head?_cons, Option.mem_def, Option.some.injEq] at ha
      subst ha
      simp only [inv.empty hs']
    | cons b t =>
      rw [hs'] at ha
      simp only [List.cons_append, List.head?_cons, Option.mem_def, Option.some.injEq] at ha
      rw [← ha]
      exact inv.head b (by rw [hs']; simp)
  · intro a ha
    rw [List.getLast?_concat] at ha
    simp only [Option.mem_def, Option.some.injEq] at ha
    subst ha
    rfl
  · apply List.Chain'.append inv.chain (List.chain'_singleton _)
    intro a ha b hb
    simp only [List.head?_cons, Option.mem_def, Option.some.injEq] at hb
    subst hb
    obtain ⟨h1, h2⟩ := inv.last a ha
    exact ⟨by simp only; omega, h2⟩
  · intro a ha
    have hps := inv.pre_site_le
    rcases List.mem_append.mp ha with ha | ha
    · obtain ⟨h1, h2, h3, h4⟩ := inv.segs a ha
      exact ⟨h1, h2, by omega, h4⟩
    · simp only [List.mem_singleton] at ha
      subst ha
      refine ⟨by simp only; omega, by simp only; omega, le_rfl, ?_⟩
      intro x h1 h2
      simp only at h1 h2 ⊢
      rw [inv.run (x - 1) (by omega) (by omega)]

/-- C15: for every `nsite ≥ 1` and every `site_categories`, the segment lines emitted by
`showSiteCatMaxLike` form a run-length encoding: the first range starts at 1, the last ends
at `nsite`, each range starts at the previous range's end + 1 and reports a different
category than the previous one (runs are maximal), every range is a non-empty interval
inside `[1, nsite]` all of whose sites have decoded category equal to the reported category
minus 1, and every site lies in a range. -/
theorem showSegments_run_length (h : PhyloHmm α) (hs : 1 ≤ h.nsite) :
    (∀ a, a ∈ (showSegments h).head? → a.first = 1)
    ∧ (∀ a, a ∈ (showSegments h).getLast? → a.last = h.nsite)
    ∧ (showSegments h).Chain' (fun a b => b.first = a.last + 1 ∧ a.cat ≠ b.cat)
    ∧ (∀ a, a ∈ showSegments h → 1 ≤ a.first ∧ a.first ≤ a.last ∧ a.last ≤ h.nsite
      ∧ ∀ x, a.first ≤ x → x ≤ a.last → h.site_categories (x - 1) + 1 = a.cat)
    ∧ ∀ x, 1 ≤ x → x ≤ h.nsite → ∃ a, a ∈ showSegments h ∧ a.first ≤ x ∧ x ≤ a.last :=
  showSegments_rle h hs

/-- Instance of C15 at `exRuns`, whose listing is `[1,2] 1`, `[3,4] 2`, `[5,5] 1`. -/
theorem showSegments_run_length_witness :
    1 ≤ exRuns.nsite
    ∧ showSegments exRuns
      = [{ first := 1, last := 2, cat := 1 }, { first := 3, last := 4, cat := 2 },
          { first := 5, last := 5, cat := 1 }]
    ∧ (∀ a, a ∈ (showSegments exRuns).head? → a.first = 1)
    ∧ (∀ a, a ∈ (showSegments exRuns).getLast? → a.last = exRuns.nsite)
    ∧ (showSegments exRuns).Chain' (fun a b => b.first = a.last + 1 ∧ a.cat ≠ b.cat)
    ∧ (∀ a, a ∈ showSegments exRuns → 1 ≤ a.first ∧ a.first ≤ a.last ∧ a.last ≤ exRuns.nsite
      ∧ ∀ x, a.first ≤ x → x ≤ a.last → exRuns.site_categories (x - 1) + 1 = a.cat)
    ∧ ∀ x, 1 ≤ x → x ≤ exRuns.nsite →
        ∃ a, a ∈ showSegments exRuns ∧ a.first ≤ x ∧ x ≤ a.last :=
  ⟨by decide, by decide, showSegments_run_length exRuns (by decide)⟩

/-- The segment listing is never empty. -/
theorem showSegments_ne_nil (h : PhyloHmm α) : showSegments h ≠ [] := by
  unfold showSegments
  simp

section Unchecked

variable [LinearOrderedField α]

/-- C16 as stated fails: on the object constructed with 2 sites and 1 category over the
uninitialised content of `exSingle` (every `site_categories` cell holds 7), on which
`computeMaxPath` has not run, `showSiteCatMaxLike` emits the line `[1,2]` with category 8. -/
theorem show_before_decode_emits :
    (create Real.log 2 1 exSingle).site_categories = exSingle.site_categories
    ∧ (showSiteCatMaxLike (create Real.log 2 1 exSingle)).1
      = [{ first := 1, last := 2, cat := 8 }]
    ∧ (showSiteCatMaxLike (create Real.log 2 1 exSingle)).1 ≠ [] := by
  refine ⟨rfl, ?_, ?_⟩ <;> decide

/-- C16 amended: `showSiteCatMaxLike` does not test whether `computeMaxPath` has run and
signals no error: on every instance with `nsite ≥ 1`, also one just constructed, it emits a
non-empty segment listing, the run-length encoding of whatever `site_categories` holds (for a
constructed object: the content the array had when it was allocated). -/
theorem show_unchecked (logf : α → α) (n_site n_cat : Nat) (fresh h : PhyloHmm α)
    (hs0 : 1 ≤ n_site) (hs : 1 ≤ h.nsite) :
    (showSiteCatMaxLike (create logf n_site n_cat fresh)).1 ≠ []
    ∧ (showSiteCatMaxLike (create logf n_site n_cat fresh)).1
      = showSegments { fresh with nsite := n_site }
    ∧ (∀ a, a ∈ (showSiteCatMaxLike (create logf n_site n_cat fresh)).1 →
        1 ≤ a.first ∧ a.first ≤ a.last ∧ a.last ≤ n_site
        ∧ ∀ x, a.first ≤ x → x ≤ a.last → fresh.site_categories (x - 1) + 1 = a.cat)
    ∧ (showSiteCatMaxLike h).1 ≠ []
    ∧ ∀ a, a ∈ (showSiteCatMaxLike h).1 →
        1 ≤ a.first ∧ a.first ≤ a.last ∧ a.last ≤ h.nsite
        ∧ ∀ x, a.first ≤ x → x ≤ a.last → h.site_categories (x - 1) + 1 = a.cat := by
  refine ⟨showSegments_ne_nil _, rfl, ?_, showSegments_ne_nil _, ?_⟩
  · exact (showSegments_rle (create logf n_site n_cat fresh) hs0).2.2.2.1
  · exact (showSegments_rle h hs).2.2.2.1

/-- Instance of the amended C16 at the construction with 2 sites and 1 category over
`exSingle` and at `exSingle`. -/
theorem show_unchecked_witness :
    (1 ≤ 2 ∧ 1 ≤ exSingle.nsite)
    ∧ (showSiteCatMaxLike (create Real.log 2 1 exSingle)).1 ≠ []
    ∧ (showSiteCatMaxLike (create Real.log 2 1 exSingle)).1
      = showSegments { exSingle with nsite := 2 }
    ∧ (∀ a, a ∈ (showSiteCatMaxLike (create Real.log 2 1 exSingle)).1 →
        1 ≤ a.first ∧ a.first ≤ a.last ∧ a.last ≤ 2
        ∧ ∀ x, a.first ≤ x → x ≤ a.last → exSingle.site_categories (x - 1) + 1 = a.cat)
    ∧ (showSiteCatMaxLike exSingle).1 ≠ []
    ∧ ∀ a, a ∈ (showSiteCatMaxLike exSingle).1 →
        1 ≤ a.first ∧ a.first ≤ a.last ∧ a.last ≤ exSingle.nsite
        ∧ ∀ x, a.first ≤ x → x ≤ a.last → exSingle.site_categories (x - 1) + 1 = a.cat :=
  ⟨⟨by decide, by decide⟩,
    show_unchecked Real.log 2 1 exSingle exSingle (by decide) (by decide)⟩

/-- C12 as stated fails: construction with `nsite = 0` and `ncat = 0`, with `nsite = 0`
alone and with `ncat = 0` alone does not fail; it returns an object with these sizes. -/
theorem construct_zero_returns :
    (∃ inst, construct Real.log 0 0 exAsym = Except.ok inst ∧ inst.nsite = 0 ∧ inst.ncat = 0)
    ∧ (∃ inst, construct Real.log 0 2 exAsym = Except.ok inst ∧ inst.nsite = 0 ∧ inst.ncat = 2)
    ∧ ∃ inst, construct Real.log 2 0 exAsym = Except.ok inst ∧ inst.nsite = 2 ∧ inst.ncat = 0 :=
  ⟨⟨_, rfl, rfl, rfl⟩, ⟨_, rfl, rfl, rfl⟩, ⟨_, rfl, rfl, rfl⟩⟩

/-- C12 amended: the constructor validates nothing and never fails on its arguments: for
every `n_site ≥ 0` and `n_cat ≥ 0`, also 0, it returns an object with `nsite = n_site` and
`ncat = n_cat` whose entries `prob[c]`, `c < ncat`, are `1 / ncat` with `prob_log[c]` their
logarithm, and whose other arrays are as allocated. -/
theorem construct_returns (logf : α → α) (n_site n_cat : Nat) (fresh : PhyloHmm α) :
    ∃ inst, construct logf n_site n_cat fresh = Except.ok inst
      ∧ inst.nsite = n_site ∧ inst.ncat = n_cat
      ∧ (∀ c, c < n_cat →
          inst.prob c = 1 / (n_cat : α) ∧ inst.prob_log c = logf (1 / (n_cat : α)))
      ∧ inst.site_categories = fresh.site_categories
      ∧ inst.site_like_cat = fresh.site_like_cat
      ∧ inst.next_cat = fresh.next_cat := by
  refine ⟨_, rfl, rfl, rfl, ?_, rfl, rfl, rfl⟩
  intro c hc
  simp only [create, computeLogProb, fillLoop, hc, if_true, and_self]

/-- When `ncat ≤ nsite` and every decoded category is below `ncat`, no index of the
statistics leaves the blocks of `nsite` cells. -/
theorem showStats_isSome (h : PhyloHmm α) (hle : h.ncat ≤ h.nsite)
    (hcat : ∀ i, i < h.nsite → h.site_categories i < h.ncat) : (showStats h).isSome := by
  have h1 : ∃ a : List Nat,
      forLoop (countStep h) 0 h.nsite (some (List.replicate h.nsite 0)) = some a
      ∧ a.length = h.nsite := by
    refine forLoop_inv (fun _ st => ∃ a : List Nat, st = some a ∧ a.length = h.nsite)
      (countStep h) 0 h.nsite _ ⟨_, rfl, List.length_replicate _ _⟩ ?_
    rintro m t hm ⟨a, rfl, ha⟩
    have hlt : h.site_categories (0 + m) < a.length := by
      rw [ha]
      exact lt_of_lt_of_le (hcat _ (by omega)) hle
    refine ⟨a.set (h.site_categories (0 + m)) (a.getD (h.site_categories (0 + m)) 0 + 1),
      ?_, ?_⟩
    · simp only [countStep, Option.some_bind, hlt, if_true]
    · rw [List.length_set, ha]
  obtain ⟨a, ha, hal⟩ := h1
  have h2 : ∃ p : List Nat × List α,
      forLoop (rateStep h) 0 h.ncat
        (Option.map (fun a => (a, List.replicate h.nsite (0 : α))) (some a)) = some p
      ∧ p.1.length = h.nsite ∧ p.2.length = h.nsite := by
    refine forLoop_inv (fun _ st => ∃ p : List Nat × List α, st = some p
      ∧ p.1.length = h.nsite ∧ p.2.length = h.nsite) (rateStep h) 0 h.ncat _
      ⟨_, rfl, hal, List.length_replicate _ _⟩ ?_
    rintro m t hm ⟨p, rfl, hp1, hp2⟩
    have hlt : 0 + m < p.1.length ∧ 0 + m < p.2.length := by
      rw [hp1, hp2]
      omega
    refine ⟨(p.1, p.2.set (0 + m) ((p.1.getD (0 + m) 0 : α) / (h.nsite : α))), ?_, hp1, ?_⟩
    · simp only [rateStep, Option.some_bind, hlt, and_self, if_true]
    · simp only [List.length_set, hp2]
  obtain ⟨p, hp, _⟩ := h2
  simp only [Option.map_some'] at hp
  simp only [showStats, ha, Option.map_some', hp, Option.isSome_some]

end Unchecked

/-- C19 (defect in the code): on `exOneSite` (`nsite = 1`, `ncat = 2`, decoded category 1,
which is below `ncat`) the blocks `numSites` and `rateSites` have `nsite = 1` cell and
`numSites[site_categories[0]]` is `numSites[1]`, outside the block; with decoded category 0
the loop over the categories reaches `numSites[1]` and `rateSites[1]`. -/
theorem showStats_leaves_block :
    1 ≤ exOneSite.nsite ∧ 1 ≤ exOneSite.ncat
    ∧ (∀ i, i < exOneSite.nsite → exOneSite.site_categories i < exOneSite.ncat)
    ∧ showStats exOneSite = none
    ∧ countStep exOneSite 0 (some (List.replicate exOneSite.nsite 0)) = none
    ∧ showStats { exOneSite with site_categories := fun _ => 0 } = none := by
  refine ⟨by decide, by decide, by decide, ?_, ?_, ?_⟩ <;> rfl

end PhyloHmm

namespace PhyloHmm

variable {α : Type}

/-! ## computeMaxPath: the indexes stay inside the arrays -/

theorem forLoopLog_succ {σ : Type} (body : Nat → σ → σ) (acc : Nat → σ → List Access)
    (lo n : Nat) (s : σ) :
    forLoopLog body acc lo (n + 1) s
      = forLoopLog body acc lo n s ++ acc (lo + n) (forLoop body lo n s) := by
  induction n generalizing lo s with
  | zero => simp [forLoopLog, forLoop]
  | succ n ih =>
    have e : lo + 1 + n = lo + (n + 1) := by omega
    rw [forLoopLog, ih (lo + 1) (body lo s), e, ← List.append_assoc]
    rfl

/-- An access is in the log of a loop exactly when it is an access of one of its rounds. -/
theorem mem_forLoopLog {σ : Type} (body : Nat → σ → σ) (acc : Nat → σ → List Access)
    (lo n : Nat) (s : σ) (a : Access) :
    a ∈ forLoopLog body acc lo n s ↔ ∃ m, m < n ∧ a ∈ acc (lo + m) (forLoop body lo m s) := by
  induction n with
  | zero => simp [forLoopLog]
  | succ n ih =>
    rw [forLoopLog_succ, List.mem_append, ih]
    constructor
    · rintro (⟨m, hm, ha⟩ | ha)
      · exact ⟨m, Nat.lt_succ_of_lt hm, ha⟩
      · exact ⟨n, Nat.lt_succ_self n, ha⟩
    · rintro ⟨m, hm, ha⟩
      rcases Nat.lt_or_ge m n with h1 | h1
      · exact Or.inl ⟨m, h1, ha⟩
      · have : m = n := by omega
        subst this
        exact Or.inr ha

theorem inRows_of_samePtr (ncat : Nat) (s t : Locals α) (a : Access) (hp : SamePtr s t)
    (ha : InRows ncat t a) : InRows ncat s a := by
  obtain ⟨l, hl, ha⟩ := ha
  obtain ⟨h1, h2, h3⟩ := hp
  rw [h1, h2, h3] at ha
  exact ⟨l, hl, ha⟩

section Bounds

variable [LinearOrder α] [Add α]

theorem maxPathL_samePtr (h : PhyloHmm α) (j l : Nat) (s : Locals α) :
    SamePtr s (maxPathL h j l s) := by
  unfold maxPathL SamePtr
  simp only
  split <;> exact ⟨rfl, rfl, rfl⟩

theorem maxPathL_loop_samePtr (h : PhyloHmm α) (j lo n : Nat) (s : Locals α) :
    SamePtr s (forLoop (maxPathL h j) lo n s) := by
  refine forLoop_inv (fun _ t => SamePtr s t) (maxPathL h j) lo n s ⟨rfl, rfl, rfl⟩ ?_
  intro m t _ ht
  obtain ⟨h1, h2, h3⟩ := maxPathL_samePtr h j (lo + m) t
  exact ⟨h1.trans ht.1, h2.trans ht.2.1, h3.trans ht.2.2⟩

theorem maxPathJ_samePtr (h : PhyloHmm α) (j : Nat) (s : Locals α) :
    SamePtr s (maxPathJ h j s) := by
  have hp := maxPathL_loop_samePtr h j 1 (h.ncat - 1)
    { s with
      work_arr := Function.update s.work_arr (s.work + j)
        (h.transitLog (s.transit_arr + 0) + s.work_arr (s.pre_work + 0))
      next_cat := Function.update s.next_cat (s.next_cat_arr + j) 0 }
  exact ⟨hp.1, hp.2.1, hp.2.2⟩

theorem maxPathJ_loop_samePtr (h : PhyloHmm α) (lo n : Nat) (s : Locals α) :
    SamePtr s (forLoop (maxPathJ h) lo n s) := by
  refine forLoop_inv (fun _ t => SamePtr s t) (maxPathJ h) lo n s ⟨rfl, rfl, rfl⟩ ?_
  intro m t _ ht
  obtain ⟨h1, h2, h3⟩ := maxPathJ_samePtr h (lo + m) t
  exact ⟨h1.trans ht.1, h2.trans ht.2.1, h3.trans ht.2.2⟩

theorem maxPathLLog_inRows (h : PhyloHmm α) (j l : Nat) (s : Locals α) (hj : j < h.ncat)
    (hl : l < h.ncat) (a : Access) (ha : a ∈ maxPathLLog h j l s) : InRows h.ncat s a := by
  unfold maxPathLLog at ha
  rcases List.mem_append.mp ha with ha | ha
  · simp only [List.mem_cons, List.mem_singleton, List.not_mem_nil, or_false] at ha
    rcases ha with rfl | rfl
    · exact ⟨l, hl, Or.inl ⟨rfl, Or.inl rfl⟩⟩
    · exact ⟨j, hj, Or.inl ⟨rfl, Or.inr rfl⟩⟩
  · split at ha
    · simp only [List.mem_cons, List.mem_singleton, List.not_mem_nil, or_false] at ha
      rcases ha with rfl | rfl
      · exact ⟨j, hj, Or.inl ⟨rfl, Or.inr rfl⟩⟩
      · exact ⟨j, hj, Or.inr rfl⟩
    · simp at ha

theorem maxPathJLog_inRows (h : PhyloHmm α) (j : Nat) (s : Locals α) (hj : j < h.ncat)
    (a : Access) (ha : a ∈ maxPathJLog h j s) : InRows h.ncat s a := by
  unfold maxPathJLog at ha
  simp only [List.mem_append, List.mem_cons, List.mem_singleton, List.not_mem_nil,
    or_false] at ha
  have hp := maxPathL_loop_samePtr h j 1 (h.ncat - 1)
    { s with
      work_arr := Function.update s.work_arr (s.work + j)
        (h.transitLog (s.transit_arr + 0) + s.work_arr (s.pre_work + 0))
      next_cat := Function.update s.next_cat (s.next_cat_arr + j) 0 }
  rcases ha with ((rfl | rfl | rfl) | ha) | (ha | ha)
  · exact ⟨0, by omega, Or.inl ⟨rfl, Or.inl rfl⟩⟩
  · exact ⟨j, hj, Or.inl ⟨rfl, Or.inr rfl⟩⟩
  · exact ⟨j, hj, Or.inr rfl⟩
  · obtain ⟨m, hm, ha⟩ := (mem_forLoopLog _ _ _ _ _ _).mp ha
    have hin := maxPathLLog_inRows h j (1 + m) _ hj (by omega) a ha
    have hq := maxPathL_loop_samePtr h j 1 m
      { s with
        work_arr := Function.update s.work_arr (s.work + j)
          (h.transitLog (s.transit_arr + 0) + s.work_arr (s.pre_work + 0))
        next_cat := Function.update s.next_cat (s.next_cat_arr + j) 0 }
    exact inRows_of_samePtr h.ncat s _ a ⟨hq.1, hq.2.1, hq.2.2⟩ hin
  · rw [ha, hp.2.1]
    exact ⟨j, hj, Or.inl ⟨rfl, Or.inr rfl⟩⟩
  · rw [ha, hp.2.1]
    exact ⟨j, hj, Or.inl ⟨rfl, Or.inr rfl⟩⟩

theorem row_bound {k n l R : Nat} (hk : k < R) (hl : l < n) : k * n + l < R * n := by
  have h1 : (k + 1) * n ≤ R * n := Nat.mul_le_mul_right n hk
  rw [Nat.succ_mul] at h1
  omega

/-- The accesses of round `i` of the loop over `i` stay in the two rows of `work_arr` and
store into row `nsite - i - 1` of `next_cat`. -/
theorem maxPathILog_spec (h : PhyloHmm α) (i : Nat) (s : Locals α) (a : Access)
    (ha : a ∈ maxPathILog h i s) :
    ∃ l, l < h.ncat
      ∧ ((a.arr = Arr.work_arr
          ∧ (a.idx = s.pre_work + l ∨ a.idx = (s.pre_k + 1) % 2 * h.ncat + l))
        ∨ a = { arr := Arr.next_cat, idx := (h.nsite - i - 1) * h.ncat + l, store := true }) := by
  unfold maxPathILog at ha
  obtain ⟨m, hm, ha⟩ := (mem_forLoopLog _ _ _ _ _ _).mp ha
  have hin := maxPathJLog_inRows h (0 + m) _ (by omega) a ha
  have hq := maxPathJ_loop_samePtr h 0 m
    { s with
      k := (s.pre_k + 1) % 2
      work := (s.pre_k + 1) % 2 * h.ncat
      site_lh_arr := s.site_lh_arr + h.ncat
      transit_arr := 0
      next_cat_arr := (h.nsite - i - 1) * h.ncat }
  exact inRows_of_samePtr h.ncat _ _ a hq hin

/-- Every cell `j < ncat` of the row written for round `i` is stored in that round. -/
theorem mem_maxPathILog_store (h : PhyloHmm α) (i : Nat) (s : Locals α) (j : Nat)
    (hj : j < h.ncat) :
    ({ arr := Arr.next_cat, idx := (h.nsite - i - 1) * h.ncat + j, store := true } : Access)
      ∈ maxPathILog h i s := by
  unfold maxPathILog
  refine (mem_forLoopLog _ _ _ _ _ _).mpr ⟨j, hj, ?_⟩
  have hq := maxPathJ_loop_samePtr h 0 j
    { s with
      k := (s.pre_k + 1) % 2
      work := (s.pre_k + 1) % 2 * h.ncat
      site_lh_arr := s.site_lh_arr + h.ncat
      transit_arr := 0
      next_cat_arr := (h.nsite - i - 1) * h.ncat }
  unfold maxPathJLog
  simp only [List.mem_append, List.mem_cons, List.mem_singleton]
  refine Or.inl (Or.inl (Or.inr (Or.inr (Or.inl ?_))))
  rw [hq.2.2, Nat.zero_add]

/-- The loop choosing the start category ends with the pair `vitStart`. -/
theorem maxPathStart_eq_vitStart (h : PhyloHmm α) (hc : 1 ≤ h.ncat) :
    forLoop (maxPathStart h (maxPathLoop h (h.nsite - 1))) 1 (h.ncat - 1)
      (h.prob_log 0 + (maxPathLoop h (h.nsite - 1)).work_arr
        ((maxPathLoop h (h.nsite - 1)).pre_work + 0), 0) = vitStart h := by
  have inv := maxPathLoop_inv h (h.nsite - 1) le_rfl
  rw [maxPathStart_loop, vitStart]
  apply maxScan_congr
  intro l hl
  rw [inv.row_eq l (by omega)]

/-- The accesses of the forward pass: cells of `work_arr` below `2 * ncat`, and stores into
the rows `0..nsite-2` of `next_cat`. -/
theorem mem_maxPathFwdLog (h : PhyloHmm α) (hc : 1 ≤ h.ncat) (a : Access)
    (ha : a ∈ maxPathFwdLog h) :
    (a.arr = Arr.work_arr ∧ a.idx < 2 * h.ncat)
    ∨ ∃ r l, r + 2 ≤ h.nsite ∧ l < h.ncat
        ∧ a = { arr := Arr.next_cat, idx := r * h.ncat + l, store := true } := by
  unfold maxPathFwdLog at ha
  rcases List.mem_append.mp ha with ha | ha
  · obtain ⟨x, hx, rfl⟩ := List.mem_map.mp ha
    have := List.mem_range.mp hx
    exact Or.inl ⟨rfl, by simp only; omega⟩
  · obtain ⟨m, hm, ha⟩ := (mem_forLoopLog _ _ _ _ _ _).mp ha
    have inv := maxPathLoop_inv h m (by omega)
    obtain ⟨l, hl, hcase⟩ := maxPathILog_spec h (1 + m) (maxPathLoop h m) a ha
    rcases hcase with ⟨h1, h2 | h2⟩ | h2
    · refine Or.inl ⟨h1, ?_⟩
      rw [h2, inv.pre_work_eq]
      exact row_bound inv.pre_k_lt hl
    · refine Or.inl ⟨h1, ?_⟩
      rw [h2]
      exact row_bound (Nat.mod_lt _ (by decide)) hl
    · exact Or.inr ⟨h.nsite - (1 + m) - 1, l, by omega, hl, h2⟩

/-- The accesses after the forward pass. -/
theorem mem_maxPathEndLog (h : PhyloHmm α) (hc : 1 ≤ h.ncat) (a : Access)
    (ha : a ∈ maxPathEndLog h) :
    (a.arr = Arr.work_arr ∧ a.idx < 2 * h.ncat)
    ∨ a = { arr := Arr.site_categories, idx := 0, store := true }
    ∨ ∃ m, m < h.nsite - 1
        ∧ (a = { arr := Arr.next_cat, idx := m * h.ncat + vitPath h m, store := false }
          ∨ a = { arr := Arr.site_categories, idx := m + 1, store := true }) := by
  have inv := maxPathLoop_inv h (h.nsite - 1) le_rfl
  unfold maxPathEndLog at ha
  simp only [maxPathStart_eq_vitStart h hc, List.mem_append, List.mem_cons,
    List.mem_singleton, List.not_mem_nil, or_false, mem_forLoopLog] at ha
  rcases ha with ((rfl | ⟨m, hm, rfl⟩) | rfl) | ⟨m, hm, ha⟩
  · refine Or.inl ⟨rfl, ?_⟩
    simp only [inv.pre_work_eq]
    exact row_bound inv.pre_k_lt hc
  · refine Or.inl ⟨rfl, ?_⟩
    simp only [inv.pre_work_eq]
    exact row_bound inv.pre_k_lt (by omega)
  · exact Or.inr (Or.inl rfl)
  · refine Or.inr (Or.inr ⟨m, hm, ?_⟩)
    rw [(maxPathTrace_loop h hc m (by omega)).1, Nat.zero_add] at ha
    exact ha

/-- C18: for `nsite ≥ 1` and `ncat ≥ 1`, every index `computeMaxPath` uses into `work_arr`,
`next_cat` and `site_categories` is below `2 * ncat`, `nsite * ncat` and `nsite`
respectively; every read of `next_cat` (all are in the traceback) is of an entry
`next_cat[r * ncat + c]` with `r ≤ nsite - 2` and `c < ncat` that the forward pass of the
same call has stored; and on return every `site_categories[i]`, `i < nsite`, is below
`ncat`. -/
theorem computeMaxPath_indexes (h : PhyloHmm α) (hs : 1 ≤ h.nsite) (hc : 1 ≤ h.ncat) :
    (∀ a, a ∈ maxPathFwdLog h ++ maxPathEndLog h → a.idx < cells h a.arr)
    ∧ (∀ a, a ∈ maxPathFwdLog h ++ maxPathEndLog h → a.arr = Arr.next_cat →
        a.store = false →
        ∃ r c, a.idx = r * h.ncat + c ∧ r + 2 ≤ h.nsite ∧ c < h.ncat
          ∧ ({ arr := Arr.next_cat, idx := a.idx, store := true } : Access)
              ∈ maxPathFwdLog h)
    ∧ ∀ i, i < h.nsite → (computeMaxPath h).2.site_categories i < h.ncat := by
  refine ⟨?_, ?_, ?_⟩
  · intro a ha
    rcases List.mem_append.mp ha with ha | ha
    · rcases mem_maxPathFwdLog h hc a ha with ⟨h1, h2⟩ | ⟨r, l, hr, hl, rfl⟩
      · rw [h1]
        exact h2
      · exact row_bound (R := h.nsite) (by omega) hl
    · rcases mem_maxPathEndLog h hc a ha with ⟨h1, h2⟩ | rfl | ⟨m, hm, rfl | rfl⟩
      · rw [h1]
        exact h2
      · exact hs
      · exact row_bound (R := h.nsite) (by omega) (vitPath_lt h m hc)
      · show m + 1 < h.nsite
        omega
  · intro a ha harr hst
    rcases List.mem_append.mp ha with ha | ha
    · rcases mem_maxPathFwdLog h hc a ha with ⟨h1, _⟩ | ⟨r, l, _, _, rfl⟩
      · rw [h1] at harr
        exact absurd harr (by decide)
      · simp at hst
    · rcases mem_maxPathEndLog h hc a ha with ⟨h1, _⟩ | rfl | ⟨m, hm, rfl | rfl⟩
      · rw [h1] at harr
        exact absurd harr (by decide)
      · exact absurd harr (by decide)
      · refine ⟨m, vitPath h m, rfl, by omega, vitPath_lt h m hc, ?_⟩
        unfold maxPathFwdLog
        refine List.mem_append.mpr (Or.inr ((mem_forLoopLog _ _ _ _ _ _).mpr
          ⟨h.nsite - 2 - m, by omega, ?_⟩))
        have e : h.nsite - (1 + (h.nsite - 2 - m)) - 1 = m := by omega
        have key := mem_maxPathILog_store h (1 + (h.nsite - 2 - m))
          (forLoop (maxPathI h) 1 (h.nsite - 2 - m) (initLocals h)) (vitPath h m)
          (vitPath_lt h m hc)
        rw [e] at key
        exact key
      · simp at harr
  · intro i hi
    rw [(computeMaxPath_rows h hc).2.2 i (by omega)]
    exact vitPath_lt h i hc

/-- Instance of C18 at `exTwoRows`. -/
theorem computeMaxPath_indexes_witness :
    1 ≤ exTwoRows.nsite ∧ 1 ≤ exTwoRows.ncat
    ∧ (∀ a, a ∈ maxPathFwdLog exTwoRows ++ maxPathEndLog exTwoRows →
        a.idx < cells exTwoRows a.arr)
    ∧ (∀ a, a ∈ maxPathFwdLog exTwoRows ++ maxPathEndLog exTwoRows →
        a.arr = Arr.next_cat → a.store = false →
        ∃ r c, a.idx = r * exTwoRows.ncat + c ∧ r + 2 ≤ exTwoRows.nsite
          ∧ c < exTwoRows.ncat
          ∧ ({ arr := Arr.next_cat, idx := a.idx, store := true } : Access)
              ∈ maxPathFwdLog exTwoRows)
    ∧ ∀ i, i < exTwoRows.nsite →
        (computeMaxPath exTwoRows).2.site_categories i < exTwoRows.ncat :=
  ⟨by decide, by decide, computeMaxPath_indexes exTwoRows (by decide) (by decide)⟩

end Bounds

end PhyloHmm
